import Mathlib

/-!
# RyougiDB: a read-only, disk-backed key-value store

A shallow embedding of `src/db/ryougidb.cc` / `src/db/ryougidb.h`.

* Bytes are `Fin 256`; `std::string` values and file contents are `List Byte`.
* `uint32_t` values are natural numbers, reduced `% 2 ^ 32` wherever the C++
  arithmetic can wrap.
* The file system is an explicit `Disk` value that is passed through every
  operation; the directory `dbname` is the disk.
* An operation returns `Option` where the source can be without a defined
  result (a remainder by zero, a dangling list iterator, `back()` of an empty
  list) and where a loop model can run out of fuel; `none` stands for both.
  The theorems show which inputs give `some`.
* `write(str.c_str(), n)` with `n` above `str.size() + 1` reads on past the
  terminator of the string.  The bytes found there are not fixed by the
  program; they are a parameter of the environment (`Disk.slack`).
* `RyougiDB::Get` takes `key` and `value` by reference.  The model of `Get`
  is told whether the caller passed one string for both.
-/

namespace ryougidb

/-! ## Bytes, strings and status codes -/

/-- One byte of a file, or one `char` of a `std::string`. -/
abbrev Byte := Fin 256

/-- The code held by `ryougidb::Status` (`Status::Code`); the message is dropped. -/
inductive Status where
  | OK
  | NotFound
  | Corruption
  | IOError
  | NotSupported
  deriving DecidableEq, Repr

/-- `Status::IsOK`. -/
def Status.IsOK (s : Status) : Bool :=
  match s with
  | Status.OK => true
  | _ => false

/-- `RyougiDB::kDefaultTableSize`. -/
def kDefaultTableSize : Nat := 1048576

/-- `RyougiDB::kDefaultBufferSize`. -/
def kDefaultBufferSize : Nat := 4096

/-- `RyougiDB::kMaxKeySize`. -/
def kMaxKeySize : Nat := 32

/-- `RyougiDB::kMaxValueSize`. -/
def kMaxValueSize : Nat := 256

/-- `LRUCache::kDefaultCacheSize`. -/
def kDefaultCacheSize : Nat := 4096

/-- The modulus of `uint32_t` arithmetic. -/
def u32 : Nat := 4294967296

/-- The four bytes of a `uint32_t` in host order (little endian on the x86
Windows targets that `io.h` / `direct.h` select), as written by
`write(reinterpret_cast<const char *>(&n), sizeof(uint32_t))`. -/
def encodeU32 (n : Nat) : List Byte :=
  [⟨n % 256, Nat.mod_lt _ (by decide)⟩,
   ⟨n / 256 % 256, Nat.mod_lt _ (by decide)⟩,
   ⟨n / 65536 % 256, Nat.mod_lt _ (by decide)⟩,
   ⟨n / 16777216 % 256, Nat.mod_lt _ (by decide)⟩]

/-- The `uint32_t` held by four bytes in host order. -/
def decodeU32 (b0 b1 b2 b3 : Byte) : Nat :=
  b0.val + 256 * b1.val + 65536 * b2.val + 16777216 * b3.val

/-- The call `byte_stream.read(buf, n)` on an input stream whose unread bytes
are `s`: the `n` bytes read and the rest of the stream, or `none` when fewer
than `n` bytes are left (the stream then fails and the caller sees `false`). -/
def readBytes (n : Nat) (s : List Byte) : Option (List Byte × List Byte) :=
  if n ≤ s.length then some (s.take n, s.drop n) else none

/-- The call `byte_stream.read(reinterpret_cast<char *>(&x), sizeof(uint32_t))`. -/
def readU32 (s : List Byte) : Option (Nat × List Byte) :=
  match s with
  | b0 :: b1 :: b2 :: b3 :: rest => some (decodeU32 b0 b1 b2 b3, rest)
  | _ => none

/-- The `std::string` built from a `char *` buffer that holds `buf` followed by
the terminator the caller stored (`key[key_size] = 0; std::string read_key(key)`):
the bytes before the first zero byte. -/
def cstr (buf : List Byte) : List Byte :=
  buf.takeWhile (fun b => b ≠ 0)

/-- The `n` bytes that `write(str.c_str(), n)` takes from a string: `c_str()`
points at the `str.size()` characters followed by one terminator.  A call with
`n` above `str.size() + 1` reads on past the terminator; `slack str i` is the
byte it finds `i` positions after the terminator of a string holding `str`. -/
def cread (slack : List Byte → Nat → Byte) (str : List Byte) (n : Nat) : List Byte :=
  (str ++ [0] ++ (List.range (n - (str.length + 1))).map (slack str)).take n

/-- The value `ch` takes in `hash * 131 + ch`: `char` is signed on the Windows
targets of this code, so a byte of 128 or more is sign extended and then
converted to `uint32_t`. -/
def charToU32 (ch : Byte) : Nat :=
  if ch.val < 128 then ch.val else ch.val + (u32 - 256)

/-- `RyougiDB::Hash`: the BKDR hash of `str` in `uint32_t` arithmetic. -/
def RyougiDB.Hash (str : List Byte) : Nat :=
  str.foldl (fun hash ch => (hash * 131 + charToU32 ch) % u32) 0

/-- The bucket id `RyougiDB::Get` computes for `key` (source line 168). -/
def getFileId (table_size : Nat) (key : List Byte) : Nat :=
  RyougiDB.Hash key % table_size

/-- The bucket id `RyougiDB::Create` computes for a record whose key bytes in
the dump are `key` (source lines 120 to 126): the bytes go through a `char *`
buffer into `read_key`, which is what is hashed. -/
def createFileId (table_size : Nat) (key : List Byte) : Nat :=
  RyougiDB.Hash (cstr key) % table_size

/-! ## The disk -/

/-- The files below `dbname`, with what the environment decides: the faults,
and the bytes a read past the terminator of a string finds.
`data N` is the content of `dbname/data/data<N>` when that file exists,
`table` the content of `dbname/table/table`; `slack` is the argument of `cread`. -/
structure Disk where
  root : Bool
  dataDir : Bool
  tableDir : Bool
  data : Nat → Option (List Byte)
  table : Option (List Byte)
  mkdirFails : Bool
  appendFails : Nat → Bool
  writeFails : Nat → Bool
  tableFails : Bool
  slack : List Byte → Nat → Byte

/-- A disk with no file and no directory below `dbname`, on which every
operation succeeds; `root` tells whether `dbname` itself exists.  A read past
the terminator of a string finds zero bytes. -/
def Disk.empty (root : Bool) : Disk :=
  { root := root, dataDir := false, tableDir := false,
    data := fun _ => none, table := none,
    mkdirFails := false, appendFails := fun _ => false,
    writeFails := fun _ => false, tableFails := false,
    slack := fun _ _ => 0 }

/-- An empty base directory on which every operation succeeds, in an
environment where a read past the terminator of a string finds `slack`. -/
def Disk.emptyWith (root : Bool) (slack : List Byte → Nat → Byte) : Disk :=
  { Disk.empty root with slack := slack }

/-- Replace the content of bucket file `file_id`. -/
def Disk.setData (d : Disk) (file_id : Nat) (bytes : List Byte) : Disk :=
  { d with data := fun n => if n = file_id then some bytes else d.data n }

/-! ## Retrieve -/

/-- The scan loop of `RyougiDB::Retrieve` over the unread bytes `s` of the
bucket file; one unit of fuel per iteration.  `value` is the caller's output
string, assigned only on a match. -/
def retrieveLoop (key value : List Byte) : Nat → List Byte → Option (Status × List Byte)
  | 0, _ => none
  | fuel + 1, s =>
    match readU32 s with
    | none => some (Status.NotFound, value)
    | some (key_size, s1) =>
      if key_size ≥ kMaxKeySize then some (Status.Corruption, value)
      else
        match readBytes key_size s1 with
        | none => some (Status.IOError, value)
        | some (current_key, s2) =>
          match readU32 s2 with
          | none => some (Status.IOError, value)
          | some (value_size, s3) =>
            if value_size ≥ kMaxValueSize then some (Status.Corruption, value)
            else
              match readBytes value_size s3 with
              | none => some (Status.IOError, value)
              | some (current_value, s4) =>
                if cstr current_key = key then
                  some (Status.OK, cstr current_value)
                else retrieveLoop key value fuel s4

/-- `RyougiDB::Retrieve`.  `value` is the content of the caller's output
string before the call; the result holds the status and the content after the
call.  Each iteration reads at least eight bytes, so a fuel of the file length
plus one is never used up. -/
def RyougiDB.Retrieve (d : Disk) (key : List Byte) (file_id : Nat) (value : List Byte) :
    Option (Status × List Byte) :=
  match d.data file_id with
  | none => some (Status.IOError, value)
  | some bytes => retrieveLoop key value (bytes.length + 1) bytes

/-! ## The LRU cache -/

/-- `LRUCache::CacheNode`. -/
structure CacheNode where
  key : List Byte
  value : List Byte
  deriving DecidableEq, Repr

/-- The state of an `LRUCache`.
`lru` is `lru_`, front first (the front is the most recently used end); every
node of the `std::list` is paired with its address, which is what a list
iterator holds and what stays fixed when the node is spliced.  `table` is
`table_`, from a key to an iterator.  `next` is the allocator: no node lives
at an address of `next` or above. -/
structure LRUCache where
  cache_size : Nat
  lru : List (Nat × CacheNode)
  table : List Byte → Option Nat
  next : Nat

/-- The cache `LRUCache::LRUCache()` builds, for a capacity `cache_size`. -/
def LRUCache.init (cache_size : Nat) : LRUCache :=
  { cache_size := cache_size, lru := [], table := fun _ => none, next := 0 }

/-- `LRUCache::LRUCache()`: the capacity is `kDefaultCacheSize`. -/
def LRUCache.new : LRUCache := LRUCache.init kDefaultCacheSize

/-- The node an iterator refers to, `none` for an iterator that refers to no
node of the list. -/
def nodeAt (lru : List (Nat × CacheNode)) (it : Nat) : Option CacheNode :=
  (lru.find? (fun n => n.1 = it)).map (fun n => n.2)

/-- The list without the node at `it` (addresses are distinct, so this drops
at most one node). -/
def unlink (lru : List (Nat × CacheNode)) (it : Nat) : List (Nat × CacheNode) :=
  lru.filter (fun n => n.1 ≠ it)

/-- `LRUCache::Get`; `value` is the caller's output string.  The key is last
read before `value` is assigned, so the result is the same when the caller
passed one string for both. -/
def LRUCache.Get (c : LRUCache) (key value : List Byte) :
    Option (Status × List Byte × LRUCache) :=
  match c.table key with
  | none => some (Status.NotFound, value, c)
  | some it =>
    match nodeAt c.lru it with
    | none => none
    | some node =>
      -- lru_.splice(lru_.begin(), lru_, table_[key]); table_[key] = lru_.begin()
      some (Status.OK, node.value,
        { c with
          lru := (it, node) :: unlink c.lru it
          table := fun k => if k = key then some it else c.table k })

/-- The eviction step of `LRUCache::Put`: when the list is full, erase the key
of `lru_.back()` from the table and pop the back. -/
def LRUCache.evict (c : LRUCache) : Option LRUCache :=
  if c.lru.length = c.cache_size then
    match c.lru.getLast? with
    | none => none
    | some back =>
      some { c with
        table := fun k => if k = back.2.key then none else c.table k
        lru := c.lru.dropLast }
  else some c

/-- `LRUCache::Put`. -/
def LRUCache.Put (c : LRUCache) (key value : List Byte) : Option (Status × LRUCache) :=
  match c.table key with
  | none =>
    match c.evict with
    | none => none
    | some c1 =>
      -- lru_.push_front(CacheNode{key, value}); table_[key] = lru_.begin()
      some (Status.OK,
        { c1 with
          lru := (c1.next, { key := key, value := value }) :: c1.lru
          table := fun k => if k = key then some c1.next else c1.table k
          next := c1.next + 1 })
  | some it =>
    match nodeAt c.lru it with
    | none => none
    | some node =>
      -- table_[key]->value = value; splice to the front; table_[key] = lru_.begin()
      some (Status.OK,
        { c with
          lru := (it, { node with value := value }) :: unlink c.lru it
          table := fun k => if k = key then some it else c.table k })

/-! ## The database handle -/

/-- The fields of a `RyougiDB` object; `dbname_` is the disk the operations
are given. -/
structure RyougiDB where
  table_size : Nat
  buffer_size : Nat
  cache : LRUCache

/-- `RyougiDB::RyougiDB()`. -/
def RyougiDB.new : RyougiDB :=
  { table_size := kDefaultTableSize, buffer_size := kDefaultBufferSize, cache := LRUCache.new }

/-- `RyougiDB::Get(const std::string &key, std::string &value)`.  `same` tells
that the caller passed one string for `key` and for `value`; that string then
holds `key` before the call, and the argument `value` is not looked at.  The
result holds the status, the content of the output string after the call, and
the handle.  When `Retrieve` returns OK it has assigned the output string, so
with `same` the call `cache_.Put(key, value)` is made with the value found for
both arguments.  `Hash(key) % table_size_` has no defined result for
`table_size_ = 0`. -/
def RyougiDB.Get (db : RyougiDB) (d : Disk) (key value : List Byte) (same : Bool) :
    Option (Status × List Byte × RyougiDB) :=
  match db.cache.Get key (if same then key else value) with
  | none => none
  | some (status, value1, cache1) =>
    if status.IsOK then some (status, value1, { db with cache := cache1 })
    else if db.table_size = 0 then none
    else
      match RyougiDB.Retrieve d key (getFileId db.table_size key) value1 with
      | none => none
      | some (status2, value2) =>
        if status2.IsOK then
          match cache1.Put (if same then value2 else key) value2 with
          | none => none
          | some (_, cache2) => some (status2, value2, { db with cache := cache2 })
        else some (status2, value2, { db with cache := cache1 })

/-! ## Write and Create -/

/-- `RyougiDB::RyougiDataItem`. -/
structure RyougiDataItem where
  key_size : Nat
  key : List Byte
  value_size : Nat
  value : List Byte
  deriving DecidableEq, Repr

/-- The bytes the four `write` calls of `RyougiDB::Write` emit for one item:
the two sizes as stored in the item, and that many bytes of each string. -/
def itemBytes (slack : List Byte → Nat → Byte) (item : RyougiDataItem) : List Byte :=
  encodeU32 item.key_size ++ cread slack item.key item.key_size ++
    encodeU32 item.value_size ++ cread slack item.value item.value_size

/-- The bytes the loop of `RyougiDB::Write` emits for `data`. -/
def writeItems (slack : List Byte → Nat → Byte) : List RyougiDataItem → List Byte
  | [] => []
  | item :: rest => itemBytes slack item ++ writeItems slack rest

/-- `RyougiDB::Write`: open `data<file_id>` in append mode (which creates it
when it is absent) and append the items. -/
def RyougiDB.Write (d : Disk) (file_id : Nat) (data : List RyougiDataItem) :
    Status × Disk :=
  if !d.dataDir || d.appendFails file_id then (Status.IOError, d)
  else
    match data with
    | [] => (Status.OK, d.setData file_id ((d.data file_id).getD []))
    | _ :: _ =>
      if d.writeFails file_id then
        (Status.IOError, d.setData file_id ((d.data file_id).getD []))
      else
        (Status.OK, d.setData file_id ((d.data file_id).getD [] ++ writeItems d.slack data))

/-- The local variables of `RyougiDB::Create` that live across iterations:
`status`, the vectors `space` and `table` (indexed by bucket id), and the disk. -/
structure CreateState where
  status : Status
  space : Nat → Nat
  table : Nat → List RyougiDataItem
  disk : Disk

/-- How the streaming loop of `RyougiDB::Create` ends: by a `return` inside the
loop body, or because the read of the next key size failed. -/
inductive CreateExit where
  | returned (status : Status) (disk : Disk)
  | finished (st : CreateState)

/-- What one iteration of the streaming loop of `RyougiDB::Create` does with
the record it has read (source lines 120 to 139): `key` and `value` are the
bytes read into the two buffers, `key_size` and `value_size` the declared
lengths.  `Hash(read_key) % table_size_` has no defined result for
`table_size_ = 0`; the result of the `Write` in the overflow branch is stored
in `status` and not looked at. -/
def createBody (table_size buffer_size : Nat) (st : CreateState)
    (key_size : Nat) (key : List Byte) (value_size : Nat) (value : List Byte) :
    Option CreateState :=
  if table_size = 0 then none
  else
    let read_key := cstr key
    let read_value := cstr value
    let file_id := createFileId table_size key
    let item_size := 4 + 4 + key_size + value_size
    if (st.space file_id + item_size) % u32 ≤ buffer_size then
      some
        { st with
          table := fun n =>
            if n = file_id then
              st.table file_id ++
                [{ key_size := key_size, key := read_key,
                   value_size := value_size, value := read_value }]
            else st.table n
          space := fun n =>
            if n = file_id then (st.space file_id + item_size) % u32 else st.space n }
    else
      some
        { status := (RyougiDB.Write st.disk file_id (st.table file_id)).1
          space := fun n => if n = file_id then 0 else st.space n
          table := fun n => if n = file_id then [] else st.table n
          disk := (RyougiDB.Write st.disk file_id (st.table file_id)).2 }

/-- The streaming loop of `RyougiDB::Create` (source lines 94 to 140) over the
unread bytes `s` of the dump; one unit of fuel per iteration. -/
def createLoop (table_size buffer_size : Nat) :
    Nat → List Byte → CreateState → Option CreateExit
  | 0, _, _ => none
  | fuel + 1, s, st =>
    match readU32 s with
    | none => some (CreateExit.finished st)
    | some (key_size, s1) =>
      if key_size ≥ kMaxKeySize then some (CreateExit.returned Status.NotSupported st.disk)
      else
        match readBytes key_size s1 with
        | none => some (CreateExit.returned Status.IOError st.disk)
        | some (key, s2) =>
          match readU32 s2 with
          | none => some (CreateExit.returned Status.IOError st.disk)
          | some (value_size, s3) =>
            if value_size ≥ kMaxValueSize then
              some (CreateExit.returned Status.NotSupported st.disk)
            else
              match readBytes value_size s3 with
              | none => some (CreateExit.returned Status.IOError st.disk)
              | some (value, s4) =>
                match createBody table_size buffer_size st key_size key value_size value with
                | none => none
                | some st1 => createLoop table_size buffer_size fuel s4 st1

/-- The final loop of `RyougiDB::Create` (source lines 142 to 155) over the
bucket ids still to visit, ending in `return status`. -/
def flushAll : List Nat → CreateState → Status × Disk
  | [], st => (st.status, st.disk)
  | file_id :: rest, st =>
    if (st.table file_id).length > 0 then
      if !(RyougiDB.Write st.disk file_id (st.table file_id)).1.IsOK then
        RyougiDB.Write st.disk file_id (st.table file_id)
      else
        flushAll rest
          { status := (RyougiDB.Write st.disk file_id (st.table file_id)).1
            space := fun n => if n = file_id then 0 else st.space n
            table := fun n => if n = file_id then [] else st.table n
            disk := (RyougiDB.Write st.disk file_id (st.table file_id)).2 }
    else flushAll rest st

/-- `CreateDir` guarded by `IsFileExist`, for the directory whose presence is
`present`: the status and whether the directory exists afterwards. -/
def ensureDir (d : Disk) (present : Bool) : Status × Bool :=
  if present then (Status.OK, true)
  else if d.mkdirFails then (Status.IOError, false)
  else (Status.OK, true)

/-- `RyougiDB::Create`.  `source` is the content of the file `pathname`, `none`
when it cannot be opened.  Each iteration of the streaming loop reads at least
eight bytes, so a fuel of the dump length plus one is never used up. -/
def RyougiDB.Create (db : RyougiDB) (d : Disk) (source : Option (List Byte))
    (table_size buffer_size : Nat) : Option (Status × RyougiDB × Disk) :=
  let db1 : RyougiDB := { db with table_size := table_size, buffer_size := buffer_size }
  match source with
  | none => some (Status.IOError, db1, d)
  | some bytes =>
    match ensureDir d d.root with
    | (Status.OK, root1) =>
      let d1 : Disk := { d with root := root1 }
      match ensureDir d1 d1.dataDir with
      | (Status.OK, dataDir1) =>
        let d2 : Disk := { d1 with dataDir := dataDir1 }
        let st : CreateState :=
          { status := Status.OK, space := fun _ => 0, table := fun _ => [], disk := d2 }
        match createLoop table_size buffer_size (bytes.length + 1) bytes st with
        | none => none
        | some (CreateExit.returned status disk) => some (status, db1, disk)
        | some (CreateExit.finished st1) =>
          some ((flushAll (List.range table_size) st1).1, db1,
            (flushAll (List.range table_size) st1).2)
      | (status, dataDir1) => some (status, db1, { d1 with dataDir := dataDir1 })
    | (status, root1) => some (status, db1, { d with root := root1 })

/-! ## Persist, Open, Close -/

/-- What a failed `read(&x, 4)` leaves in `x`: the bytes that were available
overwrite the low bytes of the old value. -/
def overwriteU32 (old : Nat) (avail : List Byte) : Nat :=
  match avail ++ (encodeU32 old).drop avail.length with
  | b0 :: b1 :: b2 :: b3 :: _ => decodeU32 b0 b1 b2 b3
  | _ => old

/-- `RyougiDB::Open`. -/
def RyougiDB.Open (db : RyougiDB) (d : Disk) : Status × RyougiDB :=
  match d.table with
  | none => (Status.IOError, db)
  | some bytes =>
    match readU32 bytes with
    | none => (Status.IOError, { db with table_size := overwriteU32 db.table_size bytes })
    | some (table_size, rest) =>
      match readU32 rest with
      | none =>
        (Status.IOError,
          { db with table_size := table_size
                    buffer_size := overwriteU32 db.buffer_size rest })
      | some (buffer_size, _) =>
        (Status.OK, { db with table_size := table_size, buffer_size := buffer_size })

/-- `RyougiDB::Persist`: the control file is opened with `std::ios::out`, which
replaces its content. -/
def RyougiDB.Persist (db : RyougiDB) (d : Disk) : Status × Disk :=
  match ensureDir d d.root with
  | (Status.OK, root1) =>
    let d1 : Disk := { d with root := root1 }
    match ensureDir d1 d1.tableDir with
    | (Status.OK, tableDir1) =>
      let d2 : Disk := { d1 with tableDir := tableDir1 }
      if d2.tableFails then (Status.IOError, d2)
      else
        (Status.OK,
          { d2 with table := some (encodeU32 db.table_size ++ encodeU32 db.buffer_size) })
    | (status, tableDir1) => (status, { d1 with tableDir := tableDir1 })
  | (status, root1) => (status, { d with root := root1 })

/-- `RyougiDB::Close`. -/
def RyougiDB.Close (_db : RyougiDB) : Status := Status.OK

/-! ## Records and their encoding -/

/-- A key-value record of a dump or of a bucket file. -/
structure Record where
  key : List Byte
  value : List Byte
  deriving DecidableEq, Repr

/-- The encoding of one record: key length, key bytes, value length, value
bytes (what `GenerateData` of the test writes for a pair). -/
def encodeRecord (r : Record) : List Byte :=
  encodeU32 r.key.length ++ r.key ++ encodeU32 r.value.length ++ r.value

/-- The concatenation of the encodings of the records, in order. -/
def encodeRecords : List Record → List Byte
  | [] => []
  | r :: rs => encodeRecord r ++ encodeRecords rs

/-- The lengths of the record respect the two maxima. -/
def Record.InRange (r : Record) : Prop :=
  r.key.length < kMaxKeySize ∧ r.value.length < kMaxValueSize

/-- Neither the key nor the value of the record holds a zero byte. -/
def Record.NulFree (r : Record) : Prop :=
  (0 : Byte) ∉ r.key ∧ (0 : Byte) ∉ r.value

/-- The hash as the specification words it: fold `h * 131 + byte` over the
bytes, each taken as an unsigned value, in 32-bit wraparound arithmetic. -/
def specHash (key : List Byte) : Nat :=
  key.foldl (fun h b => (h * 131 + b.val) % u32) 0

/-! ## Views of the cache state -/

/-- The keys of the recency list, most recently used first. -/
def LRUCache.keys (c : LRUCache) : List (List Byte) :=
  c.lru.map (fun n => n.2.key)

/-- The key-value pairs of the recency list, most recently used first. -/
def LRUCache.entries (c : LRUCache) : List (List Byte × List Byte) :=
  c.lru.map (fun n => (n.2.key, n.2.value))

/-- What the cache holds for `key`: the value of the node that `table_[key]`
refers to, `none` when `table_.find(key) == table_.end()`. -/
def LRUCache.cached (c : LRUCache) (key : List Byte) : Option (List Byte) :=
  match c.table key with
  | none => none
  | some it => (nodeAt c.lru it).map (fun n => n.value)

/-- The representation invariant of an `LRUCache`: at most `cache_size` nodes,
distinct node addresses, distinct keys, the table holds exactly the keys of
the list and sends each to the node holding that key, and the allocator is
ahead of every node. -/
structure LRUCache.WF (c : LRUCache) : Prop where
  length_le : c.lru.length ≤ c.cache_size
  addr_nodup : (c.lru.map (fun n => n.1)).Nodup
  keys_nodup : c.keys.Nodup
  table_iff : ∀ k a, c.table k = some a ↔ ∃ v, (a, CacheNode.mk k v) ∈ c.lru
  addr_lt : ∀ n ∈ c.lru, n.1 < c.next

/-- A call on the cache. -/
inductive CacheOp where
  | get (key : List Byte)
  | put (key value : List Byte)
  deriving DecidableEq, Repr

/-- The cache after one call. -/
def LRUCache.step (c : LRUCache) (op : CacheOp) : Option LRUCache :=
  match op with
  | CacheOp.get key => (c.Get key []).map (fun r => r.2.2)
  | CacheOp.put key value => (c.Put key value).map (fun r => r.2)

/-- The cache after a sequence of calls, first call first. -/
def LRUCache.run (c : LRUCache) : List CacheOp → Option LRUCache
  | [] => some c
  | op :: ops =>
    match c.step op with
    | none => none
    | some c1 => c1.run ops

/-! ## Concrete inputs -/

/-- The records of the counterexample to C2: a key and a value with a zero byte. -/
def nulRecords : List Record :=
  [{ key := [97, 0, 98], value := [120] }, { key := [99], value := [120, 0, 121] }]

/-- The records of the witness of C2: the key `"k"` twice, with two values. -/
def dupRecords : List Record :=
  [{ key := [107], value := [49] }, { key := [113], value := [50] },
   { key := [107], value := [51] }]

/-- The cache after a sequence of `Put` calls, first pair first. -/
def LRUCache.putAll (c : LRUCache) : List (List Byte × List Byte) → Option LRUCache
  | [] => some c
  | kv :: rest =>
    match c.Put kv.1 kv.2 with
    | none => none
    | some (_, c1) => c1.putAll rest

/-- A full cache of capacity 2 holding `"a" ↦ "1"` (most recent) and `"b" ↦ "2"`. -/
def cacheAB : LRUCache :=
  { cache_size := 2
    lru := [(1, { key := [97], value := [49] }), (0, { key := [98], value := [50] })]
    table := fun k => if k = [97] then some 1 else if k = [98] then some 0 else none
    next := 2 }

/-- The time of the last touch of `k` according to a log that lists the
touched keys latest first: the number of touches made up to and including the
latest touch of `k`, and 0 for a key never touched. -/
def lastTouch (k : List Byte) : List (List Byte) → Nat
  | [] => 0
  | t :: log => if t = k then log.length + 1 else lastTouch k log

/-- The cache after a sequence of calls, first call first, together with the
log of the keys touched (latest first): a `Put` touches its key, a `Get`
touches its key when it returns OK. -/
def LRUCache.runLog (c : LRUCache) (log : List (List Byte)) :
    List CacheOp → Option (LRUCache × List (List Byte))
  | [] => some (c, log)
  | CacheOp.get key :: ops =>
    match c.Get key [] with
    | none => none
    | some (status, _, c1) => c1.runLog (if status.IsOK then key :: log else log) ops
  | CacheOp.put key value :: ops =>
    match c.Put key value with
    | none => none
    | some (_, c1) => c1.runLog (key :: log) ops
/-- The recency list is ordered by decreasing time of last touch, and every
key in it has been touched. -/
def RecencySorted (keys log : List (List Byte)) : Prop :=
  keys.Pairwise (fun a b => lastTouch b log < lastTouch a log) ∧
    ∀ k ∈ keys, 0 < lastTouch k log

/-- The calls of the witness of C6. -/
def sampleOps : List CacheOp :=
  [CacheOp.put [97] [49], CacheOp.put [98] [50], CacheOp.get [97], CacheOp.get [100],
   CacheOp.put [99] [51]]

/-- The handle after a sequence of `Get` calls on an unchanged disk, first call
first.  A call is given by its key and by the content of the output string it
passes, a string other than the key string. -/
def RyougiDB.getAll (db : RyougiDB) (d : Disk) : List (List Byte × List Byte) → Option RyougiDB
  | [] => some db
  | call :: calls =>
    match db.Get d call.1 call.2 false with
    | none => none
    | some (_, _, db1) => db1.getAll d calls

/-- Every cached pair is what a scan of the key's bucket file returns, the
cache is well formed with room for an entry, and `table_size_` is not zero. -/
def RyougiDB.Coherent (db : RyougiDB) (d : Disk) : Prop :=
  db.cache.WF ∧ 0 < db.cache.cache_size ∧ 0 < db.table_size ∧
    ∀ k w, (k, w) ∈ db.cache.entries →
      ∀ value, RyougiDB.Retrieve d k (getFileId db.table_size k) value = some (Status.OK, w)

/-- A disk whose bucket file 3 holds the records of `dupRecords`. -/
def sampleDisk : Disk := (Disk.empty true).setData 3 (encodeRecords dupRecords)

/-! ## Create, record by record -/

/-- The item `Create` builds from a record it has read (source lines 132 and
133): the declared sizes, and the two strings cut at their first zero byte. -/
def itemOf (r : Record) : RyougiDataItem :=
  { key_size := r.key.length, key := cstr r.key,
    value_size := r.value.length, value := cstr r.value }

/-- One iteration of the streaming loop on the record `r`. -/
def createRecord (table_size buffer_size : Nat) (st : CreateState) (r : Record) :
    Option CreateState :=
  createBody table_size buffer_size st r.key.length r.key r.value.length r.value

/-- The iterations of the streaming loop on the records `rs`, in order. -/
def createRecords (table_size buffer_size : Nat) : CreateState → List Record → Option CreateState
  | st, [] => some st
  | st, r :: rs =>
    match createRecord table_size buffer_size st r with
    | none => none
    | some st1 => createRecords table_size buffer_size st1 rs

/-- The unread dump starts with a record whose declared key length is at least
`kMaxKeySize`, or whose key can be read and whose declared value length is at
least `kMaxValueSize`. -/
def oversizeHead (s : List Byte) : Bool :=
  match readU32 s with
  | none => false
  | some (key_size, s1) =>
    if key_size ≥ kMaxKeySize then true
    else
      match readBytes key_size s1 with
      | none => false
      | some (_, s2) =>
        match readU32 s2 with
        | none => false
        | some (value_size, _) => decide (value_size ≥ kMaxValueSize)

/-- The serialized size of a record: `4 + key_len + 4 + value_len`. -/
def recordSize (r : Record) : Nat :=
  4 + 4 + r.key.length + r.value.length

/-- The total serialized size of the records of `rs` that `Create` sends to
bucket `n`. -/
def bucketLoad (table_size : Nat) (rs : List Record) (n : Nat) : Nat :=
  ((rs.filter (fun r => decide (createFileId table_size r.key = n))).map recordSize).sum

/-- The state in which the streaming loop of `Create` starts on disk `d`, once
the two directories exist. -/
def createStart (d : Disk) : CreateState :=
  { status := Status.OK, space := fun _ => 0, table := fun _ => [],
    disk := { d with root := true, dataDir := true } }

/-- `Write` emits the record without reading past a terminator: the key and
the value, cut at their first zero byte, are at most one byte shorter than
declared.  That is, a zero byte can only be the last byte of the key or of the
value. -/
def Record.InBounds (r : Record) : Prop :=
  r.key.length ≤ (cstr r.key).length + 1 ∧ r.value.length ≤ (cstr r.value).length + 1

/-- A dump of the witnesses of C9 and C10: one record, then a record whose
value is declared 256 bytes long. -/
def oversizeValueDump : List Byte :=
  encodeU32 1 ++ [101] ++ encodeU32 256

/-! ## The buckets Create builds, record by record -/

/-- What `Create` holds for every bucket id: the records already written to
the bucket file (`none` while the file does not exist), the pending list, and
the accumulated size. -/
structure Buckets where
  written : Nat → Option (List Record)
  pending : Nat → List Record
  space : Nat → Nat

/-- No file, no pending record. -/
def Buckets.start : Buckets :=
  { written := fun _ => none, pending := fun _ => [], space := fun _ => 0 }

/-- Bucket `n` after its pending list has been appended to its file and reset. -/
def Buckets.flushed (b : Buckets) (n : Nat) : Buckets :=
  { written := fun m =>
      if m = n then some ((b.written n).getD [] ++ b.pending n) else b.written m
    pending := fun m => if m = n then [] else b.pending m
    space := fun m => if m = n then 0 else b.space m }

/-- One iteration of the streaming loop: the record joins the pending list of
its bucket when the batch stays within `buffer_size`; otherwise the bucket is
flushed and the record is not kept. -/
def Buckets.add (table_size buffer_size : Nat) (b : Buckets) (r : Record) : Buckets :=
  if (b.space (createFileId table_size r.key) + recordSize r) % u32 ≤ buffer_size then
    { b with
      pending := fun m =>
        if m = createFileId table_size r.key then
          b.pending (createFileId table_size r.key) ++ [r]
        else b.pending m
      space := fun m =>
        if m = createFileId table_size r.key then
          (b.space (createFileId table_size r.key) + recordSize r) % u32
        else b.space m }
  else b.flushed (createFileId table_size r.key)

/-- One iteration of the final loop: a bucket with pending records is flushed. -/
def Buckets.finish (b : Buckets) (n : Nat) : Buckets :=
  if (b.pending n).length > 0 then b.flushed n else b

/-- The buckets after the whole of `Create` on the records `rs`. -/
def Buckets.build (table_size buffer_size : Nat) (rs : List Record) : Buckets :=
  (List.range table_size).foldl Buckets.finish
    (rs.foldl (Buckets.add table_size buffer_size) Buckets.start)

/-- The state of `Create` stores the buckets `b` on a disk on which every file
operation succeeds, and no `Write` has failed. -/
def CreateState.Stores (st : CreateState) (b : Buckets) : Prop :=
  st.status = Status.OK ∧ st.disk.dataDir = true ∧
    (∀ n, st.disk.appendFails n = false) ∧ (∀ n, st.disk.writeFails n = false) ∧
    (∀ n, st.disk.data n = (b.written n).map encodeRecords) ∧
    (∀ n, st.table n = (b.pending n).map itemOf) ∧
    (∀ n, st.space n = b.space n) ∧
    ∀ n, ∀ r ∈ b.pending n, r.InBounds

/-- The buckets hold only records of `done`, and bucket `n` has a file or a
pending record exactly when some record of `done` hashed to `n`. -/
def Buckets.Tracks (table_size : Nat) (b : Buckets) (done : List Record) : Prop :=
  (∀ n r, r ∈ (b.written n).getD [] ++ b.pending n → r ∈ done) ∧
    ∀ n, (∃ r ∈ done, createFileId table_size r.key = n) ↔
      (b.written n ≠ none ∨ b.pending n ≠ [])

/-- The dump of the counterexample to C3: one record with the key `"a\0"`. -/
def trailingNulDump : List Byte := encodeRecords [{ key := [97, 0], value := [98] }]

/-- The dump of the witness of C3 and of the counterexample: the record
`("a", "b")`. -/
def oneRecordDump : List Byte := encodeRecords [{ key := [97], value := [98] }]

/-- A dump of two records, `("a", "b")` and `("c", "d")`, ten bytes each, with
distinct keys. -/
def twoRecordDump : List Byte :=
  encodeRecords [{ key := [97], value := [98] }, { key := [99], value := [100] }]

/-- The dump of the counterexample to C1 by a zero byte: the one record
`("k", "v\0")`. -/
def nulValueDump : List Byte := encodeRecords [{ key := [107], value := [118, 0] }]

/-- A bucket file for the witness of C12: the three records of `dupRecords`
and then a record that declares a value of 256 bytes. -/
def corruptDisk : Disk :=
  (Disk.empty true).setData 3 (encodeRecords dupRecords ++ oversizeValueDump)

/-- An empty base directory in which the bucket file `data0` cannot be opened
for append (every other file operation succeeds). -/
def lockedDisk : Disk :=
  { Disk.empty true with appendFails := fun n => decide (n = 0) }

/-- A dump of three ten-byte records: `("b", "x")` and `("d", "y")` hash to
bucket 0 of 2, `("a", "z")` to bucket 1. -/
def threeRecordDump : List Byte :=
  encodeRecords [{ key := [98], value := [120] }, { key := [100], value := [121] },
    { key := [97], value := [122] }]

/-- A dump of two ten-byte records: `("b", "x")` hashes to bucket 0 of 2 and
`("a", "z")` to bucket 1. -/
def splitDump : List Byte :=
  encodeRecords [{ key := [98], value := [120] }, { key := [97], value := [122] }]

/-- A ten-byte record, key `"a"` and value `"b"`. -/
def wrapRecord : Record := { key := [97], value := [98] }

/-! ## The records of a dump -/

/-- The records the streaming loop of `RyougiDB::Create` decodes from the unread
bytes `s` of the dump (the reads and size checks of source lines 94 to 118),
up to the point where it leaves the loop; one unit of fuel per record. -/
def decodeRecords : Nat → List Byte → List Record
  | 0, _ => []
  | fuel + 1, s =>
    match readU32 s with
    | none => []
    | some (key_size, s1) =>
      if key_size ≥ kMaxKeySize then []
      else
        match readBytes key_size s1 with
        | none => []
        | some (key, s2) =>
          match readU32 s2 with
          | none => []
          | some (value_size, s3) =>
            if value_size ≥ kMaxValueSize then []
            else
              match readBytes value_size s3 with
              | none => []
              | some (value, s4) => { key := key, value := value } :: decodeRecords fuel s4

/-- On a disk on which every file operation succeeds, bucket file `n` of the
state holds the encoding of the records `W n` (nothing when it does not exist)
and the pending list of `n` holds the items of the records `P n`, each of which
`Write` emits without reading past a terminator. -/
def CreateState.Holds (st : CreateState) (W P : Nat → List Record) : Prop :=
  st.disk.dataDir = true ∧
    (∀ n, st.disk.appendFails n = false) ∧ (∀ n, st.disk.writeFails n = false) ∧
    (∀ n, (st.disk.data n).getD [] = encodeRecords (W n)) ∧
    (∀ n, st.table n = (P n).map itemOf) ∧
    ∀ n, ∀ r ∈ P n, r.InBounds

/-! # Theorems -/

/-! ## The codec and Retrieve -/

theorem readU32_encodeU32 (n : Nat) (rest : List Byte) (h : n < u32) :
    readU32 (encodeU32 n ++ rest) = some (n, rest) := by
  simp only [encodeU32, readU32, decodeU32, List.cons_append, List.nil_append, u32] at *
  simp only [Option.some.injEq, Prod.mk.injEq, and_true]
  omega

theorem readBytes_append (a rest : List Byte) :
    readBytes a.length (a ++ rest) = some (a, rest) := by
  simp [readBytes]

theorem cstr_of_not_mem (a : List Byte) (h : (0 : Byte) ∉ a) : cstr a = a := by
  unfold cstr
  rw [List.takeWhile_eq_self_iff]
  intro b hb
  simp only [ne_eq, decide_eq_true_eq]
  rintro rfl
  exact h hb

theorem retrieveLoop_encodeRecord (key value : List Byte) (fuel : Nat) (r : Record)
    (rest : List Byte) (hr : r.InRange) :
    retrieveLoop key value (fuel + 1) (encodeRecord r ++ rest) =
      if cstr r.key = key then some (Status.OK, cstr r.value)
      else retrieveLoop key value fuel rest := by
  obtain ⟨hk, hv⟩ := hr
  have hk32 : r.key.length < u32 := by unfold kMaxKeySize at hk; unfold u32; omega
  have hv32 : r.value.length < u32 := by unfold kMaxValueSize at hv; unfold u32; omega
  have e : encodeRecord r ++ rest =
      encodeU32 r.key.length ++ (r.key ++ (encodeU32 r.value.length ++ (r.value ++ rest))) := by
    simp [encodeRecord, List.append_assoc]
  rw [e, retrieveLoop, readU32_encodeU32 _ _ hk32]
  simp only [ge_iff_le, Nat.not_le.mpr hk, if_false, readBytes_append,
    readU32_encodeU32 _ _ hv32, Nat.not_le.mpr hv]

theorem retrieveLoop_encodeRecords (key value : List Byte) (rs : List Record)
    (hrs : ∀ r ∈ rs, r.InRange) (fuel : Nat) (hf : rs.length < fuel) :
    retrieveLoop key value fuel (encodeRecords rs) =
      match rs.find? (fun r => decide (cstr r.key = key)) with
      | some r => some (Status.OK, cstr r.value)
      | none => some (Status.NotFound, value) := by
  induction rs generalizing fuel with
  | nil =>
    obtain ⟨f, rfl⟩ : ∃ f, fuel = f + 1 := ⟨fuel - 1, by simp at hf; omega⟩
    simp [encodeRecords, retrieveLoop, readU32]
  | cons r rs ih =>
    obtain ⟨f, rfl⟩ : ∃ f, fuel = f + 1 := ⟨fuel - 1, by simp at hf; omega⟩
    rw [encodeRecords, retrieveLoop_encodeRecord _ _ _ _ _ (hrs r (List.mem_cons_self _ _))]
    by_cases h : cstr r.key = key
    · simp [h, List.find?]
    · simp only [h, if_false, List.find?, decide_False]
      exact ih (fun x hx => hrs x (List.mem_cons_of_mem _ hx)) f (by simp at hf; omega)

theorem length_encodeRecords_ge (rs : List Record) :
    rs.length ≤ (encodeRecords rs).length := by
  induction rs with
  | nil => simp
  | cons r rs ih =>
    simp [encodeRecords, encodeRecord, encodeU32]
    omega

theorem readU32_some {s : List Byte} {n : Nat} {rest : List Byte}
    (h : readU32 s = some (n, rest)) : rest.length + 4 = s.length ∧ n < u32 := by
  match s, h with
  | b0 :: b1 :: b2 :: b3 :: r, h =>
    simp only [readU32, Option.some.injEq, Prod.mk.injEq] at h
    obtain ⟨h1, h2⟩ := h
    subst h1 h2
    refine ⟨by simp, ?_⟩
    have := b0.isLt
    have := b1.isLt
    have := b2.isLt
    have := b3.isLt
    simp only [decodeU32, u32]
    omega

theorem readBytes_some {n : Nat} {s a rest : List Byte}
    (h : readBytes n s = some (a, rest)) :
    s = a ++ rest ∧ a.length = n := by
  unfold readBytes at h
  split at h
  · simp only [Option.some.injEq, Prod.mk.injEq] at h
    obtain ⟨h1, h2⟩ := h
    subst h1 h2
    refine ⟨(List.take_append_drop n s).symm, ?_⟩
    simp only [List.length_take]
    omega
  · exact absurd h (by simp)

theorem retrieveLoop_isSome (key value : List Byte) (fuel : Nat) (s : List Byte)
    (hf : s.length < fuel) : ∃ r, retrieveLoop key value fuel s = some r := by
  induction fuel generalizing s with
  | zero => omega
  | succ f ih =>
    unfold retrieveLoop
    split
    · exact ⟨_, rfl⟩
    · rename_i key_size s1 h1
      split
      · exact ⟨_, rfl⟩
      · split
        · exact ⟨_, rfl⟩
        · rename_i current_key s2 h2
          split
          · exact ⟨_, rfl⟩
          · rename_i value_size s3 h3
            split
            · exact ⟨_, rfl⟩
            · split
              · exact ⟨_, rfl⟩
              · rename_i current_value s4 h4
                split
                · exact ⟨_, rfl⟩
                · apply ih
                  have e1 := (readU32_some h1).1
                  have e2 := (readBytes_some h2).1
                  have e3 := (readU32_some h3).1
                  have e4 := (readBytes_some h4).1
                  have l2 := congrArg List.length e2
                  have l4 := congrArg List.length e4
                  simp only [List.length_append] at l2 l4
                  omega

theorem Retrieve_isSome (d : Disk) (key : List Byte) (file_id : Nat) (value : List Byte) :
    ∃ r, RyougiDB.Retrieve d key file_id value = some r := by
  unfold RyougiDB.Retrieve
  split
  · exact ⟨_, rfl⟩
  · exact retrieveLoop_isSome _ _ _ _ (Nat.lt_succ_self _)

theorem Retrieve_encodeRecords (d : Disk) (file_id : Nat) (rs : List Record)
    (key value : List Byte) (hfile : d.data file_id = some (encodeRecords rs))
    (hrs : ∀ r ∈ rs, r.InRange) :
    RyougiDB.Retrieve d key file_id value =
      match rs.find? (fun r => decide (cstr r.key = key)) with
      | some r => some (Status.OK, cstr r.value)
      | none => some (Status.NotFound, value) := by
  unfold RyougiDB.Retrieve
  rw [hfile]
  exact retrieveLoop_encodeRecords key value rs hrs _
    (Nat.lt_succ_of_le (length_encodeRecords_ge rs))

theorem find?_cstr_of_nulFree (rs : List Record) (key : List Byte)
    (hn : ∀ r ∈ rs, r.NulFree) :
    rs.find? (fun r => decide (cstr r.key = key)) = rs.find? (fun r => decide (r.key = key)) := by
  induction rs with
  | nil => rfl
  | cons r rs ih =>
    have hr := hn r (List.mem_cons_self _ _)
    simp only [List.find?, cstr_of_not_mem _ hr.1]
    rw [ih (fun x hx => hn x (List.mem_cons_of_mem _ hx))]

theorem Retrieve_encodeRecords_nulFree (d : Disk) (file_id : Nat) (rs : List Record)
    (key value : List Byte) (hfile : d.data file_id = some (encodeRecords rs))
    (hrs : ∀ r ∈ rs, r.InRange) (hn : ∀ r ∈ rs, r.NulFree) :
    RyougiDB.Retrieve d key file_id value =
      match rs.find? (fun r => decide (r.key = key)) with
      | some r => some (Status.OK, r.value)
      | none => some (Status.NotFound, value) := by
  rw [Retrieve_encodeRecords d file_id rs key value hfile hrs, find?_cstr_of_nulFree rs key hn]
  cases hfind : rs.find? (fun r => decide (r.key = key)) with
  | none => rfl
  | some r =>
    have hmem := List.mem_of_find?_eq_some hfind
    simp only [cstr_of_not_mem _ (hn r hmem).2]

/-- C2, counterexample: the bucket file holds the records `("a\0b", "x")` and
`("c", "x\0y")`.  No record has the key `"a"`, yet `Retrieve` of `"a"` returns
OK (the claim says NotFound); the record with key `"c"` has the value `"x\0y"`,
yet `Retrieve` of `"c"` returns OK with `"x"`. -/
theorem Retrieve_zero_byte_counterexample :
    (∀ r ∈ nulRecords, r.InRange) ∧
    nulRecords.find? (fun r => decide (r.key = [97])) = none ∧
    RyougiDB.Retrieve ((Disk.empty true).setData 0 (encodeRecords nulRecords)) [97] 0 [] =
      some (Status.OK, [120]) ∧
    nulRecords.find? (fun r => decide (r.key = [99])) =
      some { key := [99], value := [120, 0, 121] } ∧
    RyougiDB.Retrieve ((Disk.empty true).setData 0 (encodeRecords nulRecords)) [99] 0 [] =
      some (Status.OK, [120]) := by
  refine ⟨?_, by decide, by decide, by decide, by decide⟩
  intro r hr
  simp only [nulRecords, List.mem_cons, List.mem_singleton, List.not_mem_nil, or_false] at hr
  rcases hr with rfl | rfl <;> exact ⟨by decide, by decide⟩

/-- C2 (amended): the bucket file `file_id` is the concatenation of the
encodings of `rs`, every key shorter than 32 bytes and every value shorter
than 256 bytes.  Then `Retrieve` returns OK with the value, cut at its first
zero byte, of the first record in file order whose key, cut at its first zero
byte, equals the query key, and NotFound (leaving the output string as it was)
when there is none.  When no key and no value holds a zero byte this is the
value of the first record whose key equals the query key byte for byte, so of
two records with the same key the first one wins. -/
theorem Retrieve_first_match (d : Disk) (file_id : Nat) (rs : List Record)
    (key value : List Byte) (hfile : d.data file_id = some (encodeRecords rs))
    (hrs : ∀ r ∈ rs, r.InRange) :
    (RyougiDB.Retrieve d key file_id value =
      match rs.find? (fun r => decide (cstr r.key = key)) with
      | some r => some (Status.OK, cstr r.value)
      | none => some (Status.NotFound, value)) ∧
    ((∀ r ∈ rs, r.NulFree) →
      RyougiDB.Retrieve d key file_id value =
        match rs.find? (fun r => decide (r.key = key)) with
        | some r => some (Status.OK, r.value)
        | none => some (Status.NotFound, value)) := by
  exact ⟨Retrieve_encodeRecords d file_id rs key value hfile hrs,
    Retrieve_encodeRecords_nulFree d file_id rs key value hfile hrs⟩

/-- C2, witness: with the key `"k"` stored twice the first value is returned. -/
theorem Retrieve_first_match_witness :
    RyougiDB.Retrieve ((Disk.empty true).setData 3 (encodeRecords dupRecords)) [107] 3 [] =
      some (Status.OK, [49]) := by
  have hr : ∀ r ∈ dupRecords, r.InRange := by
    intro r hr
    simp only [dupRecords, List.mem_cons, List.mem_singleton, List.not_mem_nil, or_false] at hr
    rcases hr with rfl | rfl | rfl <;> exact ⟨by decide, by decide⟩
  have hn : ∀ r ∈ dupRecords, r.NulFree := by
    intro r hr
    simp only [dupRecords, List.mem_cons, List.mem_singleton, List.not_mem_nil, or_false] at hr
    rcases hr with rfl | rfl | rfl <;> exact ⟨by decide, by decide⟩
  have h := (Retrieve_first_match ((Disk.empty true).setData 3 (encodeRecords dupRecords)) 3
    dupRecords [107] [] (by simp [Disk.setData]) hr).2 hn
  rw [h]
  rfl

/-! ## The hash -/

theorem Hash_foldl_eq (key : List Byte) (h : ∀ b ∈ key, b.val < 128) (init : Nat) :
    key.foldl (fun hash ch => (hash * 131 + charToU32 ch) % u32) init =
      key.foldl (fun h b => (h * 131 + b.val) % u32) init := by
  induction key generalizing init with
  | nil => rfl
  | cons b bs ih =>
    have hb : b.val < 128 := h b (List.mem_cons_self _ _)
    simp only [List.foldl_cons, charToU32, hb, if_true]
    exact ih (fun x hx => h x (List.mem_cons_of_mem _ hx)) _

theorem Hash_eq_specHash (key : List Byte) (h : ∀ b ∈ key, b.val < 128) :
    RyougiDB.Hash key = specHash key :=
  Hash_foldl_eq key h 0

/-- C4, counterexample: for the one-byte key `0x80` and `table_size = 1000`
`Get` uses bucket 168 where the claimed formula gives 128 (the `char` is sign
extended), and for the dump key `"a\0b"` `Create` uses bucket 97, the bucket of
`"a"`, where the claimed formula gives 715. -/
theorem fileId_counterexample :
    getFileId 1000 [128] = 168 ∧ specHash [128] % 1000 = 128 ∧
    createFileId 1000 [97, 0, 98] = 97 ∧ specHash [97, 0, 98] % 1000 = 715 := by
  decide

/-- C4 (amended): for every key whose bytes all lie in 0..127 and every
`table_size >= 1`, the bucket id `Get` uses equals `H mod table_size` for the
hash `H` of the specification (fold `h * 131 + byte` modulo `2 ^ 32` from 0),
and so does the bucket id `Create` uses when the key holds no zero byte. -/
theorem fileId_eq_specHash (table_size : Nat) (key : List Byte) (_hts : 1 ≤ table_size)
    (hkey : ∀ b ∈ key, b.val < 128) :
    getFileId table_size key = specHash key % table_size ∧
    ((0 : Byte) ∉ key → createFileId table_size key = specHash key % table_size) := by
  refine ⟨?_, fun h0 => ?_⟩
  · rw [getFileId, Hash_eq_specHash key hkey]
  · rw [createFileId, cstr_of_not_mem key h0, Hash_eq_specHash key hkey]

/-- C4, witness: the key `"PingCAP"` of the test and the default table size. -/
theorem fileId_eq_specHash_witness :
    getFileId kDefaultTableSize [80, 105, 110, 103, 67, 65, 80] =
      specHash [80, 105, 110, 103, 67, 65, 80] % kDefaultTableSize ∧
    createFileId kDefaultTableSize [80, 105, 110, 103, 67, 65, 80] =
      specHash [80, 105, 110, 103, 67, 65, 80] % kDefaultTableSize :=
  have h := fileId_eq_specHash kDefaultTableSize [80, 105, 110, 103, 67, 65, 80]
    (by simp [kDefaultTableSize]) (by simp; decide)
  ⟨h.1, h.2 (by decide)⟩

/-! ## The LRU cache: list lemmas -/

theorem unlink_split (l1 l2 : List (Nat × CacheNode)) (a : Nat) (n : CacheNode)
    (hnd : ((l1 ++ (a, n) :: l2).map (fun x => x.1)).Nodup) :
    unlink (l1 ++ (a, n) :: l2) a = l1 ++ l2 ∧ nodeAt (l1 ++ (a, n) :: l2) a = some n := by
  simp only [List.map_append, List.map_cons] at hnd
  have h1 : ∀ x ∈ l1, x.1 ≠ a := by
    intro x hx e
    have hmem : a ∈ l1.map (fun x => x.1) := e ▸ List.mem_map_of_mem _ hx
    exact (List.nodup_append.mp hnd).2.2 hmem (List.mem_cons_self _ _)
  have h2 : ∀ x ∈ l2, x.1 ≠ a := by
    intro x hx e
    have hmem : a ∈ l2.map (fun x => x.1) := e ▸ List.mem_map_of_mem _ hx
    exact (List.nodup_cons.mp (List.nodup_append.mp hnd).2.1).1 hmem
  constructor
  · unfold unlink
    rw [List.filter_append, List.filter_cons]
    simp only [ne_eq, not_true_eq_false, decide_False, Bool.false_eq_true, if_false]
    congr 1
    · exact List.filter_eq_self.mpr (fun x hx => by simpa using h1 x hx)
    · exact List.filter_eq_self.mpr (fun x hx => by simpa using h2 x hx)
  · unfold nodeAt
    rw [List.find?_append]
    have e1 : l1.find? (fun x => decide (x.1 = a)) = none := by
      rw [List.find?_eq_none]
      intro x hx
      simpa using h1 x hx
    rw [e1]
    simp

theorem LRUCache.WF.hit {c : LRUCache} (h : c.WF) {k : List Byte} {it : Nat}
    (ht : c.table k = some it) :
    ∃ v l1 l2, c.lru = l1 ++ (it, CacheNode.mk k v) :: l2 ∧
      nodeAt c.lru it = some (CacheNode.mk k v) ∧ unlink c.lru it = l1 ++ l2 := by
  obtain ⟨v, hv⟩ := (h.table_iff k it).mp ht
  obtain ⟨l1, l2, e⟩ := List.append_of_mem hv
  have hnd := h.addr_nodup
  rw [e] at hnd
  have := unlink_split l1 l2 it (CacheNode.mk k v) hnd
  exact ⟨v, l1, l2, e, e ▸ this.2, e ▸ this.1⟩

theorem LRUCache.WF.table_none_iff {c : LRUCache} (h : c.WF) (k : List Byte) :
    c.table k = none ↔ k ∉ c.keys := by
  constructor
  · intro hn hk
    simp only [LRUCache.keys, List.mem_map] at hk
    obtain ⟨⟨a, n⟩, hmem, rfl⟩ := hk
    have := (h.table_iff n.key a).mpr ⟨n.value, hmem⟩
    rw [hn] at this
    exact absurd this (by simp)
  · intro hk
    cases ht : c.table k with
    | none => rfl
    | some a =>
      obtain ⟨v, hv⟩ := (h.table_iff k a).mp ht
      exact absurd (List.mem_map_of_mem (fun n => n.2.key) hv) hk

theorem LRUCache.WF.cached_eq_some_iff {c : LRUCache} (h : c.WF) (k v : List Byte) :
    c.cached k = some v ↔ (k, v) ∈ c.entries := by
  unfold LRUCache.cached LRUCache.entries
  constructor
  · intro hc
    cases ht : c.table k with
    | none => rw [ht] at hc; exact absurd hc (by simp)
    | some it =>
      rw [ht] at hc
      obtain ⟨w, l1, l2, e, hn, _⟩ := h.hit ht
      simp only [hn, Option.map_some', Option.some.injEq] at hc
      subst hc
      rw [e]
      simp
  · intro hm
    simp only [List.mem_map, Prod.mk.injEq] at hm
    obtain ⟨⟨a, n⟩, hmem, hk, hv⟩ := hm
    obtain ⟨nk, nv⟩ := n
    simp only at hk hv
    subst hk hv
    have ht := (h.table_iff nk a).mpr ⟨nv, hmem⟩
    obtain ⟨w, l1, l2, e, hn, _⟩ := h.hit ht
    rw [ht]
    simp only [hn, Option.map_some', Option.some.injEq]
    have hmem2 := hmem
    rw [e] at hmem2
    have hk := h.keys_nodup
    unfold LRUCache.keys at hk
    rw [e] at hk
    simp only [List.map_append, List.map_cons] at hk
    rcases List.mem_append.mp hmem2 with h1 | h1
    · exfalso
      have : nk ∈ l1.map (fun n => n.2.key) := List.mem_map_of_mem (fun n => n.2.key) h1
      exact (List.nodup_append.mp hk).2.2 this (List.mem_cons_self _ _)
    · rcases List.mem_cons.mp h1 with h2 | h2
      · simp only [Prod.mk.injEq, CacheNode.mk.injEq, true_and] at h2
        exact h2.symm
      · exfalso
        have : nk ∈ l2.map (fun n => n.2.key) := List.mem_map_of_mem (fun n => n.2.key) h2
        exact (List.nodup_cons.mp (List.nodup_append.mp hk).2.1).1 this

theorem LRUCache.WF.cached_eq_none_iff {c : LRUCache} (h : c.WF) (k : List Byte) :
    c.cached k = none ↔ k ∉ c.keys := by
  rw [← h.table_none_iff]
  unfold LRUCache.cached
  cases ht : c.table k with
  | none => simp
  | some it =>
    obtain ⟨w, l1, l2, e, hn, _⟩ := h.hit ht
    simp [hn]

theorem LRUCache.init_WF (n : Nat) : (LRUCache.init n).WF :=
  { length_le := by simp [LRUCache.init]
    addr_nodup := by simp [LRUCache.init]
    keys_nodup := by simp [LRUCache.init, LRUCache.keys]
    table_iff := by simp [LRUCache.init]
    addr_lt := by simp [LRUCache.init] }

/-! ## The LRU cache: the three ways a call changes the state -/

theorem LRUCache.WF.toFront {c : LRUCache} (h : c.WF) {k : List Byte} {it : Nat}
    (ht : c.table k = some it) {w : List Byte} {l1 l2 : List (Nat × CacheNode)}
    (e : c.lru = l1 ++ (it, CacheNode.mk k w) :: l2) (v : List Byte) :
    LRUCache.WF
      { c with
        lru := (it, CacheNode.mk k v) :: (l1 ++ l2)
        table := fun k1 => if k1 = k then some it else c.table k1 } := by
  have hlen := h.length_le
  have hnd := h.addr_nodup
  have hkd := h.keys_nodup
  have hlt := h.addr_lt
  unfold LRUCache.keys at hkd
  rw [e] at hlen hnd hkd hlt
  simp only [List.map_append, List.map_cons] at hnd hkd
  refine ⟨?_, ?_, ?_, ?_, ?_⟩
  · simp only [List.length_cons, List.length_append] at hlen ⊢
    omega
  · simp only [List.map_cons, List.map_append]
    exact (List.perm_middle.nodup_iff).mp hnd
  · simp only [LRUCache.keys, List.map_cons, List.map_append]
    exact (List.perm_middle.nodup_iff).mp hkd
  · intro k1 a
    by_cases hk : k1 = k
    · subst hk
      simp only [if_true, Option.some.injEq]
      constructor
      · rintro rfl
        exact ⟨v, List.mem_cons_self _ _⟩
      · rintro ⟨v1, hm⟩
        rcases List.mem_cons.mp hm with h1 | h1
        · simp only [Prod.mk.injEq] at h1
          exact h1.1.symm
        · have hm2 : (a, CacheNode.mk k1 v1) ∈ c.lru := by
            rw [e]
            rcases List.mem_append.mp h1 with h2 | h2
            · exact List.mem_append_left _ h2
            · exact List.mem_append_right _ (List.mem_cons_of_mem _ h2)
          have := (h.table_iff k1 a).mpr ⟨v1, hm2⟩
          rw [ht] at this
          exact Option.some.inj this
    · simp only [hk, if_false]
      rw [h.table_iff k1 a, e]
      constructor
      · rintro ⟨v1, hm⟩
        refine ⟨v1, List.mem_cons_of_mem _ ?_⟩
        rcases List.mem_append.mp hm with h2 | h2
        · exact List.mem_append_left _ h2
        · rcases List.mem_cons.mp h2 with h3 | h3
          · simp only [Prod.mk.injEq, CacheNode.mk.injEq] at h3
            exact absurd h3.2.1 hk
          · exact List.mem_append_right _ h3
      · rintro ⟨v1, hm⟩
        refine ⟨v1, ?_⟩
        rcases List.mem_cons.mp hm with h1 | h1
        · simp only [Prod.mk.injEq, CacheNode.mk.injEq] at h1
          exact absurd h1.2.1 hk
        · rcases List.mem_append.mp h1 with h2 | h2
          · exact List.mem_append_left _ h2
          · exact List.mem_append_right _ (List.mem_cons_of_mem _ h2)
  · intro n hn
    rcases List.mem_cons.mp hn with h1 | h1
    · subst h1
      exact hlt (it, CacheNode.mk k w) (List.mem_append_right _ (List.mem_cons_self _ _))
    · rcases List.mem_append.mp h1 with h2 | h2
      · exact hlt _ (List.mem_append_left _ h2)
      · exact hlt _ (List.mem_append_right _ (List.mem_cons_of_mem _ h2))

theorem LRUCache.Get_miss (c : LRUCache) (k value : List Byte) (ht : c.table k = none) :
    c.Get k value = some (Status.NotFound, value, c) := by
  simp [LRUCache.Get, ht]

theorem LRUCache.Get_hit {c : LRUCache} (h : c.WF) {k : List Byte} {it : Nat}
    (ht : c.table k = some it) (value : List Byte) :
    ∃ c1 w l1 l2, c.Get k value = some (Status.OK, w, c1) ∧ c1.WF ∧
      c1.cache_size = c.cache_size ∧
      c.entries = l1 ++ (k, w) :: l2 ∧ c1.entries = (k, w) :: (l1 ++ l2) := by
  obtain ⟨w, l1, l2, e, hn, hu⟩ := h.hit ht
  refine ⟨{ c with
      lru := (it, CacheNode.mk k w) :: (l1 ++ l2)
      table := fun k1 => if k1 = k then some it else c.table k1 },
    w, l1.map (fun n => (n.2.key, n.2.value)), l2.map (fun n => (n.2.key, n.2.value)),
    ?_, ?_, ?_, ?_, ?_⟩
  · simp only [LRUCache.Get, ht, hn, hu]
  · exact h.toFront ht e w
  · rfl
  · simp [LRUCache.entries, e]
  · simp [LRUCache.entries]

theorem LRUCache.Put_hit {c : LRUCache} (h : c.WF) {k : List Byte} {it : Nat}
    (ht : c.table k = some it) (v : List Byte) :
    ∃ c1 w l1 l2, c.Put k v = some (Status.OK, c1) ∧ c1.WF ∧
      c1.cache_size = c.cache_size ∧
      c.entries = l1 ++ (k, w) :: l2 ∧ c1.entries = (k, v) :: (l1 ++ l2) := by
  obtain ⟨w, l1, l2, e, hn, hu⟩ := h.hit ht
  refine ⟨{ c with
      lru := (it, CacheNode.mk k v) :: (l1 ++ l2)
      table := fun k1 => if k1 = k then some it else c.table k1 },
    w, l1.map (fun n => (n.2.key, n.2.value)), l2.map (fun n => (n.2.key, n.2.value)),
    ?_, ?_, ?_, ?_, ?_⟩
  · simp only [LRUCache.Put, ht, hn, hu]
  · exact h.toFront ht e v
  · rfl
  · simp [LRUCache.entries, e]
  · simp [LRUCache.entries]

theorem LRUCache.WF.evict {c : LRUCache} (h : c.WF) (hpos : 0 < c.cache_size) :
    ∃ c1, c.evict = some c1 ∧ c1.WF ∧ c1.cache_size = c.cache_size ∧ c1.next = c.next ∧
      c1.lru.length < c.cache_size ∧
      (∀ k, c.table k = none → c1.table k = none) ∧
      c1.entries = if c.lru.length = c.cache_size then c.entries.dropLast else c.entries := by
  unfold LRUCache.evict
  by_cases hfull : c.lru.length = c.cache_size
  · simp only [hfull, if_true]
    have hne : c.lru ≠ [] := by
      intro e
      rw [e] at hfull
      simp at hfull
      omega
    obtain ⟨back, hback⟩ : ∃ back, c.lru.getLast? = some back := by
      cases hl : c.lru.getLast? with
      | none => exact absurd (List.getLast?_eq_none_iff.mp hl) hne
      | some b => exact ⟨b, rfl⟩
    have e : c.lru = c.lru.dropLast ++ [back] := by
      have := List.dropLast_append_getLast? back hback
      exact this.symm
    simp only [hback]
    have hnd := h.addr_nodup
    have hkd := h.keys_nodup
    unfold LRUCache.keys at hkd
    rw [e] at hnd hkd
    simp only [List.map_append, List.map_cons, List.map_nil] at hnd hkd
    refine ⟨{ c with
        table := fun k => if k = back.2.key then none else c.table k
        lru := c.lru.dropLast }, rfl, ⟨?_, ?_, ?_, ?_, ?_⟩, rfl, rfl, ?_, ?_, ?_⟩
    · simp only [List.length_dropLast]
      have := h.length_le
      omega
    · exact (List.nodup_append.mp hnd).1
    · exact (List.nodup_append.mp hkd).1
    · intro k a
      by_cases hk : k = back.2.key
      · subst hk
        simp only [if_true]
        constructor
        · intro hh
          exact absurd hh (by simp)
        · rintro ⟨v, hm⟩
          exfalso
          have : back.2.key ∈ (c.lru.dropLast).map (fun n => n.2.key) :=
            List.mem_map_of_mem (fun n => n.2.key) hm
          exact (List.nodup_append.mp hkd).2.2 this (List.mem_singleton.mpr rfl)
      · simp only [hk, if_false]
        rw [h.table_iff k a]
        constructor
        · rintro ⟨v, hm⟩
          rw [e] at hm
          rcases List.mem_append.mp hm with h1 | h1
          · exact ⟨v, h1⟩
          · rw [List.mem_singleton] at h1
            rw [← h1] at hk
            exact absurd rfl hk
        · rintro ⟨v, hm⟩
          exact ⟨v, List.mem_of_mem_dropLast hm⟩
    · intro n hn
      exact h.addr_lt n (List.mem_of_mem_dropLast hn)
    · simp only [List.length_dropLast]
      omega
    · intro k hk
      simp only [hk, ite_self]
    · simp [LRUCache.entries, List.map_dropLast]
  · simp only [hfull, if_false]
    refine ⟨c, rfl, h, rfl, rfl, ?_, fun _ hk => hk, rfl⟩
    have := h.length_le
    omega

theorem LRUCache.Put_miss {c : LRUCache} (h : c.WF) (hpos : 0 < c.cache_size)
    {k : List Byte} (ht : c.table k = none) (v : List Byte) :
    ∃ c1, c.Put k v = some (Status.OK, c1) ∧ c1.WF ∧ c1.cache_size = c.cache_size ∧
      c1.entries =
        (k, v) :: (if c.lru.length = c.cache_size then c.entries.dropLast else c.entries) := by
  obtain ⟨c0, he, hwf, hcs, hnext, hlen, htab, hent⟩ := h.evict hpos
  have ht0 := htab k ht
  refine ⟨{ c0 with
      lru := (c0.next, CacheNode.mk k v) :: c0.lru
      table := fun k1 => if k1 = k then some c0.next else c0.table k1
      next := c0.next + 1 }, ?_, ⟨?_, ?_, ?_, ?_, ?_⟩, ?_, ?_⟩
  · simp only [LRUCache.Put, ht, he]
  · simp only [List.length_cons]
    rw [hcs] at *
    omega
  · simp only [List.map_cons]
    refine List.nodup_cons.mpr ⟨?_, hwf.addr_nodup⟩
    intro hm
    obtain ⟨n, hn, e⟩ := List.mem_map.mp hm
    have := hwf.addr_lt n hn
    omega
  · simp only [LRUCache.keys, List.map_cons]
    exact List.nodup_cons.mpr ⟨(hwf.table_none_iff k).mp ht0, hwf.keys_nodup⟩
  · intro k1 a
    by_cases hk : k1 = k
    · subst hk
      simp only [if_true, Option.some.injEq]
      constructor
      · rintro rfl
        exact ⟨v, List.mem_cons_self _ _⟩
      · rintro ⟨v1, hm⟩
        rcases List.mem_cons.mp hm with h1 | h1
        · simp only [Prod.mk.injEq] at h1
          exact h1.1.symm
        · have := (hwf.table_iff k1 a).mpr ⟨v1, h1⟩
          rw [ht0] at this
          exact absurd this (by simp)
    · simp only [hk, if_false]
      rw [hwf.table_iff k1 a]
      constructor
      · rintro ⟨v1, hm⟩
        exact ⟨v1, List.mem_cons_of_mem _ hm⟩
      · rintro ⟨v1, hm⟩
        rcases List.mem_cons.mp hm with h1 | h1
        · simp only [Prod.mk.injEq, CacheNode.mk.injEq] at h1
          exact absurd h1.2.1 hk
        · exact ⟨v1, h1⟩
  · intro n hn
    rcases List.mem_cons.mp hn with h1 | h1
    · subst h1
      simp
    · have := hwf.addr_lt n h1
      simp only
      omega
  · exact hcs
  · simp only [LRUCache.entries, List.map_cons] at hent ⊢
    rw [hent]

/-! ## The LRU cache: what a caller observes -/

theorem LRUCache.keys_eq_map_entries (c : LRUCache) : c.keys = c.entries.map (fun e => e.1) := by
  simp [LRUCache.keys, LRUCache.entries, Function.comp_def]

theorem LRUCache.length_entries (c : LRUCache) : c.entries.length = c.lru.length := by
  simp [LRUCache.entries]

theorem LRUCache.WF.cached_congr {c c1 : LRUCache} (h : c.WF) (h1 : c1.WF) (k : List Byte)
    (hiff : ∀ w, (k, w) ∈ c1.entries ↔ (k, w) ∈ c.entries) : c1.cached k = c.cached k := by
  apply Option.ext
  intro w
  rw [Option.mem_def, Option.mem_def, h1.cached_eq_some_iff, h.cached_eq_some_iff]
  exact hiff w

theorem LRUCache.Get_cached {c : LRUCache} (h : c.WF) {k w : List Byte}
    (hc : c.cached k = some w) (value : List Byte) :
    ∃ c1 l1 l2, c.Get k value = some (Status.OK, w, c1) ∧ c1.WF ∧
      c1.cache_size = c.cache_size ∧
      c.entries = l1 ++ (k, w) :: l2 ∧ c1.entries = (k, w) :: (l1 ++ l2) := by
  cases ht : c.table k with
  | none =>
    have : c.cached k = none := by simp [LRUCache.cached, ht]
    rw [this] at hc
    exact absurd hc (by simp)
  | some it =>
    obtain ⟨c1, w1, l1, l2, hg, hwf, hcs, e, e1⟩ := LRUCache.Get_hit h ht value
    have hm : (k, w1) ∈ c.entries := by rw [e]; simp
    have := (h.cached_eq_some_iff k w1).mpr hm
    rw [hc] at this
    obtain rfl := Option.some.inj this
    exact ⟨c1, l1, l2, hg, hwf, hcs, e, e1⟩

theorem LRUCache.Get_not_cached {c : LRUCache} (h : c.WF) {k : List Byte}
    (hc : c.cached k = none) (value : List Byte) :
    c.Get k value = some (Status.NotFound, value, c) :=
  LRUCache.Get_miss c k value ((h.table_none_iff k).mpr ((h.cached_eq_none_iff k).mp hc))

theorem LRUCache.Put_cached {c : LRUCache} (h : c.WF) {k w : List Byte}
    (hc : c.cached k = some w) (v : List Byte) :
    ∃ c1 l1 l2, c.Put k v = some (Status.OK, c1) ∧ c1.WF ∧
      c1.cache_size = c.cache_size ∧
      c.entries = l1 ++ (k, w) :: l2 ∧ c1.entries = (k, v) :: (l1 ++ l2) := by
  cases ht : c.table k with
  | none =>
    have : c.cached k = none := by simp [LRUCache.cached, ht]
    rw [this] at hc
    exact absurd hc (by simp)
  | some it =>
    obtain ⟨c1, w1, l1, l2, hg, hwf, hcs, e, e1⟩ := LRUCache.Put_hit h ht v
    have hm : (k, w1) ∈ c.entries := by rw [e]; simp
    have := (h.cached_eq_some_iff k w1).mpr hm
    rw [hc] at this
    obtain rfl := Option.some.inj this
    exact ⟨c1, l1, l2, hg, hwf, hcs, e, e1⟩

theorem LRUCache.Put_not_cached {c : LRUCache} (h : c.WF) (hpos : 0 < c.cache_size)
    {k : List Byte} (hc : c.cached k = none) (v : List Byte) :
    ∃ c1, c.Put k v = some (Status.OK, c1) ∧ c1.WF ∧ c1.cache_size = c.cache_size ∧
      c1.entries =
        (k, v) :: (if c.lru.length = c.cache_size then c.entries.dropLast else c.entries) :=
  LRUCache.Put_miss h hpos ((h.table_none_iff k).mpr ((h.cached_eq_none_iff k).mp hc)) v

/-- After any `Put` on a well-formed cache of capacity at least one, the key
is cached with the value put. -/
theorem LRUCache.Put_total {c : LRUCache} (h : c.WF) (hpos : 0 < c.cache_size)
    (k v : List Byte) :
    ∃ c1, c.Put k v = some (Status.OK, c1) ∧ c1.WF ∧ c1.cache_size = c.cache_size ∧
      c1.cached k = some v := by
  cases hc : c.cached k with
  | none =>
    obtain ⟨c1, hp, hwf, hcs, e⟩ := LRUCache.Put_not_cached h hpos hc v
    exact ⟨c1, hp, hwf, hcs, (hwf.cached_eq_some_iff k v).mpr (by rw [e]; simp)⟩
  | some w =>
    obtain ⟨c1, l1, l2, hp, hwf, hcs, _, e⟩ := LRUCache.Put_cached h hc v
    exact ⟨c1, hp, hwf, hcs, (hwf.cached_eq_some_iff k v).mpr (by rw [e]; simp)⟩

theorem cacheAB_WF : cacheAB.WF :=
  { length_le := by simp [cacheAB]
    addr_nodup := by simp [cacheAB]
    keys_nodup := by simp [cacheAB, LRUCache.keys]
    table_iff := by
      intro k a
      simp only [cacheAB, List.mem_cons, Prod.mk.injEq, CacheNode.mk.injEq, List.mem_singleton,
        List.not_mem_nil, or_false]
      by_cases h1 : k = [97]
      · subst h1
        constructor
        · intro h
          simp only [if_true, Option.some.injEq] at h
          exact ⟨[49], Or.inl ⟨h.symm, rfl, rfl⟩⟩
        · rintro ⟨v, h | h⟩
          · simp [h.1]
          · exact absurd h.2.1 (by decide)
      · by_cases h2 : k = [98]
        · subst h2
          constructor
          · intro h
            simp only [h1, if_false, if_true, Option.some.injEq] at h
            exact ⟨[50], Or.inr ⟨h.symm, rfl, rfl⟩⟩
          · rintro ⟨v, h | h⟩
            · exact absurd h.2.1 (by decide)
            · simp [h.1]
        · simp only [h1, h2, if_false]
          constructor
          · intro h
            exact absurd h (by simp)
          · rintro ⟨v, h | h⟩
            · exact h.2.1.elim
            · exact h.2.1.elim
    addr_lt := by
      intro n hn
      simp only [cacheAB, List.mem_cons, List.mem_singleton, List.not_mem_nil, or_false] at hn
      rcases hn with rfl | rfl <;> simp [cacheAB] }

/-- C7: on every well-formed cache state with `cache_size >= 1`, `Put(k, v)`
returns OK, leaves `k` cached with `v`, and the `Get(k)` that follows returns
OK with `v`, whether or not `k` was cached before; when `k` was cached, `Put`
leaves the number of entries and what is cached for every other key
unchanged. -/
theorem cache_Get_after_Put (c : LRUCache) (k v value : List Byte) (hwf : c.WF)
    (hpos : 1 ≤ c.cache_size) :
    ∃ c1 c2, c.Put k v = some (Status.OK, c1) ∧
      c1.Get k value = some (Status.OK, v, c2) ∧ c1.cached k = some v ∧
      (c.cached k ≠ none →
        c1.lru.length = c.lru.length ∧ ∀ k1, k1 ≠ k → c1.cached k1 = c.cached k1) := by
  obtain ⟨c1, hp, hwf1, _, hc1⟩ := LRUCache.Put_total hwf hpos k v
  obtain ⟨c2, _, _, hg, _⟩ := LRUCache.Get_cached hwf1 hc1 value
  refine ⟨c1, c2, hp, hg, hc1, fun hne => ?_⟩
  cases hc : c.cached k with
  | none => exact absurd hc hne
  | some w =>
    obtain ⟨c1', l1, l2, hp', _, _, e, e1⟩ := LRUCache.Put_cached hwf hc v
    rw [hp] at hp'
    obtain rfl : c1 = c1' := by
      simp only [Option.some.injEq, Prod.mk.injEq, true_and] at hp'
      exact hp'
    constructor
    · rw [← LRUCache.length_entries, ← LRUCache.length_entries, e, e1]
      simp only [List.length_cons, List.length_append]
      omega
    · intro k1 hk1
      apply hwf.cached_congr hwf1
      intro w1
      rw [e, e1]
      simp only [List.mem_cons, List.mem_append, Prod.mk.injEq]
      constructor
      · rintro (⟨h, _⟩ | h | h)
        · exact absurd h hk1
        · exact Or.inl h
        · exact Or.inr (Or.inr h)
      · rintro (h | ⟨h, _⟩ | h)
        · exact Or.inr (Or.inl h)
        · exact absurd h hk1
        · exact Or.inr (Or.inr h)

/-- C7, witness: `Put("b", "9")` on the cache holding `"a"` and `"b"`. -/
theorem cache_Get_after_Put_witness :
    ∃ c1 c2, cacheAB.Put [98] [57] = some (Status.OK, c1) ∧
      c1.Get [98] [] = some (Status.OK, [57], c2) ∧ c1.cached [98] = some [57] ∧
      (cacheAB.cached [98] ≠ none →
        c1.lru.length = cacheAB.lru.length ∧
          ∀ k1, k1 ≠ [98] → c1.cached k1 = cacheAB.cached k1) :=
  cache_Get_after_Put cacheAB [98] [57] [] cacheAB_WF (by decide)

theorem LRUCache.putAll_append (c : LRUCache) (a b : List (List Byte × List Byte)) :
    c.putAll (a ++ b) = (c.putAll a).bind (fun c1 => c1.putAll b) := by
  induction a generalizing c with
  | nil => rfl
  | cons kv rest ih =>
    simp only [List.cons_append, LRUCache.putAll]
    cases c.Put kv.1 kv.2 with
    | none => rfl
    | some r => exact ih r.2

theorem LRUCache.putAll_fresh (kvs : List (List Byte × List Byte)) (c : LRUCache)
    (h : c.WF) (hpos : 0 < c.cache_size) (hnd : (kvs.map (fun kv => kv.1)).Nodup)
    (hnew : ∀ kv ∈ kvs, kv.1 ∉ c.keys) (hroom : c.lru.length + kvs.length ≤ c.cache_size) :
    ∃ c1, c.putAll kvs = some c1 ∧ c1.WF ∧ c1.cache_size = c.cache_size ∧
      c1.entries = kvs.reverse ++ c.entries := by
  induction kvs generalizing c with
  | nil => exact ⟨c, rfl, h, rfl, by simp⟩
  | cons kv rest ih =>
    have hc : c.cached kv.1 = none :=
      (h.cached_eq_none_iff kv.1).mpr (hnew kv (List.mem_cons_self _ _))
    obtain ⟨c1, hp, hwf1, hcs1, e1⟩ := LRUCache.Put_not_cached h hpos hc kv.2
    have hnf : c.lru.length ≠ c.cache_size := by
      simp only [List.length_cons] at hroom
      omega
    simp only [hnf, if_false] at e1
    simp only [List.map_cons, List.nodup_cons] at hnd
    have hroom1 : c1.lru.length + rest.length ≤ c1.cache_size := by
      rw [← LRUCache.length_entries, e1, hcs1]
      simp only [List.length_cons, LRUCache.length_entries] at hroom ⊢
      omega
    have hnew1 : ∀ x ∈ rest, x.1 ∉ c1.keys := by
      intro x hx
      rw [LRUCache.keys_eq_map_entries, e1, List.map_cons, List.mem_cons,
        ← LRUCache.keys_eq_map_entries]
      rintro (hh | hh)
      · exact hnd.1 (hh ▸ List.mem_map_of_mem (fun kv => kv.1) hx)
      · exact hnew x (List.mem_cons_of_mem _ hx) hh
    obtain ⟨c2, hp2, hwf2, hcs2, e2⟩ := ih c1 hwf1 (hcs1 ▸ hpos) hnd.2 hnew1 hroom1
    refine ⟨c2, ?_, hwf2, hcs2.trans hcs1, ?_⟩
    · simp only [LRUCache.putAll, hp]
      exact hp2
    · rw [e2, e1]
      simp

/-! ## The LRU cache: recency order -/

theorem lastTouch_le (k : List Byte) (log : List (List Byte)) : lastTouch k log ≤ log.length := by
  induction log with
  | nil => simp [lastTouch]
  | cons t log ih =>
    simp only [lastTouch, List.length_cons]
    split <;> omega

theorem LRUCache.Put_keys {c : LRUCache} (h : c.WF) (hpos : 0 < c.cache_size)
    (k v : List Byte) :
    ∃ c1, c.Put k v = some (Status.OK, c1) ∧ c1.WF ∧ c1.cache_size = c.cache_size ∧
      c1.keys = k :: (if k ∈ c.keys then c.keys.erase k
        else if c.lru.length = c.cache_size then c.keys.dropLast else c.keys) := by
  cases hc : c.cached k with
  | none =>
    have hk : k ∉ c.keys := (h.cached_eq_none_iff k).mp hc
    obtain ⟨c1, hp, hwf, hcs, e⟩ := LRUCache.Put_not_cached h hpos hc v
    refine ⟨c1, hp, hwf, hcs, ?_⟩
    rw [LRUCache.keys_eq_map_entries, e]
    simp only [hk, if_false, List.map_cons]
    split
    · rw [LRUCache.keys_eq_map_entries, List.map_dropLast]
    · rw [LRUCache.keys_eq_map_entries]
  | some w =>
    obtain ⟨c1, l1, l2, hp, hwf, hcs, e, e1⟩ := LRUCache.Put_cached h hc v
    have hkeys : c.keys = l1.map (fun e => e.1) ++ k :: l2.map (fun e => e.1) := by
      rw [LRUCache.keys_eq_map_entries, e]
      simp
    have hnd := h.keys_nodup
    rw [hkeys] at hnd
    have hk1 : k ∉ l1.map (fun e => e.1) := fun hm =>
      (List.nodup_append.mp hnd).2.2 hm (List.mem_cons_self _ _)
    refine ⟨c1, hp, hwf, hcs, ?_⟩
    have hk : k ∈ c.keys := by rw [hkeys]; simp
    simp only [hk, if_true]
    rw [LRUCache.keys_eq_map_entries, e1, hkeys, List.erase_append_right _ hk1,
      List.erase_cons_head]
    simp

theorem LRUCache.Get_keys {c : LRUCache} (h : c.WF) {k : List Byte} (hk : k ∈ c.keys)
    (value : List Byte) :
    ∃ w c1, c.Get k value = some (Status.OK, w, c1) ∧ c1.WF ∧
      c1.cache_size = c.cache_size ∧ c1.keys = k :: c.keys.erase k := by
  cases hc : c.cached k with
  | none => exact absurd hk ((h.cached_eq_none_iff k).mp hc)
  | some w =>
    obtain ⟨c1, l1, l2, hp, hwf, hcs, e, e1⟩ := LRUCache.Get_cached h hc value
    have hkeys : c.keys = l1.map (fun e => e.1) ++ k :: l2.map (fun e => e.1) := by
      rw [LRUCache.keys_eq_map_entries, e]
      simp
    have hnd := h.keys_nodup
    rw [hkeys] at hnd
    have hk1 : k ∉ l1.map (fun e => e.1) := fun hm =>
      (List.nodup_append.mp hnd).2.2 hm (List.mem_cons_self _ _)
    refine ⟨w, c1, hp, hwf, hcs, ?_⟩
    rw [LRUCache.keys_eq_map_entries, e1, hkeys, List.erase_append_right _ hk1,
      List.erase_cons_head]
    simp

theorem RecencySorted.touch {keys log rest : List (List Byte)} {k : List Byte}
    (h : RecencySorted keys log) (hsub : rest.Sublist keys) (hk : k ∉ rest) :
    RecencySorted (k :: rest) (k :: log) := by
  have hne : ∀ a ∈ rest, lastTouch a (k :: log) = lastTouch a log := by
    intro a ha
    have : k ≠ a := fun e => hk (e ▸ ha)
    simp [lastTouch, this]
  have hself : lastTouch k (k :: log) = log.length + 1 := by simp [lastTouch]
  constructor
  · rw [List.pairwise_cons]
    constructor
    · intro a ha
      rw [hne a ha, hself]
      have := lastTouch_le a log
      omega
    · have hp := h.1.sublist hsub
      refine hp.imp_of_mem ?_
      intro a b ha hb hab
      rw [hne a ha, hne b hb]
      exact hab
  · intro a ha
    rcases List.mem_cons.mp ha with rfl | ha
    · rw [hself]
      omega
    · rw [hne a ha]
      exact h.2 a (hsub.subset ha)

theorem LRUCache.runLog_sorted (ops : List CacheOp) (c : LRUCache) (log : List (List Byte))
    (h : c.WF) (hs : RecencySorted c.keys log) (c1 : LRUCache) (log1 : List (List Byte))
    (hrun : c.runLog log ops = some (c1, log1)) :
    c1.WF ∧ c1.cache_size = c.cache_size ∧ RecencySorted c1.keys log1 := by
  induction ops generalizing c log with
  | nil =>
    simp only [LRUCache.runLog, Option.some.injEq, Prod.mk.injEq] at hrun
    obtain ⟨rfl, rfl⟩ := hrun
    exact ⟨h, rfl, hs⟩
  | cons op ops ih =>
    cases op with
    | get key =>
      by_cases hk : key ∈ c.keys
      · obtain ⟨w, c2, hg, hwf2, hcs2, e2⟩ := LRUCache.Get_keys h hk []
        simp only [LRUCache.runLog, hg, Status.IsOK, if_true] at hrun
        have hs2 : RecencySorted c2.keys (key :: log) := by
          rw [e2]
          exact hs.touch (List.erase_sublist _ _) (h.keys_nodup.not_mem_erase)
        obtain ⟨a, b, d⟩ := ih c2 (key :: log) hwf2 hs2 hrun
        exact ⟨a, b.trans hcs2, d⟩
      · have hg := LRUCache.Get_not_cached h ((h.cached_eq_none_iff key).mpr hk) []
        simp only [LRUCache.runLog, hg, Status.IsOK] at hrun
        exact ih c log h hs hrun
    | put key value =>
      by_cases hpos : 0 < c.cache_size
      · obtain ⟨c2, hp, hwf2, hcs2, e2⟩ := LRUCache.Put_keys h hpos key value
        simp only [LRUCache.runLog, hp] at hrun
        have hs2 : RecencySorted c2.keys (key :: log) := by
          rw [e2]
          by_cases hk : key ∈ c.keys
          · simp only [hk, if_true]
            exact hs.touch (List.erase_sublist _ _) (h.keys_nodup.not_mem_erase)
          · simp only [hk, if_false]
            split
            · exact hs.touch (List.dropLast_sublist _)
                (fun hm => hk (List.mem_of_mem_dropLast hm))
            · exact hs.touch (List.Sublist.refl _) hk
        obtain ⟨a, b, d⟩ := ih c2 (key :: log) hwf2 hs2 hrun
        exact ⟨a, b.trans hcs2, d⟩
      · exfalso
        have h0 : c.cache_size = 0 := by omega
        have hl : c.lru = [] := by
          have := h.length_le
          rw [h0] at this
          exact List.length_eq_zero.mp (Nat.le_zero.mp this)
        have ht : c.table key = none := by
          rw [h.table_none_iff]
          simp [LRUCache.keys, hl]
        simp [LRUCache.runLog, LRUCache.Put, ht, LRUCache.evict, hl, h0] at hrun

/-- C5: (1) on a well-formed cache that holds exactly `cache_size >= 1`
entries, `Put(k, v)` of a key that is not cached returns OK; afterwards the key
at the least-recently-used end of the recency list is not cached, `k` is cached
with `v`, and every other key is cached exactly as before.  (2) After `Put` of
`n + 1` pairwise distinct keys into the empty cache of capacity `n >= 1`, the
first key put is not cached and every later key is cached with its value.
(3) In every cache reached from the empty cache by `Put` and `Get` calls, the
key at the least-recently-used end is the one whose last `Put` or successful
`Get` is oldest. -/
theorem cache_Put_evicts_lru :
    (∀ (c : LRUCache) (k v : List Byte), c.WF → 1 ≤ c.cache_size →
      c.lru.length = c.cache_size → c.cached k = none →
      ∃ c1 old, c.Put k v = some (Status.OK, c1) ∧ c.keys.getLast? = some old ∧
        c1.cached old = none ∧ c1.cached k = some v ∧
        ∀ k1, k1 ≠ old → k1 ≠ k → c1.cached k1 = c.cached k1) ∧
    (∀ (n : Nat) (kvs : List (List Byte × List Byte)), 1 ≤ n → kvs.length = n + 1 →
      (kvs.map (fun kv => kv.1)).Nodup →
      ∃ c2 first rest, kvs = first :: rest ∧ (LRUCache.init n).putAll kvs = some c2 ∧
        c2.cached first.1 = none ∧ ∀ kv ∈ rest, c2.cached kv.1 = some kv.2) ∧
    (∀ (n : Nat) (ops : List CacheOp) (c : LRUCache) (log : List (List Byte)),
      (LRUCache.init n).runLog [] ops = some (c, log) →
      ∀ old, c.keys.getLast? = some old →
        ∀ k ∈ c.keys, k ≠ old → lastTouch old log < lastTouch k log) := by
  have part1 : ∀ (c : LRUCache) (k v : List Byte), c.WF → 1 ≤ c.cache_size →
      c.lru.length = c.cache_size → c.cached k = none →
      ∃ c1 old, c.Put k v = some (Status.OK, c1) ∧ c1.WF ∧ c.keys.getLast? = some old ∧
        c1.entries = (k, v) :: c.entries.dropLast ∧
        c1.cached old = none ∧ c1.cached k = some v ∧
        ∀ k1, k1 ≠ old → k1 ≠ k → c1.cached k1 = c.cached k1 := by
    intro c k v hwf hpos hfull hk
    obtain ⟨c1, hp, hwf1, _, e1⟩ := LRUCache.Put_not_cached hwf hpos hk v
    simp only [hfull, if_true] at e1
    have hne : c.entries ≠ [] := by
      intro e
      have := congrArg List.length e
      rw [LRUCache.length_entries] at this
      simp only [List.length_nil] at this
      omega
    have esplit : c.entries = c.entries.dropLast ++ [c.entries.getLast hne] :=
      (List.dropLast_append_getLast hne).symm
    have hkeys : c.keys = (c.entries.dropLast).map (fun e => e.1) ++ [(c.entries.getLast hne).1] := by
      rw [LRUCache.keys_eq_map_entries]
      conv_lhs => rw [esplit]
      simp
    have hknd := hwf.keys_nodup
    rw [hkeys] at hknd
    have hkc : k ∉ c.keys := (hwf.cached_eq_none_iff k).mp hk
    have hold_mem : (c.entries.getLast hne).1 ∈ c.keys := by rw [hkeys]; simp
    refine ⟨c1, (c.entries.getLast hne).1, hp, hwf1, ?_, e1, ?_, ?_, ?_⟩
    · rw [hkeys]
      simp
    · rw [hwf1.cached_eq_none_iff, LRUCache.keys_eq_map_entries, e1, List.map_cons,
        List.mem_cons]
      rintro (hh | hh)
      · have hh' : (c.entries.getLast hne).1 = k := hh
        exact hkc (hh' ▸ hold_mem)
      · exact (List.nodup_append.mp hknd).2.2 hh (List.mem_singleton.mpr rfl)
    · exact (hwf1.cached_eq_some_iff k v).mpr (by rw [e1]; simp)
    · intro k1 hk1 hk1'
      apply hwf.cached_congr hwf1
      intro w
      rw [e1]
      conv_rhs => rw [esplit]
      simp only [List.mem_cons, List.mem_append, Prod.mk.injEq, List.mem_singleton,
        List.not_mem_nil, or_false]
      constructor
      · rintro (⟨hh, _⟩ | hh)
        · exact absurd hh hk1'
        · exact Or.inl hh
      · rintro (hh | hh)
        · exact Or.inr hh
        · exact absurd (congrArg Prod.fst hh) hk1
  refine ⟨fun c k v hwf hpos hfull hk => ?_, fun n kvs hn hlen hnd => ?_,
    fun n ops c log hrun old hold k hk hne => ?_⟩
  rotate_left 2
  · have h0 : RecencySorted (LRUCache.init n).keys [] := by
      constructor <;> simp [LRUCache.init, LRUCache.keys]
    obtain ⟨_, _, hs⟩ :=
      LRUCache.runLog_sorted ops (LRUCache.init n) [] (LRUCache.init_WF n) h0 c log hrun
    have e : c.keys = c.keys.dropLast ++ [old] := (List.dropLast_append_getLast? old hold).symm
    have hp := hs.1
    rw [e, List.pairwise_append] at hp
    rw [e] at hk
    rcases List.mem_append.mp hk with h1 | h1
    · exact hp.2.2 k h1 old (List.mem_singleton.mpr rfl)
    · exact absurd (List.mem_singleton.mp h1) hne
  · obtain ⟨c1, old, hp, _, hl, _, h1, h2, h3⟩ := part1 c k v hwf hpos hfull hk
    exact ⟨c1, old, hp, hl, h1, h2, h3⟩
  · match kvs, hlen, hnd with
    | first :: t, hlen, hnd =>
      have htne : t ≠ [] := by
        intro e
        rw [e] at hlen
        simp only [List.length_cons, List.length_nil] at hlen
        omega
      have tsplit : t = t.dropLast ++ [t.getLast htne] :=
        (List.dropLast_append_getLast htne).symm
      generalize t.dropLast = mid at tsplit
      generalize t.getLast htne = last at tsplit
      subst tsplit
      simp only [List.length_cons, List.length_append, List.length_nil] at hlen
      simp only [List.map_cons, List.map_append, List.map_nil, List.nodup_cons,
        List.mem_append, List.mem_singleton, List.mem_map, not_or] at hnd
      have hndfront : ((first :: mid).map (fun kv => kv.1)).Nodup := by
        simp only [List.map_cons, List.nodup_cons, List.mem_map]
        exact ⟨hnd.1.1, (List.nodup_append.mp hnd.2).1⟩
      obtain ⟨cn, hpn, hwfn, hcsn, en⟩ := LRUCache.putAll_fresh (first :: mid)
        (LRUCache.init n) (LRUCache.init_WF n) hn hndfront
        (by intro kv _; simp [LRUCache.init, LRUCache.keys])
        (by simp only [LRUCache.init, List.length_nil, List.length_cons]; omega)
      have hcsn' : cn.cache_size = n := hcsn
      have een : cn.entries = mid.reverse ++ [first] := by
        rw [en]
        simp [LRUCache.init, LRUCache.entries]
      have hfulln : cn.lru.length = cn.cache_size := by
        rw [← LRUCache.length_entries, een, hcsn']
        simp only [List.length_append, List.length_reverse, List.length_cons, List.length_nil]
        omega
      have hlastnew : cn.cached last.1 = none := by
        rw [hwfn.cached_eq_none_iff, LRUCache.keys_eq_map_entries, een]
        simp only [List.map_append, List.map_reverse, List.map_cons, List.map_nil,
          List.mem_append, List.mem_reverse, List.mem_singleton, List.mem_map, not_or]
        refine ⟨fun hh => ?_, fun hh => hnd.1.2 hh.symm⟩
        have hd := (List.nodup_append.mp hnd.2).2.2
        obtain ⟨x, hx, hxe⟩ := hh
        exact hd (List.mem_map.mpr ⟨x, hx, hxe⟩) (List.mem_singleton.mpr rfl)
      obtain ⟨c2, old, hp2, hwf2, _, e2, _, _, _⟩ :=
        part1 cn last.1 last.2 hwfn (hcsn' ▸ hn) hfulln hlastnew
      have e2' : c2.entries = (last.1, last.2) :: mid.reverse := by
        rw [e2, een]
        simp
      refine ⟨c2, first, mid ++ [last], rfl, ?_, ?_, ?_⟩
      · have : first :: (mid ++ [last]) = (first :: mid) ++ [last] := by simp
        rw [this, LRUCache.putAll_append, hpn]
        simp only [Option.bind, LRUCache.putAll, hp2]
      · rw [hwf2.cached_eq_none_iff, LRUCache.keys_eq_map_entries, e2']
        simp only [List.map_cons, List.map_reverse, List.mem_cons, List.mem_reverse,
          List.mem_map, not_or]
        refine ⟨hnd.1.2, fun hh => ?_⟩
        obtain ⟨x, hx, hxe⟩ := hh
        exact hnd.1.1 ⟨x, hx, hxe⟩
      · intro kv hkv
        rw [hwf2.cached_eq_some_iff, e2']
        rcases List.mem_append.mp hkv with hh | hh
        · exact List.mem_cons_of_mem _ (List.mem_reverse.mpr hh)
        · rw [List.mem_singleton] at hh
          subst hh
          exact List.mem_cons_self _ _

/-- C5, witness: `Put("c", "3")` on the full cache holding `"a"` (most recent)
and `"b"`; three distinct keys put into an empty cache of capacity 2; and the
cache reached by the calls of `sampleOps`. -/
theorem cache_Put_evicts_lru_witness :
    (∃ c1 old, cacheAB.Put [99] [51] = some (Status.OK, c1) ∧
        cacheAB.keys.getLast? = some old ∧
        c1.cached old = none ∧ c1.cached [99] = some [51] ∧
        ∀ k1, k1 ≠ old → k1 ≠ [99] → c1.cached k1 = cacheAB.cached k1) ∧
    (∃ c2 first rest, [(([97] : List Byte), ([49] : List Byte)), ([98], [50]), ([99], [51])] =
        first :: rest ∧
      (LRUCache.init 2).putAll [([97], [49]), ([98], [50]), ([99], [51])] = some c2 ∧
        c2.cached first.1 = none ∧ ∀ kv ∈ rest, c2.cached kv.1 = some kv.2) ∧
    (∃ c log, (LRUCache.init 2).runLog [] sampleOps = some (c, log) ∧
      ∀ old, c.keys.getLast? = some old →
        ∀ k ∈ c.keys, k ≠ old → lastTouch old log < lastTouch k log) := by
  refine ⟨cache_Put_evicts_lru.1 cacheAB [99] [51] cacheAB_WF (by decide) (by decide)
      (by decide),
    cache_Put_evicts_lru.2.1 2 [([97], [49]), ([98], [50]), ([99], [51])] (by decide)
      (by decide) (by decide), ?_⟩
  obtain ⟨⟨c, log⟩, h⟩ := Option.isSome_iff_exists.mp
    (show ((LRUCache.init 2).runLog [] sampleOps).isSome = true by decide)
  exact ⟨c, log, h, cache_Put_evicts_lru.2.2 2 sampleOps c log h⟩

/-- C6: let `c` be the cache and `log` the keys touched (latest first) after
any sequence of `Put` and `Get` calls on the empty cache of capacity `n`.  Then
the recency list of `c` lists the cached keys by strictly decreasing time of
their last `Put` or successful `Get`.  A further `Put(k, v)` (for `n >= 1`)
returns OK and a further `Get(k)` of a cached key returns OK, and either
leaves `k` at the front (the most-recently-used end) followed by the other
remaining keys in their old order: the old list without `k`, or, for a `Put` of
a new key into a full cache, the old list without its last key. -/
theorem cache_recency_order (n : Nat) (ops : List CacheOp) (c : LRUCache)
    (log : List (List Byte)) (hrun : (LRUCache.init n).runLog [] ops = some (c, log)) :
    c.keys.Pairwise (fun a b => lastTouch b log < lastTouch a log) ∧
    (∀ k ∈ c.keys, 0 < lastTouch k log) ∧
    (1 ≤ n → ∀ k v, ∃ c1, c.Put k v = some (Status.OK, c1) ∧
      c1.keys = k :: (if k ∈ c.keys then c.keys.erase k
        else if c.lru.length = c.cache_size then c.keys.dropLast else c.keys)) ∧
    (∀ k ∈ c.keys, ∀ value, ∃ w c1, c.Get k value = some (Status.OK, w, c1) ∧
      c1.keys = k :: c.keys.erase k) := by
  have h0 : RecencySorted (LRUCache.init n).keys [] := by
    constructor <;> simp [LRUCache.init, LRUCache.keys]
  obtain ⟨hwf, hcs, hs⟩ :=
    LRUCache.runLog_sorted ops (LRUCache.init n) [] (LRUCache.init_WF n) h0 c log hrun
  refine ⟨hs.1, hs.2, fun hn k v => ?_, fun k hk value => ?_⟩
  · have hpos : 0 < c.cache_size := by
      rw [hcs]
      exact hn
    obtain ⟨c1, hp, _, _, e⟩ := LRUCache.Put_keys hwf hpos k v
    exact ⟨c1, hp, e⟩
  · obtain ⟨w, c1, hg, _, _, e⟩ := LRUCache.Get_keys hwf hk value
    exact ⟨w, c1, hg, e⟩

/-- C6, witness: capacity 2 and the calls `Put a`, `Put b`, `Get a`, `Get d`
(a miss), `Put c`: the recency list ends as `c, a` and the log as `c, a, b, a`. -/
theorem cache_recency_order_witness :
    ((LRUCache.init 2).runLog [] sampleOps).map (fun r => (r.1.keys, r.2)) =
      some ([[99], [97]], [[99], [97], [98], [97]]) ∧
    ∃ c log, (LRUCache.init 2).runLog [] sampleOps = some (c, log) ∧
      c.keys.Pairwise (fun a b => lastTouch b log < lastTouch a log) := by
  refine ⟨by decide, ?_⟩
  obtain ⟨⟨c, log⟩, h⟩ := Option.isSome_iff_exists.mp
    (show ((LRUCache.init 2).runLog [] sampleOps).isSome = true by decide)
  exact ⟨c, log, h, (cache_recency_order 2 sampleOps c log h).1⟩

/-! ## Get and the cache -/

theorem retrieveLoop_value (key value value1 : List Byte) (fuel : Nat) (s : List Byte) :
    retrieveLoop key value1 fuel s =
      (retrieveLoop key value fuel s).map
        (fun r => if r.1 = Status.OK then r else (r.1, value1)) := by
  induction fuel generalizing s with
  | zero => rfl
  | succ f ih =>
    simp only [retrieveLoop]
    split
    · rfl
    · split
      · rfl
      · split
        · rfl
        · split
          · rfl
          · split
            · rfl
            · split
              · rfl
              · split
                · rfl
                · exact ih _

theorem Retrieve_value (d : Disk) (key : List Byte) (file_id : Nat) (value value1 : List Byte) :
    RyougiDB.Retrieve d key file_id value1 =
      (RyougiDB.Retrieve d key file_id value).map
        (fun r => if r.1 = Status.OK then r else (r.1, value1)) := by
  unfold RyougiDB.Retrieve
  split
  · rfl
  · exact retrieveLoop_value _ _ _ _ _

theorem Retrieve_OK_value {d : Disk} {key : List Byte} {file_id : Nat} {value w : List Byte}
    (h : RyougiDB.Retrieve d key file_id value = some (Status.OK, w)) (value1 : List Byte) :
    RyougiDB.Retrieve d key file_id value1 = some (Status.OK, w) := by
  rw [Retrieve_value d key file_id value value1, h]
  rfl

theorem RyougiDB.Get_coherent {db : RyougiDB} {d : Disk} (h : db.Coherent d)
    (key value : List Byte) (same : Bool) :
    ∃ st v db1, db.Get d key value same = some (st, v, db1) ∧
      RyougiDB.Retrieve d key (getFileId db.table_size key) (if same then key else value) =
        some (st, v) ∧
      db1.table_size = db.table_size ∧ db1.buffer_size = db.buffer_size ∧
      (same = false → db1.Coherent d) := by
  obtain ⟨hwf, hpos, hts, hco⟩ := h
  generalize hv0 : (if same = true then key else value) = value0
  cases hc : db.cache.cached key with
  | some w =>
    obtain ⟨c1, l1, l2, hg, hwf1, hcs1, e, e1⟩ := LRUCache.Get_cached hwf hc value0
    have hm : (key, w) ∈ db.cache.entries := (hwf.cached_eq_some_iff key w).mp hc
    refine ⟨Status.OK, w, { db with cache := c1 }, ?_, hco key w hm value0, rfl, rfl,
      fun _ => ⟨hwf1, hcs1 ▸ hpos, hts, ?_⟩⟩
    · simp only [RyougiDB.Get, hv0, hg, Status.IsOK, if_true]
    · intro k w1 hkw
      apply hco k w1
      rw [e]
      simp only [e1, List.mem_cons, List.mem_append] at hkw ⊢
      rcases hkw with h1 | h1 | h1
      · exact Or.inr (Or.inl h1)
      · exact Or.inl h1
      · exact Or.inr (Or.inr h1)
  | none =>
    have hg := LRUCache.Get_not_cached hwf hc value0
    have hts0 : db.table_size ≠ 0 := by omega
    obtain ⟨⟨st2, v2⟩, hr⟩ := Retrieve_isSome d key (getFileId db.table_size key) value0
    cases st2 with
    | OK =>
      cases same with
      | false =>
        simp only [Bool.false_eq_true, if_false] at hv0
        subst hv0
        obtain ⟨c2, hp, hwf2, hcs2, e2⟩ := LRUCache.Put_not_cached hwf hpos hc v2
        refine ⟨Status.OK, v2, { db with cache := c2 }, ?_, hr, rfl, rfl,
          fun _ => ⟨hwf2, hcs2 ▸ hpos, hts, ?_⟩⟩
        · simp only [RyougiDB.Get, hg, Status.IsOK, hts0, hr, hp, if_false, if_true,
            Bool.false_eq_true]
        · intro k w1 hkw
          simp only [e2, List.mem_cons] at hkw
          rcases hkw with h1 | h1
          · simp only [Prod.mk.injEq] at h1
            obtain ⟨rfl, rfl⟩ := h1
            exact fun value1 => Retrieve_OK_value hr value1
          · apply hco k w1
            split at h1
            · exact List.mem_of_mem_dropLast h1
            · exact h1
      | true =>
        simp only [if_true] at hv0
        subst hv0
        obtain ⟨c2, hp, _⟩ := LRUCache.Put_total hwf hpos v2 v2
        refine ⟨Status.OK, v2, { db with cache := c2 }, ?_, hr, rfl, rfl,
          fun hs => absurd hs (by simp)⟩
        simp only [RyougiDB.Get, hg, Status.IsOK, hts0, hr, hp, if_false, if_true,
          Bool.false_eq_true]
    | NotFound =>
      exact ⟨_, v2, db, by simp [RyougiDB.Get, hv0, hg, Status.IsOK, hts0, hr], hr, rfl, rfl,
        fun _ => ⟨hwf, hpos, hts, hco⟩⟩
    | Corruption =>
      exact ⟨_, v2, db, by simp [RyougiDB.Get, hv0, hg, Status.IsOK, hts0, hr], hr, rfl, rfl,
        fun _ => ⟨hwf, hpos, hts, hco⟩⟩
    | IOError =>
      exact ⟨_, v2, db, by simp [RyougiDB.Get, hv0, hg, Status.IsOK, hts0, hr], hr, rfl, rfl,
        fun _ => ⟨hwf, hpos, hts, hco⟩⟩
    | NotSupported =>
      exact ⟨_, v2, db, by simp [RyougiDB.Get, hv0, hg, Status.IsOK, hts0, hr], hr, rfl, rfl,
        fun _ => ⟨hwf, hpos, hts, hco⟩⟩

theorem RyougiDB.getAll_coherent {db : RyougiDB} {d : Disk} (h : db.Coherent d)
    (keys : List (List Byte × List Byte)) :
    ∃ db1, db.getAll d keys = some db1 ∧ db1.Coherent d ∧
      db1.table_size = db.table_size ∧ db1.buffer_size = db.buffer_size := by
  induction keys generalizing db with
  | nil => exact ⟨db, rfl, h, rfl, rfl⟩
  | cons key keys ih =>
    obtain ⟨st, v, db1, hg, _, hts1, hbs1, hco1⟩ := RyougiDB.Get_coherent h key.1 key.2 false
    obtain ⟨db2, hg2, hco2, hts2, hbs2⟩ := ih (hco1 rfl)
    refine ⟨db2, ?_, hco2, hts2.trans hts1, hbs2.trans hbs1⟩
    simp only [RyougiDB.getAll, hg]
    exact hg2

theorem RyougiDB.coherent_of_empty_cache (db : RyougiDB) (d : Disk) (n : Nat)
    (hcache : db.cache = LRUCache.init n) (hn : 1 ≤ n) (hts : 1 ≤ db.table_size) :
    db.Coherent d := by
  refine ⟨hcache ▸ LRUCache.init_WF n, ?_, hts, ?_⟩
  · rw [hcache]
    exact hn
  · intro k w hkw
    rw [hcache] at hkw
    simp [LRUCache.init, LRUCache.entries] at hkw

theorem createLoop_encodeRecord (ts bs fuel : Nat) (r : Record) (rest : List Byte)
    (st : CreateState) (hr : r.InRange) :
    createLoop ts bs (fuel + 1) (encodeRecord r ++ rest) st =
      match createRecord ts bs st r with
      | none => none
      | some st1 => createLoop ts bs fuel rest st1 := by
  obtain ⟨hk, hv⟩ := hr
  have hk32 : r.key.length < u32 := by unfold kMaxKeySize at hk; unfold u32; omega
  have hv32 : r.value.length < u32 := by unfold kMaxValueSize at hv; unfold u32; omega
  have e : encodeRecord r ++ rest =
      encodeU32 r.key.length ++ (r.key ++ (encodeU32 r.value.length ++ (r.value ++ rest))) := by
    simp [encodeRecord, List.append_assoc]
  rw [e, createLoop, readU32_encodeU32 _ _ hk32]
  simp only [ge_iff_le, Nat.not_le.mpr hk, if_false, readBytes_append,
    readU32_encodeU32 _ _ hv32, Nat.not_le.mpr hv]
  rfl

theorem createLoop_encodeRecords (ts bs : Nat) (rs : List Record) (tail : List Byte)
    (hrs : ∀ r ∈ rs, r.InRange) (f : Nat) (st : CreateState) :
    createLoop ts bs (rs.length + f) (encodeRecords rs ++ tail) st =
      match createRecords ts bs st rs with
      | none => none
      | some st1 => createLoop ts bs f tail st1 := by
  induction rs generalizing st with
  | nil => simp [encodeRecords, createRecords]
  | cons r rs ih =>
    have e : (r :: rs).length + f = (rs.length + f) + 1 := by
      simp only [List.length_cons]
      omega
    rw [e, encodeRecords, List.append_assoc,
      createLoop_encodeRecord ts bs _ r _ st (hrs r (List.mem_cons_self _ _))]
    simp only [createRecords]
    cases createRecord ts bs st r with
    | none => rfl
    | some st1 => exact ih (fun x hx => hrs x (List.mem_cons_of_mem _ hx)) st1

theorem createLoop_oversize (ts bs f : Nat) (tail : List Byte) (st : CreateState)
    (h : oversizeHead tail = true) :
    createLoop ts bs (f + 1) tail st = some (CreateExit.returned Status.NotSupported st.disk) := by
  unfold oversizeHead at h
  unfold createLoop
  cases h1 : readU32 tail with
  | none => simp [h1] at h
  | some p1 =>
    obtain ⟨key_size, s1⟩ := p1
    simp only [h1] at h ⊢
    by_cases hks : key_size ≥ kMaxKeySize
    · simp only [hks, if_true]
    · simp only [hks, if_false] at h ⊢
      cases h2 : readBytes key_size s1 with
      | none => simp [h2] at h
      | some p2 =>
        obtain ⟨key, s2⟩ := p2
        simp only [h2] at h ⊢
        cases h3 : readU32 s2 with
        | none => simp [h3] at h
        | some p3 =>
          obtain ⟨value_size, s3⟩ := p3
          simp only [h3, decide_eq_true_eq] at h ⊢
          simp only [h, if_true]

theorem createLoop_nil (ts bs f : Nat) (st : CreateState) :
    createLoop ts bs (f + 1) [] st = some (CreateExit.finished st) := by
  simp [createLoop, readU32]

theorem Create_eq_dirs (db : RyougiDB) (d : Disk) (bytes : List Byte) (ts bs : Nat)
    (hdir : d.mkdirFails = false ∨ (d.root = true ∧ d.dataDir = true)) :
    RyougiDB.Create db d (some bytes) ts bs =
      match createLoop ts bs (bytes.length + 1) bytes (createStart d) with
      | none => none
      | some (CreateExit.returned status disk) =>
        some (status, { db with table_size := ts, buffer_size := bs }, disk)
      | some (CreateExit.finished st1) =>
        some ((flushAll (List.range ts) st1).1,
          { db with table_size := ts, buffer_size := bs }, (flushAll (List.range ts) st1).2) := by
  rcases hdir with hmk | ⟨hroot, hdata⟩
  · have e1 : ∀ (x : Disk) (p : Bool), x.mkdirFails = false →
        ensureDir x p = (Status.OK, true) := by
      intro x p hx
      unfold ensureDir
      cases p <;> simp [hx]
    simp only [RyougiDB.Create, e1 d d.root hmk, e1 { d with root := true } _ hmk, createStart]
  · simp only [RyougiDB.Create, hroot, hdata, ensureDir, if_true, createStart]

theorem Create_eq (db : RyougiDB) (d : Disk) (bytes : List Byte) (ts bs : Nat)
    (hmk : d.mkdirFails = false) :
    RyougiDB.Create db d (some bytes) ts bs =
      match createLoop ts bs (bytes.length + 1) bytes (createStart d) with
      | none => none
      | some (CreateExit.returned status disk) =>
        some (status, { db with table_size := ts, buffer_size := bs }, disk)
      | some (CreateExit.finished st1) =>
        some ((flushAll (List.range ts) st1).1,
          { db with table_size := ts, buffer_size := bs }, (flushAll (List.range ts) st1).2) :=
  Create_eq_dirs db d bytes ts bs (Or.inl hmk)

theorem length_encodeRecords_append (rs : List Record) (tail : List Byte) :
    ∃ f, (encodeRecords rs ++ tail).length + 1 = rs.length + (f + 1) := by
  refine ⟨(encodeRecords rs ++ tail).length - rs.length, ?_⟩
  have := length_encodeRecords_ge rs
  simp only [List.length_append] at *
  omega

/-! ## Create: what Write emits, and that every iteration returns -/

theorem cread_cstr (slack : List Byte → Nat → Byte) (k : List Byte)
    (h : k.length ≤ (cstr k).length + 1) : cread slack (cstr k) k.length = k := by
  unfold cread
  have e : k.length - ((cstr k).length + 1) = 0 := by omega
  rw [e, List.range_zero, List.map_nil, List.append_nil]
  clear e
  unfold cstr at h ⊢
  induction k with
  | nil => simp
  | cons b k ih =>
    by_cases hb : b = 0
    · subst hb
      have e : List.takeWhile (fun c : Byte => decide (c ≠ 0)) (0 :: k) = [] := by
        simp [List.takeWhile_cons]
      rw [e] at h ⊢
      simp only [List.length_cons, List.length_nil, Nat.zero_add] at h
      have hk : k = [] := List.length_eq_zero.mp (by omega)
      subst hk
      rfl
    · have e : List.takeWhile (fun c : Byte => decide (c ≠ 0)) (b :: k) =
          b :: List.takeWhile (fun c : Byte => decide (c ≠ 0)) k := by
        simp [List.takeWhile_cons, hb]
      rw [e] at h ⊢
      simp only [List.length_cons, List.cons_append, List.take_succ_cons] at h ⊢
      rw [ih (by omega)]

theorem Record.NulFree.inBounds {r : Record} (h : r.NulFree) : r.InBounds := by
  unfold Record.InBounds
  rw [cstr_of_not_mem _ h.1, cstr_of_not_mem _ h.2]
  exact ⟨Nat.le_succ _, Nat.le_succ _⟩

theorem itemBytes_itemOf (slack : List Byte → Nat → Byte) (r : Record) (h : r.InBounds) :
    itemBytes slack (itemOf r) = encodeRecord r := by
  simp only [itemBytes, itemOf, cread_cstr slack _ h.1, cread_cstr slack _ h.2, encodeRecord]

theorem writeItems_itemOf (slack : List Byte → Nat → Byte) (P : List Record)
    (h : ∀ r ∈ P, r.InBounds) :
    writeItems slack (P.map itemOf) = encodeRecords P := by
  induction P with
  | nil => rfl
  | cons r P ih =>
    simp only [List.map_cons, writeItems, itemBytes_itemOf slack r (h r (List.mem_cons_self _ _)),
      ih (fun x hx => h x (List.mem_cons_of_mem _ hx)), encodeRecords]

theorem createRecord_isSome (ts bs : Nat) (st : CreateState) (r : Record) (hts : ts ≠ 0) :
    ∃ st1, createRecord ts bs st r = some st1 := by
  unfold createRecord createBody
  simp only [hts, if_false]
  split
  · exact ⟨_, rfl⟩
  · exact ⟨_, rfl⟩

theorem createRecords_isSome (ts bs : Nat) (rs : List Record) (st : CreateState)
    (hts : ts ≠ 0 ∨ rs = []) :
    ∃ st1, createRecords ts bs st rs = some st1 := by
  induction rs generalizing st with
  | nil => exact ⟨st, rfl⟩
  | cons r rs ih =>
    have hts0 : ts ≠ 0 := by
      rcases hts with h | h
      · exact h
      · exact absurd h (by simp)
    obtain ⟨st1, h1⟩ := createRecord_isSome ts bs st r hts0
    obtain ⟨st2, h2⟩ := ih st1 (Or.inl hts0)
    exact ⟨st2, by simp only [createRecords, h1, h2]⟩

/-- C9, counterexample: (1) the dump is one record that declares a key length
of 32, and the base directory is missing and cannot be created: `Create`
returns IOError, from `CreateDir`, before it reads the dump.  (2) With
`table_size = 0` and a well-formed record before the offending one, the
iteration on that record computes `Hash(read_key) % 0`, which has no defined
result. -/
theorem Create_mkdir_counterexample :
    oversizeHead (encodeU32 32) = true ∧
    (RyougiDB.Create RyougiDB.new { Disk.empty false with mkdirFails := true }
        (some (encodeU32 32)) 4 4096).map (fun res => (res.1, res.2.2.root)) =
      some (Status.IOError, false) ∧
    (RyougiDB.Create RyougiDB.new (Disk.empty true)
        (some (encodeRecords [{ key := [97], value := [98] }] ++ encodeU32 32)) 0 4096).map
        (fun res => res.1) = none := by
  decide

/-- C9 (amended): the dump is the encoding of records `rs`, each with a key
shorter than 32 bytes and a value shorter than 256 bytes, followed by a record
that declares a key length of 32 or more, or a value length of 256 or more.
When the two directories exist or can be created, and `table_size >= 1` (or
the offending record is the first, so that no bucket id is computed), `Create`
returns NotSupported. -/
theorem Create_oversize_NotSupported (db : RyougiDB) (d : Disk) (rs : List Record)
    (tail : List Byte) (ts bs : Nat) (hts : 1 ≤ ts ∨ rs = [])
    (hdir : d.mkdirFails = false ∨ (d.root = true ∧ d.dataDir = true))
    (hrs : ∀ r ∈ rs, r.InRange) (hbad : oversizeHead tail = true) :
    ∃ d1, RyougiDB.Create db d (some (encodeRecords rs ++ tail)) ts bs =
      some (Status.NotSupported, { db with table_size := ts, buffer_size := bs }, d1) := by
  obtain ⟨f, hf⟩ := length_encodeRecords_append rs tail
  have hc := Create_eq_dirs db d (encodeRecords rs ++ tail) ts bs hdir
  rw [hf, createLoop_encodeRecords ts bs rs tail hrs (f + 1) (createStart d)] at hc
  obtain ⟨st1, h1⟩ := createRecords_isSome ts bs rs (createStart d)
    (hts.imp (fun h => by omega) id)
  rw [hc]
  simp only [h1, createLoop_oversize ts bs f tail st1 hbad]
  exact ⟨_, rfl⟩

/-- C9, witness: after the three records of `dupRecords`, the record
`("e", ...)` declares a value of 256 bytes.  The same holds after the two
records of `nulRecords`, whose key and value hold a zero byte, with one bucket
and a `buffer_size` of 12, where the second record flushes the first. -/
theorem Create_oversize_NotSupported_witness :
    (∃ d1, RyougiDB.Create RyougiDB.new (Disk.empty false)
      (some (encodeRecords dupRecords ++ oversizeValueDump)) 4 4096 =
        some (Status.NotSupported,
          { RyougiDB.new with table_size := 4, buffer_size := 4096 }, d1)) ∧
    (RyougiDB.Create RyougiDB.new (Disk.empty false)
      (some (encodeRecords nulRecords ++ oversizeValueDump)) 1 12).map (fun res => res.1) =
        some Status.NotSupported :=
  ⟨Create_oversize_NotSupported RyougiDB.new (Disk.empty false) dupRecords oversizeValueDump
    4 4096 (Or.inl (by decide)) (Or.inl rfl)
    (by
      intro r hr
      simp only [dupRecords, List.mem_cons, List.mem_singleton, List.not_mem_nil, or_false] at hr
      rcases hr with rfl | rfl | rfl <;> exact ⟨by decide, by decide⟩)
    (by decide), by decide⟩

/-! ## Create: batches that never overflow -/

theorem bucketLoad_cons (ts : Nat) (r : Record) (rs : List Record) (n : Nat) :
    bucketLoad ts (r :: rs) n =
      (if createFileId ts r.key = n then recordSize r else 0) + bucketLoad ts rs n := by
  unfold bucketLoad
  by_cases h : createFileId ts r.key = n
  · simp [List.filter_cons, h]
  · simp [List.filter_cons, h]

theorem bucketLoad_le_total (ts : Nat) (rs : List Record) (n : Nat) :
    bucketLoad ts rs n ≤ (rs.map recordSize).sum := by
  induction rs with
  | nil => simp [bucketLoad]
  | cons r rs ih =>
    rw [bucketLoad_cons, List.map_cons, List.sum_cons]
    split <;> omega

theorem encodeRecords_append (a b : List Record) :
    encodeRecords (a ++ b) = encodeRecords a ++ encodeRecords b := by
  induction a with
  | nil => rfl
  | cons r a ih => simp [encodeRecords, ih]

theorem Write_ok (d : Disk) (n : Nat) (P : List Record) (hdir : d.dataDir = true)
    (ha : d.appendFails n = false) (hw : d.writeFails n = false) (hnf : ∀ r ∈ P, r.InBounds) :
    RyougiDB.Write d n (P.map itemOf) =
      (Status.OK, d.setData n ((d.data n).getD [] ++ encodeRecords P)) := by
  unfold RyougiDB.Write
  simp only [hdir, ha, Bool.not_true, Bool.or_self, Bool.false_eq_true, if_false]
  cases P with
  | nil => simp [encodeRecords]
  | cons r P =>
    have hwi := writeItems_itemOf d.slack (r :: P) hnf
    simp only [List.map_cons] at hwi ⊢
    simp only [hw, Bool.false_eq_true, if_false, hwi]

theorem CreateState.Stores.flush {st : CreateState} {b : Buckets} (h : st.Stores b) (n : Nat) :
    ∃ d1, RyougiDB.Write st.disk n (st.table n) = (Status.OK, d1) ∧
      CreateState.Stores
        { status := Status.OK
          space := fun m => if m = n then 0 else st.space m
          table := fun m => if m = n then [] else st.table m
          disk := d1 } (b.flushed n) := by
  obtain ⟨_, hdir, ha, hw, hdata, htab, hsp, hnf⟩ := h
  refine ⟨st.disk.setData n ((st.disk.data n).getD [] ++ encodeRecords (b.pending n)),
    ?_, rfl, ?_, ?_, ?_, ?_, ?_, ?_, ?_⟩
  · rw [htab n]
    exact Write_ok st.disk n (b.pending n) hdir (ha n) (hw n) (hnf n)
  · exact hdir
  · exact ha
  · exact hw
  · intro m
    simp only [Disk.setData, Buckets.flushed]
    by_cases hm : m = n
    · subst hm
      simp only [if_true, Option.map_some', encodeRecords_append, hdata m]
      cases b.written m <;> simp [encodeRecords]
    · simp only [hm, if_false, hdata m]
  · intro m
    simp only [Buckets.flushed]
    by_cases hm : m = n
    · simp only [hm, if_true, List.map_nil]
    · simp only [hm, if_false, htab m]
  · intro m
    simp only [Buckets.flushed]
    by_cases hm : m = n
    · simp only [hm, if_true]
    · simp only [hm, if_false, hsp m]
  · intro m r hr
    simp only [Buckets.flushed] at hr
    by_cases hm : m = n
    · simp only [hm, if_true, List.not_mem_nil] at hr
    · simp only [hm, if_false] at hr
      exact hnf m r hr

theorem createRecord_stores (ts bs : Nat) {st : CreateState} {b : Buckets} (r : Record)
    (hts : ts ≠ 0) (h : st.Stores b) (hr : r.InBounds) :
    ∃ st1, createRecord ts bs st r = some st1 ∧ st1.Stores (b.add ts bs r) := by
  unfold createRecord createBody Buckets.add
  simp only [hts, if_false]
  have hsp := h.2.2.2.2.2.2.1
  have e : 4 + 4 + r.key.length + r.value.length = recordSize r := rfl
  rw [e, hsp (createFileId ts r.key)]
  by_cases hfit : (b.space (createFileId ts r.key) + recordSize r) % u32 ≤ bs
  · simp only [hfit, if_true]
    obtain ⟨hst, hdir, ha, hw, hdata, htab, _, hnf⟩ := h
    refine ⟨_, rfl, hst, hdir, ha, hw, hdata, ?_, ?_, ?_⟩
    · intro m
      by_cases hm : m = createFileId ts r.key
      · simp only [hm, if_true, htab, List.map_append, List.map_cons, List.map_nil, itemOf]
      · simp only [hm, if_false, htab]
    · intro m
      by_cases hm : m = createFileId ts r.key
      · simp only [hm, if_true]
      · simp only [hm, if_false, hsp]
    · intro m x hx
      by_cases hm : m = createFileId ts r.key
      · simp only [hm, if_true, List.mem_append, List.mem_singleton] at hx
        rcases hx with h1 | h1
        · exact hnf _ x h1
        · exact h1 ▸ hr
      · simp only [hm, if_false] at hx
        exact hnf m x hx
  · simp only [hfit, if_false]
    obtain ⟨d1, hwr, hst1⟩ := h.flush (createFileId ts r.key)
    rw [hwr]
    exact ⟨_, rfl, hst1⟩

theorem createRecords_stores (ts bs : Nat) (rs : List Record) {st : CreateState} {b : Buckets}
    (hts : ts ≠ 0) (h : st.Stores b) (hrs : ∀ r ∈ rs, r.InBounds) :
    ∃ st1, createRecords ts bs st rs = some st1 ∧
      st1.Stores (rs.foldl (Buckets.add ts bs) b) := by
  induction rs generalizing st b with
  | nil => exact ⟨st, rfl, h⟩
  | cons r rs ih =>
    obtain ⟨st1, h1, hs1⟩ := createRecord_stores ts bs r hts h (hrs r (List.mem_cons_self _ _))
    obtain ⟨st2, h2, hs2⟩ := ih hs1 (fun x hx => hrs x (List.mem_cons_of_mem _ hx))
    exact ⟨st2, by simp only [createRecords, h1, h2], by simpa only [List.foldl_cons] using hs2⟩

theorem flushAll_stores (ids : List Nat) {st : CreateState} {b : Buckets} (h : st.Stores b) :
    ∃ d1, flushAll ids st = (Status.OK, d1) ∧
      ∀ n, d1.data n = ((ids.foldl Buckets.finish b).written n).map encodeRecords := by
  induction ids generalizing st b with
  | nil => exact ⟨st.disk, by simp only [flushAll, h.1], h.2.2.2.2.1⟩
  | cons id ids ih =>
    have htab := h.2.2.2.2.2.1
    by_cases hp : (b.pending id).length > 0
    · obtain ⟨d1, hwr, hst1⟩ := h.flush id
      obtain ⟨d2, h2, hd2⟩ := ih hst1
      refine ⟨d2, ?_, ?_⟩
      · have hp' : (st.table id).length > 0 := by rw [htab id]; simpa using hp
        simp only [flushAll, hp', if_true, hwr, Status.IsOK, Bool.not_true, Bool.false_eq_true,
          if_false]
        exact h2
      · simpa only [List.foldl_cons, Buckets.finish, hp, if_true] using hd2
    · obtain ⟨d2, h2, hd2⟩ := ih h
      refine ⟨d2, ?_, ?_⟩
      · have hp' : ¬ (st.table id).length > 0 := by rw [htab id]; simpa using hp
        simp only [flushAll, hp', if_false]
        exact h2
      · simpa only [List.foldl_cons, Buckets.finish, hp, if_false] using hd2

/-! ## Create: what it leaves untouched on the disk -/

theorem Write_frame (d : Disk) (n : Nat) (data : List RyougiDataItem) :
    (RyougiDB.Write d n data).2 = { d with data := (RyougiDB.Write d n data).2.data } := by
  unfold RyougiDB.Write
  split
  · rfl
  · split
    · rfl
    · split
      · rfl
      · rfl

theorem createRecord_frame {ts bs : Nat} {st st1 : CreateState} {r : Record}
    (h : createRecord ts bs st r = some st1) : st1.disk = { st.disk with data := st1.disk.data } := by
  unfold createRecord createBody at h
  by_cases hts : ts = 0
  · simp [hts] at h
  · simp only [hts, if_false] at h
    by_cases hfit : (st.space (createFileId ts r.key) + (4 + 4 + r.key.length + r.value.length))
        % u32 ≤ bs
    · simp only [hfit, if_true, Option.some.injEq] at h
      rw [← h]
    · simp only [hfit, if_false, Option.some.injEq] at h
      rw [← h]
      exact Write_frame _ _ _

theorem createRecords_frame {ts bs : Nat} (rs : List Record) {st st1 : CreateState}
    (h : createRecords ts bs st rs = some st1) :
    st1.disk = { st.disk with data := st1.disk.data } := by
  induction rs generalizing st with
  | nil =>
    simp only [createRecords, Option.some.injEq] at h
    rw [← h]
  | cons r rs ih =>
    simp only [createRecords] at h
    cases h1 : createRecord ts bs st r with
    | none => simp [h1] at h
    | some st0 =>
      rw [h1] at h
      have e0 := createRecord_frame h1
      have e1 := ih h
      rw [e1, e0]

theorem flushAll_frame (ids : List Nat) (st : CreateState) :
    (flushAll ids st).2 = { st.disk with data := (flushAll ids st).2.data } := by
  induction ids generalizing st with
  | nil => rfl
  | cons id ids ih =>
    simp only [flushAll]
    split
    · split
      · exact Write_frame _ _ _
      · have e1 := ih
          { status := (RyougiDB.Write st.disk id (st.table id)).1
            space := fun n => if n = id then 0 else st.space n
            table := fun n => if n = id then [] else st.table n
            disk := (RyougiDB.Write st.disk id (st.table id)).2 }
        have e0 := Write_frame st.disk id (st.table id)
        simp only at e1
        rw [e1, e0]
    · exact ih st

theorem createStart_stores (root : Bool) (slack : List Byte → Nat → Byte) :
    (createStart (Disk.emptyWith root slack)).Stores Buckets.start := by
  refine ⟨rfl, rfl, fun _ => rfl, fun _ => rfl, fun _ => rfl, fun _ => rfl, fun _ => rfl, ?_⟩
  intro n r hr
  simp [Buckets.start] at hr

/-- `Create` on an empty base directory, from a dump of records within the
size limits and with no zero byte before the last byte of a key or value,
returns OK and leaves exactly the bucket files that `Buckets.build` describes. -/
theorem Create_build (db : RyougiDB) (root : Bool) (slack : List Byte → Nat → Byte)
    (rs : List Record) (ts bs : Nat)
    (hts : 1 ≤ ts) (hrs : ∀ r ∈ rs, r.InRange) (hnf : ∀ r ∈ rs, r.InBounds) :
    ∃ d1, RyougiDB.Create db (Disk.emptyWith root slack) (some (encodeRecords rs)) ts bs =
        some (Status.OK, { db with table_size := ts, buffer_size := bs }, d1) ∧
      (∀ n, d1.data n = ((Buckets.build ts bs rs).written n).map encodeRecords) ∧
      d1 = { Disk.emptyWith root slack with root := true, dataDir := true, data := d1.data } := by
  obtain ⟨f, hf⟩ := length_encodeRecords_append rs []
  obtain ⟨st1, h1, hs1⟩ := createRecords_stores ts bs rs (by omega : ts ≠ 0)
    (createStart_stores root slack) hnf
  obtain ⟨d1, h2, hd1⟩ := flushAll_stores (List.range ts) hs1
  have hframe : d1 =
      { Disk.emptyWith root slack with root := true, dataDir := true, data := d1.data } := by
    have e1 := createRecords_frame rs h1
    have e2 := flushAll_frame (List.range ts) st1
    rw [h2] at e2
    simp only at e2
    rw [e2, e1]
    rfl
  refine ⟨d1, ?_, hd1, hframe⟩
  have hc := Create_eq db (Disk.emptyWith root slack) (encodeRecords rs ++ []) ts bs rfl
  rw [hf, createLoop_encodeRecords ts bs rs [] hrs (f + 1)
    (createStart (Disk.emptyWith root slack)), h1] at hc
  simp only [createLoop_nil, h2, List.append_nil] at hc
  exact hc

/-! ## Create: which records reach which file -/

theorem Buckets.Tracks.add {ts : Nat} {b : Buckets} {done : List Record}
    (h : b.Tracks ts done) (bs : Nat) (r : Record) :
    (b.add ts bs r).Tracks ts (done ++ [r]) := by
  obtain ⟨ha, hb⟩ := h
  unfold Buckets.add
  split
  · constructor
    · intro n x hx
      simp only [List.mem_append] at hx
      by_cases hn : n = createFileId ts r.key
      · simp only [hn, if_true, List.mem_append, List.mem_singleton] at hx
        rcases hx with h1 | h1 | h1
        · exact List.mem_append_left _ (ha _ x (List.mem_append_left _ h1))
        · exact List.mem_append_left _ (ha _ x (List.mem_append_right _ h1))
        · exact List.mem_append_right _ (List.mem_singleton.mpr h1)
      · simp only [hn, if_false] at hx
        exact List.mem_append_left _ (ha n x (List.mem_append.mpr hx))
    · intro n
      by_cases hn : n = createFileId ts r.key
      · subst hn
        simp only [if_true]
        constructor
        · intro _
          exact Or.inr (by simp)
        · intro _
          exact ⟨r, by simp, rfl⟩
      · simp only [hn, if_false]
        rw [← hb n]
        constructor
        · rintro ⟨x, hx, hxn⟩
          rcases List.mem_append.mp hx with h1 | h1
          · exact ⟨x, h1, hxn⟩
          · rw [List.mem_singleton] at h1
            subst h1
            exact absurd hxn.symm hn
        · rintro ⟨x, hx, hxn⟩
          exact ⟨x, List.mem_append_left _ hx, hxn⟩
  · constructor
    · intro n x hx
      simp only [Buckets.flushed] at hx
      by_cases hn : n = createFileId ts r.key
      · simp only [hn, if_true, Option.getD_some, List.append_nil] at hx
        exact List.mem_append_left _ (ha _ x hx)
      · simp only [hn, if_false] at hx
        exact List.mem_append_left _ (ha n x hx)
    · intro n
      simp only [Buckets.flushed]
      by_cases hn : n = createFileId ts r.key
      · subst hn
        simp only [if_true]
        constructor
        · intro _
          exact Or.inl (by simp)
        · intro _
          exact ⟨r, by simp, rfl⟩
      · simp only [hn, if_false]
        rw [← hb n]
        constructor
        · rintro ⟨x, hx, hxn⟩
          rcases List.mem_append.mp hx with h1 | h1
          · exact ⟨x, h1, hxn⟩
          · rw [List.mem_singleton] at h1
            subst h1
            exact absurd hxn.symm hn
        · rintro ⟨x, hx, hxn⟩
          exact ⟨x, List.mem_append_left _ hx, hxn⟩

theorem Buckets.Tracks.foldl_add {ts : Nat} (bs : Nat) (rs : List Record) {b : Buckets}
    {done : List Record} (h : b.Tracks ts done) :
    (rs.foldl (Buckets.add ts bs) b).Tracks ts (done ++ rs) := by
  induction rs generalizing b done with
  | nil => simpa using h
  | cons r rs ih =>
    have := ih (h.add bs r)
    simpa only [List.foldl_cons, List.append_assoc, List.singleton_append] using this

theorem Buckets.Tracks.finish {ts : Nat} {b : Buckets} {done : List Record}
    (h : b.Tracks ts done) (n : Nat) : (b.finish n).Tracks ts done := by
  unfold Buckets.finish
  split
  · rename_i hp
    obtain ⟨ha, hb⟩ := h
    have hne : b.pending n ≠ [] := by
      intro e
      rw [e] at hp
      simp at hp
    constructor
    · intro m x hx
      simp only [Buckets.flushed] at hx
      by_cases hm : m = n
      · simp only [hm, if_true, Option.getD_some, List.append_nil] at hx
        exact ha _ x hx
      · simp only [hm, if_false] at hx
        exact ha m x hx
    · intro m
      simp only [Buckets.flushed]
      by_cases hm : m = n
      · subst hm
        simp only [if_true]
        constructor
        · intro _
          exact Or.inl (by simp)
        · intro _
          exact (hb m).mpr (Or.inr hne)
      · simp only [hm, if_false]
        exact hb m
  · exact h

theorem Buckets.Tracks.foldl_finish {ts : Nat} (ids : List Nat) {b : Buckets}
    {done : List Record} (h : b.Tracks ts done) :
    (ids.foldl Buckets.finish b).Tracks ts done := by
  induction ids generalizing b with
  | nil => exact h
  | cons id ids ih => exact ih (h.finish id)

theorem Buckets.finish_pending (b : Buckets) (m n : Nat) (h : m = n ∨ b.pending n = []) :
    (b.finish m).pending n = [] := by
  unfold Buckets.finish
  split
  · rename_i hp
    simp only [Buckets.flushed]
    by_cases hn : n = m
    · simp only [hn, if_true]
    · simp only [hn, if_false]
      rcases h with h | h
      · exact absurd h.symm hn
      · exact h
  · rename_i hp
    rcases h with h | h
    · subst h
      exact List.length_eq_zero.mp (by omega)
    · exact h

theorem Buckets.foldl_finish_pending (ids : List Nat) (b : Buckets) (n : Nat)
    (h : n ∈ ids ∨ b.pending n = []) : (ids.foldl Buckets.finish b).pending n = [] := by
  induction ids generalizing b with
  | nil =>
    rcases h with h | h
    · exact absurd h (by simp)
    · exact h
  | cons id ids ih =>
    simp only [List.foldl_cons]
    apply ih
    rcases h with h | h
    · rcases List.mem_cons.mp h with h1 | h1
      · exact Or.inr (Buckets.finish_pending b id n (Or.inl h1.symm))
      · exact Or.inl h1
    · exact Or.inr (Buckets.finish_pending b id n (Or.inr h))

theorem Buckets.start_tracks (ts : Nat) : Buckets.start.Tracks ts [] := by
  constructor
  · intro n r hr
    simp [Buckets.start] at hr
  · intro n
    simp [Buckets.start]

theorem Buckets.build_tracks (ts bs : Nat) (rs : List Record) :
    (Buckets.build ts bs rs).Tracks ts rs := by
  have h := (Buckets.start_tracks ts).foldl_add bs rs
  simp only [List.nil_append] at h
  exact h.foldl_finish (List.range ts)

theorem Buckets.build_written_mem (ts bs : Nat) (rs : List Record) (n : Nat) (L : List Record)
    (h : (Buckets.build ts bs rs).written n = some L) : ∀ r ∈ L, r ∈ rs := by
  intro r hr
  apply (Buckets.build_tracks ts bs rs).1 n r
  rw [h]
  exact List.mem_append_left _ hr

theorem Buckets.build_written_none_iff (ts bs : Nat) (rs : List Record) (n : Nat)
    (hts : 1 ≤ ts) :
    (Buckets.build ts bs rs).written n = none ↔ ∀ r ∈ rs, createFileId ts r.key ≠ n := by
  have ht := Buckets.build_tracks ts bs rs
  have hp : (Buckets.build ts bs rs).pending n = [] := by
    by_cases hn : n < ts
    · exact Buckets.foldl_finish_pending _ _ n (Or.inl (List.mem_range.mpr hn))
    · by_contra hne
      obtain ⟨r, _, hr⟩ := (ht.2 n).mpr (Or.inr hne)
      have : createFileId ts r.key < ts := Nat.mod_lt _ (by omega)
      omega
  constructor
  · intro hw r hr e
    rcases (ht.2 n).mp ⟨r, hr, e⟩ with h1 | h1
    · exact h1 hw
    · exact h1 hp
  · intro hall
    by_contra hne
    obtain ⟨r, hr, e⟩ := (ht.2 n).mpr (Or.inl hne)
    exact hall r hr e

/-- C3, counterexample: (1) the dump holds the one record `("a", "b")` and
`table_size` is 2; the key `"b"` is not in the dump and its bucket 0 has no
file, so `Get("b")` returns IOError where the claim says NotFound.  (2) The
dump holds the one record `("a\0", "b")`; the key `"a"` is not the key of any
record of the dump, yet `Get("a")` returns OK with `"b"`.  (3) The dump holds
the one record `("k", "1")`; after the call `Get(s, s)` with `s = "k"`, which
returns OK and caches `"1"` under the key `"1"`, the call `Get("1")` returns OK
with `"1"`, and `"1"` is not the key of any record of the dump. -/
theorem Get_absent_key_counterexample :
    ((RyougiDB.Create RyougiDB.new (Disk.empty true) (some oneRecordDump) 2 4096).bind
        (fun res => (res.2.1.Get res.2.2 [98] [] false).map (fun g => (res.1, g.1, g.2.1)))) =
      some (Status.OK, Status.IOError, []) ∧
    ((RyougiDB.Create RyougiDB.new (Disk.empty true) (some trailingNulDump) 2 4096).bind
        (fun res => (res.2.1.Get res.2.2 [97] [] false).map (fun g => (res.1, g.1, g.2.1)))) =
      some (Status.OK, Status.OK, [98]) ∧
    ((RyougiDB.Create RyougiDB.new (Disk.empty true)
        (some (encodeRecords [{ key := [107], value := [49] }])) 1 4096).bind
        (fun res => (res.2.1.Get res.2.2 [107] [] true).bind
          (fun g => (g.2.2.Get res.2.2 [49] [] false).map
            (fun g2 => (res.1, g.1, g.2.1, g2.1, g2.2.1))))) =
      some (Status.OK, Status.OK, [49], Status.OK, [49]) := by
  decide

/-- C3 (amended): a handle with an empty cache (capacity `m >= 1`) runs
`Create` with `table_size >= 1` on an empty base directory, all file
operations succeeding, from a dump of records with keys shorter than 32 bytes,
values shorter than 256 bytes and no zero byte in any key or value.  Then
`Create` returns OK and, after any sequence of `Get` calls, each made with an
output string that is not the string passed as the key, `Get(key)` of a key
that is not the key of any record of the dump (with any output string, the key
string included) returns NotFound when some record of the dump hashed into the
key's bucket, and IOError (the bucket file does not exist) when none did; the
output string is left as it was. -/
theorem Get_absent_key (db : RyougiDB) (root : Bool) (slack : List Byte → Nat → Byte)
    (rs : List Record) (ts bs m : Nat)
    (keys : List (List Byte × List Byte)) (key value : List Byte) (same : Bool)
    (hcache : db.cache = LRUCache.init m) (hm : 1 ≤ m) (hts : 1 ≤ ts)
    (hrs : ∀ r ∈ rs, r.InRange) (hnf : ∀ r ∈ rs, r.NulFree) (hkey : ∀ r ∈ rs, r.key ≠ key) :
    ∃ db1 d1 db2 db3,
      RyougiDB.Create db (Disk.emptyWith root slack) (some (encodeRecords rs)) ts bs =
        some (Status.OK, db1, d1) ∧
      db1.getAll d1 keys = some db2 ∧
      db2.Get d1 key value same =
        some (if rs.any (fun r => decide (createFileId ts r.key = getFileId ts key))
          then Status.NotFound else Status.IOError, if same then key else value, db3) := by
  obtain ⟨d1, hc, hd1, _⟩ := Create_build db root slack rs ts bs hts hrs
    (fun r hr => (hnf r hr).inBounds)
  obtain ⟨db2, hg, hco2, hts2, _⟩ := RyougiDB.getAll_coherent
    (RyougiDB.coherent_of_empty_cache { db with table_size := ts, buffer_size := bs } d1 m
      hcache hm hts) keys
  obtain ⟨st, v, db3, hg3, hr3, _⟩ := RyougiDB.Get_coherent hco2 key value same
  have hts2' : db2.table_size = ts := hts2
  rw [hts2'] at hr3
  refine ⟨_, d1, db2, db3, hc, hg, ?_⟩
  rw [hg3]
  generalize (if same = true then key else value) = value0 at hr3 ⊢
  simp only [RyougiDB.Retrieve, hd1] at hr3
  cases hw : (Buckets.build ts bs rs).written (getFileId ts key) with
  | none =>
    have hnone := (Buckets.build_written_none_iff ts bs rs _ hts).mp hw
    have hany : rs.any (fun r => decide (createFileId ts r.key = getFileId ts key)) = false := by
      rw [List.any_eq_false]
      intro r hr
      simpa using hnone r hr
    simp only [hw, Option.map_none', Option.some.injEq, Prod.mk.injEq] at hr3
    simp only [hany, Bool.false_eq_true, if_false, ← hr3.1, ← hr3.2]
  | some L =>
    have hsome : ¬ ∀ r ∈ rs, createFileId ts r.key ≠ getFileId ts key := by
      rw [← Buckets.build_written_none_iff ts bs rs _ hts, hw]
      simp
    have hany : rs.any (fun r => decide (createFileId ts r.key = getFileId ts key)) = true := by
      rw [List.any_eq_true]
      push_neg at hsome
      obtain ⟨r, hr, e⟩ := hsome
      exact ⟨r, hr, by simpa using e⟩
    have hL := Buckets.build_written_mem ts bs rs _ L hw
    have hfind : L.find? (fun r => decide (cstr r.key = key)) = none := by
      rw [List.find?_eq_none]
      intro r hr
      rw [cstr_of_not_mem _ (hnf r (hL r hr)).1]
      simpa using hkey r (hL r hr)
    have hloop := retrieveLoop_encodeRecords key value0 L (fun r hr => hrs r (hL r hr))
      ((encodeRecords L).length + 1) (Nat.lt_succ_of_le (length_encodeRecords_ge L))
    simp only [hw, Option.map_some', hloop, hfind, Option.some.injEq, Prod.mk.injEq] at hr3
    simp only [hany, if_true, ← hr3.1, ← hr3.2]

/-- C3, witness: the dump of the one record `("a", "b")`, four buckets; the key
`"e"` shares the bucket of `"a"`. -/
theorem Get_absent_key_witness :
    ∃ db1 d1 db2 db3,
      RyougiDB.Create RyougiDB.new (Disk.empty true) (some oneRecordDump) 4 4096 =
        some (Status.OK, db1, d1) ∧
      db1.getAll d1 [([97], [])] = some db2 ∧
      db2.Get d1 [101] [] false = some (Status.NotFound, [], db3) :=
  Get_absent_key RyougiDB.new true (fun _ _ => 0) [{ key := [97], value := [98] }] 4 4096
    kDefaultCacheSize [([97], [])] [101] [] false rfl (by simp [kDefaultCacheSize]) (by decide)
    (by
      intro r hr
      rw [List.mem_singleton] at hr
      subst hr
      exact ⟨by decide, by decide⟩)
    (by
      intro r hr
      rw [List.mem_singleton] at hr
      subst hr
      exact ⟨by decide, by decide⟩)
    (by
      intro r hr
      rw [List.mem_singleton] at hr
      subst hr
      decide)

/-! ## Create: the record that overflows a batch -/

/-- The record that overflows a batch is lost: `Create` with `table_size = 1` and
`buffer_size = 10` on the dump of `("a", "b")` and `("c", "d")` returns OK, but
the second record overflows the batch of bucket 0 and is not kept: the bucket
file holds the first record only, `Get("c")` returns NotFound in the same
session and again after `Persist` and `Open` on a new handle, while `Get("a")`
returns OK with `"b"`. -/
theorem Create_drops_record :
    (RyougiDB.Create RyougiDB.new (Disk.empty true) (some twoRecordDump) 1 10).map
        (fun res => (res.1, res.2.2.data 0)) =
      some (Status.OK, some (encodeRecord { key := [97], value := [98] })) ∧
    (RyougiDB.Create RyougiDB.new (Disk.empty true) (some twoRecordDump) 1 10).bind
        (fun res => (res.2.1.Get res.2.2 [99] [] false).map (fun g => (g.1, g.2.1))) =
      some (Status.NotFound, []) ∧
    (RyougiDB.Create RyougiDB.new (Disk.empty true) (some twoRecordDump) 1 10).bind
        (fun res => (res.2.1.Get res.2.2 [97] [] false).map (fun g => (g.1, g.2.1))) =
      some (Status.OK, [98]) ∧
    (RyougiDB.Create RyougiDB.new (Disk.empty true) (some twoRecordDump) 1 10).bind
        (fun res =>
          ((RyougiDB.new.Open (res.2.1.Persist res.2.2).2).2.Get
              (res.2.1.Persist res.2.2).2 [99] [] false).map
            (fun g => ((res.2.1.Persist res.2.2).1,
              (RyougiDB.new.Open (res.2.1.Persist res.2.2).2).1, g.1, g.2.1))) =
      some (Status.OK, Status.OK, Status.NotFound, []) := by
  decide

/-! ## Create: batches that never overflow keep every record -/

theorem Buckets.foldl_add_fits (ts bs : Nat) (rs : List Record) (b : Buckets)
    (hload : ∀ n, b.space n + bucketLoad ts rs n ≤ bs) :
    (rs.foldl (Buckets.add ts bs) b).written = b.written ∧
      ∀ n, (rs.foldl (Buckets.add ts bs) b).pending n =
        b.pending n ++ rs.filter (fun r => decide (createFileId ts r.key = n)) := by
  induction rs generalizing b with
  | nil => exact ⟨rfl, fun n => by simp⟩
  | cons r rs ih =>
    have hfit : (b.space (createFileId ts r.key) + recordSize r) % u32 ≤ bs := by
      have h1 := hload (createFileId ts r.key)
      rw [bucketLoad_cons] at h1
      simp only [if_true] at h1
      exact le_trans (Nat.mod_le _ _) (by omega)
    have hadd : Buckets.add ts bs b r =
        { b with
          pending := fun m =>
            if m = createFileId ts r.key then b.pending (createFileId ts r.key) ++ [r]
            else b.pending m
          space := fun m =>
            if m = createFileId ts r.key then
              (b.space (createFileId ts r.key) + recordSize r) % u32
            else b.space m } := by
      simp only [Buckets.add, hfit, if_true]
    obtain ⟨hw, hp⟩ := ih (Buckets.add ts bs b r) (by
      intro n
      have h1 := hload n
      rw [bucketLoad_cons] at h1
      rw [hadd]
      by_cases hn : n = createFileId ts r.key
      · subst hn
        simp only [if_true] at h1 ⊢
        have := Nat.mod_le (b.space (createFileId ts r.key) + recordSize r) u32
        omega
      · have hn' : ¬ createFileId ts r.key = n := fun e => hn e.symm
        simp only [hn, hn', if_false] at h1 ⊢
        omega)
    refine ⟨?_, fun n => ?_⟩
    · rw [List.foldl_cons, hw, hadd]
    · rw [List.foldl_cons, hp n, hadd]
      by_cases hn : n = createFileId ts r.key
      · subst hn
        simp [List.filter_cons]
      · have hn' : ¬ createFileId ts r.key = n := fun e => hn e.symm
        simp [List.filter_cons, hn, hn']

theorem Buckets.foldl_finish_written (ids : List Nat) (b : Buckets) (n : Nat) :
    (ids.foldl Buckets.finish b).written n =
      if n ∈ ids ∧ b.pending n ≠ [] then some ((b.written n).getD [] ++ b.pending n)
      else b.written n := by
  induction ids generalizing b with
  | nil => simp
  | cons id ids ih =>
    rw [List.foldl_cons, ih]
    by_cases hid : id = n
    · subst hid
      by_cases hp : b.pending id = []
      · have hf : b.finish id = b := by
          simp [Buckets.finish, hp]
        rw [hf]
        simp [hp]
      · have hlen : (b.pending id).length > 0 := List.length_pos.mpr hp
        have hf : b.finish id = b.flushed id := by
          simp only [Buckets.finish, hlen, if_true]
        rw [hf]
        simp [Buckets.flushed, hp]
    · have hne : ¬ n = id := fun e => hid e.symm
      have h1 : (b.finish id).pending n = b.pending n := by
        unfold Buckets.finish
        split
        · simp only [Buckets.flushed, hne, if_false]
        · rfl
      have h2 : (b.finish id).written n = b.written n := by
        unfold Buckets.finish
        split
        · simp only [Buckets.flushed, hne, if_false]
        · rfl
      rw [h1, h2]
      simp [hne]

/-- When no batch overflows, the file of bucket `n` holds, in dump order,
exactly the records that hash to `n`, and no file exists for a bucket without
records. -/
theorem Buckets.build_written_fits (ts bs : Nat) (rs : List Record) (n : Nat)
    (hload : ∀ m, bucketLoad ts rs m ≤ bs) :
    (Buckets.build ts bs rs).written n =
      if n < ts ∧ rs.filter (fun r => decide (createFileId ts r.key = n)) ≠ [] then
        some (rs.filter (fun r => decide (createFileId ts r.key = n)))
      else none := by
  obtain ⟨hw, hp⟩ := Buckets.foldl_add_fits ts bs rs Buckets.start
    (by intro m; simpa [Buckets.start] using hload m)
  unfold Buckets.build
  rw [Buckets.foldl_finish_written, hp n, hw]
  simp [Buckets.start, List.mem_range]


/-! ## Create, then Get -/

theorem find?_key_of_nodup (L : List Record) (hnd : (L.map (fun r => r.key)).Nodup)
    (r : Record) (hr : r ∈ L) : L.find? (fun x => decide (x.key = r.key)) = some r := by
  induction L with
  | nil => exact absurd hr (by simp)
  | cons x L ih =>
    simp only [List.map_cons, List.nodup_cons] at hnd
    rcases List.mem_cons.mp hr with h1 | h1
    · subst h1
      simp [List.find?]
    · have hne : x.key ≠ r.key := by
        intro e
        exact hnd.1 (e ▸ List.mem_map_of_mem (fun r => r.key) h1)
      simp only [List.find?, hne, decide_False]
      exact ih hnd.2 h1

theorem Retrieve_congr {d d1 : Disk} (h : ∀ n, d1.data n = d.data n) (key : List Byte)
    (n : Nat) (value : List Byte) :
    RyougiDB.Retrieve d1 key n value = RyougiDB.Retrieve d key n value := by
  simp only [RyougiDB.Retrieve, h n]

theorem Retrieve_record (d : Disk) (rs : List Record) (ts bs : Nat)
    (hd : ∀ n, d.data n = ((Buckets.build ts bs rs).written n).map encodeRecords)
    (hts : 1 ≤ ts) (hrs : ∀ r ∈ rs, r.InRange) (hnf : ∀ r ∈ rs, r.NulFree)
    (hdistinct : (rs.map (fun r => r.key)).Nodup) (hload : ∀ n, bucketLoad ts rs n ≤ bs)
    (r : Record) (hr : r ∈ rs) (value : List Byte) :
    RyougiDB.Retrieve d r.key (getFileId ts r.key) value = some (Status.OK, r.value) := by
  have hid : getFileId ts r.key = createFileId ts r.key := by
    rw [getFileId, createFileId, cstr_of_not_mem _ (hnf r hr).1]
  have hlt : createFileId ts r.key < ts := Nat.mod_lt _ (by omega)
  have hmem : r ∈ rs.filter (fun x => decide (createFileId ts x.key = createFileId ts r.key)) := by
    simp [List.mem_filter, hr]
  have hw := Buckets.build_written_fits ts bs rs (createFileId ts r.key) hload
  rw [if_pos ⟨hlt, List.ne_nil_of_mem hmem⟩] at hw
  have hfile : d.data (getFileId ts r.key) = some (encodeRecords
      (rs.filter (fun x => decide (createFileId ts x.key = createFileId ts r.key)))) := by
    rw [hid, hd, hw]
    rfl
  have hsub : ∀ x ∈ rs.filter (fun x => decide (createFileId ts x.key = createFileId ts r.key)),
      x ∈ rs := fun x hx => (List.mem_filter.mp hx).1
  have h := Retrieve_encodeRecords_nulFree d (getFileId ts r.key) _ r.key value hfile
    (fun x hx => hrs x (hsub x hx)) (fun x hx => hnf x (hsub x hx))
  rw [h, find?_key_of_nodup _ (hdistinct.sublist ((List.filter_sublist _).map _)) r hmem]

/-- C1, counterexample: (1) the dump holds the one record `("k", "v\0")`;
`Create` returns OK, and `Get("k")` returns OK with `"v"`, not with the value
`"v\0"` of the record.  (2) With `table_size = 1` and `buffer_size = 10` on the
dump of `("a", "b")` and `("c", "d")`, `Create` returns OK and `Get("c")`
returns NotFound.  (3) The dump holds `("k", "q")` and `("q", "z")`; `Create`
returns OK; the call `Get(s, s)` with `s = "k"` returns OK with `"q"` and
caches `"q"` under the key `"q"`; then `Get("q")` returns OK with `"q"`, not
with the value `"z"` of the record. -/
theorem Create_Get_counterexample :
    (RyougiDB.Create RyougiDB.new (Disk.empty true) (some nulValueDump) 4 4096).bind
        (fun res => (res.2.1.Get res.2.2 [107] [] false).map
          (fun g => (res.1, g.1, g.2.1))) =
      some (Status.OK, Status.OK, [118]) ∧
    (RyougiDB.Create RyougiDB.new (Disk.empty true) (some twoRecordDump) 1 10).bind
        (fun res => (res.2.1.Get res.2.2 [99] [] false).map
          (fun g => (res.1, g.1, g.2.1))) =
      some (Status.OK, Status.NotFound, []) ∧
    (RyougiDB.Create RyougiDB.new (Disk.empty true)
        (some (encodeRecords [{ key := [107], value := [113] },
          { key := [113], value := [122] }])) 1 4096).bind
        (fun res => (res.2.1.Get res.2.2 [107] [] true).bind
          (fun g => (g.2.2.Get res.2.2 [113] [] false).map
            (fun g2 => (res.1, g.1, g.2.1, g2.1, g2.2.1)))) =
      some (Status.OK, Status.OK, [113], Status.OK, [113]) := by
  decide

/-- C1 (amended): the dump is the encoding of records `rs` with pairwise
distinct keys, every key shorter than 32 bytes, every value shorter than 256
bytes, and no zero byte in any key or value; `table_size >= 1`, and for every
bucket the total serialized size of the records hashing to it is at most
`buffer_size`.  A handle with an empty cache runs `Create` on an empty base
directory.  Then `Create` returns OK; after any sequence of `Get` calls, each
made with an output string that is not the string passed as the key, `Get(key)`
(with any output string, the key string included) returns OK with exactly
`value` for each record `(key, value)` of the dump; and `Persist` followed by
`Open`, by the same handle or by a handle with an empty cache, return OK, after
which, again after any such sequence of `Get` calls, `Get(key)` returns OK with
exactly `value`. -/
theorem Create_Get_roundtrip (db : RyougiDB) (root : Bool) (slack : List Byte → Nat → Byte)
    (rs : List Record) (ts bs m : Nat)
    (hcache : db.cache = LRUCache.init m) (hm : 1 ≤ m)
    (hts : 1 ≤ ts) (hts32 : ts < u32) (hbs32 : bs < u32)
    (hrs : ∀ r ∈ rs, r.InRange) (hnf : ∀ r ∈ rs, r.NulFree)
    (hdistinct : (rs.map (fun r => r.key)).Nodup) (hload : ∀ n, bucketLoad ts rs n ≤ bs) :
    ∃ db1 d1,
      RyougiDB.Create db (Disk.emptyWith root slack) (some (encodeRecords rs)) ts bs =
        some (Status.OK, db1, d1) ∧
      ∀ keys, ∃ db2, db1.getAll d1 keys = some db2 ∧
        (∀ r ∈ rs, ∀ value same, ∃ db3,
          db2.Get d1 r.key value same = some (Status.OK, r.value, db3)) ∧
        ∃ d2 db4, db2.Persist d1 = (Status.OK, d2) ∧ db2.Open d2 = (Status.OK, db4) ∧
          (∀ keys2, ∃ db5, db4.getAll d2 keys2 = some db5 ∧
            ∀ r ∈ rs, ∀ value same, ∃ db6,
              db5.Get d2 r.key value same = some (Status.OK, r.value, db6)) ∧
          ∀ (fresh : RyougiDB) (m2 : Nat), fresh.cache = LRUCache.init m2 → 1 ≤ m2 →
            ∃ db7, fresh.Open d2 = (Status.OK, db7) ∧
              ∀ keys3, ∃ db8, db7.getAll d2 keys3 = some db8 ∧
                ∀ r ∈ rs, ∀ value same, ∃ db9,
                  db8.Get d2 r.key value same = some (Status.OK, r.value, db9) := by
  obtain ⟨d1, hc, hd1, hframe⟩ := Create_build db root slack rs ts bs hts hrs
    (fun r hr => (hnf r hr).inBounds)
  refine ⟨_, d1, hc, fun keys => ?_⟩
  have hco1 : RyougiDB.Coherent { db with table_size := ts, buffer_size := bs } d1 :=
    RyougiDB.coherent_of_empty_cache _ d1 m hcache hm hts
  obtain ⟨db2, hg2, hco2, hts2, hbs2⟩ := RyougiDB.getAll_coherent hco1 keys
  have hts2' : db2.table_size = ts := hts2
  have hbs2' : db2.buffer_size = bs := hbs2
  have key_get : ∀ (x : RyougiDB) (d : Disk), x.Coherent d → x.table_size = ts →
      (∀ n, d.data n = d1.data n) →
      ∀ r ∈ rs, ∀ value same, ∃ y,
        x.Get d r.key value same = some (Status.OK, r.value, y) := by
    intro x d hx hxt hdd r hr value same
    obtain ⟨st, v, y, hg, hret, _⟩ := RyougiDB.Get_coherent hx r.key value same
    rw [hxt, Retrieve_congr hdd,
      Retrieve_record d1 rs ts bs hd1 hts hrs hnf hdistinct hload r hr _] at hret
    simp only [Option.some.injEq, Prod.mk.injEq] at hret
    exact ⟨y, by rw [hg, ← hret.1, ← hret.2]⟩
  refine ⟨db2, hg2, key_get db2 d1 hco2 hts2' (fun _ => rfl), ?_⟩
  have hroot : d1.root = true := by rw [hframe]
  have htd : d1.tableDir = false := by rw [hframe]; rfl
  have hmk : d1.mkdirFails = false := by rw [hframe]; rfl
  have htf : d1.tableFails = false := by rw [hframe]; rfl
  have hpersist : db2.Persist d1 = (Status.OK,
      { d1 with root := true, tableDir := true, table := some (encodeU32 ts ++ encodeU32 bs) }) := by
    simp only [RyougiDB.Persist, ensureDir, hroot, htd, hmk, htf, hts2', hbs2', if_true,
      Bool.false_eq_true, if_false]
  have hopen : db2.Open
      { d1 with root := true, tableDir := true, table := some (encodeU32 ts ++ encodeU32 bs) } =
      (Status.OK, { db2 with table_size := ts, buffer_size := bs }) := by
    have e2 : readU32 (encodeU32 bs) = some (bs, []) := by
      have := readU32_encodeU32 bs [] hbs32
      simpa using this
    simp only [RyougiDB.Open, readU32_encodeU32 ts _ hts32, e2]
  refine ⟨_, _, hpersist, hopen, fun keys2 => ?_, fun fresh m2 hfresh hm2 => ?_⟩
  · have hco4 : RyougiDB.Coherent { db2 with table_size := ts, buffer_size := bs }
        { d1 with root := true, tableDir := true,
                  table := some (encodeU32 ts ++ encodeU32 bs) } := by
      obtain ⟨a, b, c, e⟩ := hco2
      refine ⟨a, b, hts, ?_⟩
      intro k w hkw value
      have := e k w hkw value
      rw [hts2'] at this
      rw [← this]
      exact Retrieve_congr (fun _ => rfl) _ _ _
    obtain ⟨db5, hg5, hco5, hts5, _⟩ := RyougiDB.getAll_coherent hco4 keys2
    exact ⟨db5, hg5, key_get db5 _ hco5 hts5 (fun _ => rfl)⟩
  · have hopen2 : fresh.Open
        { d1 with root := true, tableDir := true,
                  table := some (encodeU32 ts ++ encodeU32 bs) } =
        (Status.OK, { fresh with table_size := ts, buffer_size := bs }) := by
      have e2 : readU32 (encodeU32 bs) = some (bs, []) := by
        have := readU32_encodeU32 bs [] hbs32
        simpa using this
      simp only [RyougiDB.Open, readU32_encodeU32 ts _ hts32, e2]
    refine ⟨_, hopen2, fun keys3 => ?_⟩
    have hco7 : RyougiDB.Coherent { fresh with table_size := ts, buffer_size := bs }
        { d1 with root := true, tableDir := true,
                  table := some (encodeU32 ts ++ encodeU32 bs) } :=
      RyougiDB.coherent_of_empty_cache _ _ m2 hfresh hm2 hts
    obtain ⟨db8, hg8, hco8, hts8, _⟩ := RyougiDB.getAll_coherent hco7 keys3
    exact ⟨db8, hg8, key_get db8 _ hco8 hts8 (fun _ => rfl)⟩

/-- C1, witness: the three records `("a","1")`, `("b","2")`, `("e","3")` with
four buckets (`"a"` and `"e"` share bucket 1) and a budget of 4096 bytes. -/
theorem Create_Get_roundtrip_witness :
    ∃ db1 d1,
      RyougiDB.Create RyougiDB.new (Disk.empty false)
        (some (encodeRecords [{ key := [97], value := [49] }, { key := [98], value := [50] },
          { key := [101], value := [51] }])) 4 4096 = some (Status.OK, db1, d1) ∧
      ∀ keys, ∃ db2, db1.getAll d1 keys = some db2 ∧
        (∀ r ∈ [({ key := [97], value := [49] } : Record), { key := [98], value := [50] },
            { key := [101], value := [51] }],
          ∀ value same, ∃ db3,
            db2.Get d1 r.key value same = some (Status.OK, r.value, db3)) ∧
        ∃ d2 db4, db2.Persist d1 = (Status.OK, d2) ∧ db2.Open d2 = (Status.OK, db4) ∧
          (∀ keys2, ∃ db5, db4.getAll d2 keys2 = some db5 ∧
            ∀ r ∈ [({ key := [97], value := [49] } : Record), { key := [98], value := [50] },
                { key := [101], value := [51] }],
              ∀ value same, ∃ db6,
                db5.Get d2 r.key value same = some (Status.OK, r.value, db6)) ∧
          ∀ (fresh : RyougiDB) (m2 : Nat), fresh.cache = LRUCache.init m2 → 1 ≤ m2 →
            ∃ db7, fresh.Open d2 = (Status.OK, db7) ∧
              ∀ keys3, ∃ db8, db7.getAll d2 keys3 = some db8 ∧
                ∀ r ∈ [({ key := [97], value := [49] } : Record),
                    { key := [98], value := [50] }, { key := [101], value := [51] }],
                  ∀ value same, ∃ db9,
                    db8.Get d2 r.key value same = some (Status.OK, r.value, db9) :=
  Create_Get_roundtrip RyougiDB.new false (fun _ _ => 0)
    [{ key := [97], value := [49] }, { key := [98], value := [50] },
      { key := [101], value := [51] }] 4 4096 kDefaultCacheSize rfl
    (by simp [kDefaultCacheSize]) (by decide) (by simp [u32]) (by simp [u32])
    (by
      intro r hr
      simp only [List.mem_cons, List.mem_singleton, List.not_mem_nil, or_false] at hr
      rcases hr with rfl | rfl | rfl <;> exact ⟨by decide, by decide⟩)
    (by
      intro r hr
      simp only [List.mem_cons, List.mem_singleton, List.not_mem_nil, or_false] at hr
      rcases hr with rfl | rfl | rfl <;> exact ⟨by decide, by decide⟩)
    (by decide)
    (fun n => le_trans (bucketLoad_le_total 4 _ n) (by decide))

/-! ## The LRU cache: every call keeps the representation invariant -/

theorem LRUCache.step_WF {c c1 : LRUCache} (h : c.WF) {op : CacheOp}
    (hs : c.step op = some c1) : c1.WF ∧ c1.cache_size = c.cache_size := by
  cases op with
  | get key =>
    by_cases hk : key ∈ c.keys
    · obtain ⟨w, c2, hg, hwf2, hcs2, _⟩ := LRUCache.Get_keys h hk []
      simp only [LRUCache.step, hg, Option.map_some', Option.some.injEq] at hs
      subst hs
      exact ⟨hwf2, hcs2⟩
    · have hg := LRUCache.Get_not_cached h ((h.cached_eq_none_iff key).mpr hk) []
      simp only [LRUCache.step, hg, Option.map_some', Option.some.injEq] at hs
      subst hs
      exact ⟨h, rfl⟩
  | put key value =>
    by_cases hpos : 0 < c.cache_size
    · obtain ⟨c2, hp, hwf2, hcs2, _⟩ := LRUCache.Put_keys h hpos key value
      simp only [LRUCache.step, hp, Option.map_some', Option.some.injEq] at hs
      subst hs
      exact ⟨hwf2, hcs2⟩
    · exfalso
      have h0 : c.cache_size = 0 := by omega
      have hl : c.lru = [] := by
        have := h.length_le
        rw [h0] at this
        exact List.length_eq_zero.mp (Nat.le_zero.mp this)
      have ht : c.table key = none := by
        rw [h.table_none_iff]
        simp [LRUCache.keys, hl]
      simp [LRUCache.step, LRUCache.Put, ht, LRUCache.evict, hl, h0] at hs

theorem LRUCache.run_WF (ops : List CacheOp) {c c1 : LRUCache} (h : c.WF)
    (hr : c.run ops = some c1) : c1.WF ∧ c1.cache_size = c.cache_size := by
  induction ops generalizing c with
  | nil =>
    simp only [LRUCache.run, Option.some.injEq] at hr
    subst hr
    exact ⟨h, rfl⟩
  | cons op ops ih =>
    simp only [LRUCache.run] at hr
    cases hs : c.step op with
    | none => simp [hs] at hr
    | some c2 =>
      rw [hs] at hr
      obtain ⟨hwf2, hcs2⟩ := LRUCache.step_WF h hs
      obtain ⟨hwf1, hcs1⟩ := ih hwf2 hr
      exact ⟨hwf1, hcs1.trans hcs2⟩

/-! ## Get: a failed lookup leaves the cache alone -/

theorem LRUCache.Get_not_OK {c c1 : LRUCache} {key value v : List Byte} {st : Status}
    (h : c.Get key value = some (st, v, c1)) (hst : st ≠ Status.OK) :
    c1 = c ∧ v = value := by
  unfold LRUCache.Get at h
  cases ht : c.table key with
  | none =>
    simp only [ht, Option.some.injEq, Prod.mk.injEq] at h
    exact ⟨h.2.2.symm, h.2.1.symm⟩
  | some it =>
    simp only [ht] at h
    cases hn : nodeAt c.lru it with
    | none => simp [hn] at h
    | some node =>
      simp only [hn, Option.some.injEq, Prod.mk.injEq] at h
      exact absurd h.1.symm hst

theorem Retrieve_not_OK {d : Disk} {key : List Byte} {file_id : Nat} {value v : List Byte}
    {st : Status} (h : RyougiDB.Retrieve d key file_id value = some (st, v))
    (hst : st ≠ Status.OK) : v = value := by
  have e := Retrieve_value d key file_id value value
  rw [h] at e
  simp only [Option.map_some', hst, if_false, Option.some.injEq, Prod.mk.injEq, true_and] at e
  exact e

theorem RyougiDB.Get_isSome (db : RyougiDB) (d : Disk) (key value : List Byte) (same : Bool)
    (hwf : db.cache.WF) (hpos : 1 ≤ db.cache.cache_size) (hts : 1 ≤ db.table_size) :
    ∃ st v db1, db.Get d key value same = some (st, v, db1) := by
  unfold RyougiDB.Get
  generalize (if same = true then key else value) = value0
  cases hc : db.cache.cached key with
  | some w =>
    obtain ⟨c1, _, _, hg, _⟩ := LRUCache.Get_cached hwf hc value0
    exact ⟨Status.OK, w, { db with cache := c1 }, by
      simp only [hg, Status.IsOK, if_true]⟩
  | none =>
    have hg := LRUCache.Get_not_cached hwf hc value0
    have hts0 : db.table_size ≠ 0 := by omega
    obtain ⟨⟨st2, v2⟩, hr⟩ := Retrieve_isSome d key (getFileId db.table_size key) value0
    cases st2 with
    | OK =>
      obtain ⟨c2, hp, _⟩ := LRUCache.Put_total hwf hpos (if same = true then v2 else key) v2
      exact ⟨Status.OK, v2, { db with cache := c2 }, by
        simp [hg, Status.IsOK, hts0, hr, hp]⟩
    | NotFound =>
      exact ⟨Status.NotFound, v2, db, by simp [hg, Status.IsOK, hts0, hr]⟩
    | Corruption =>
      exact ⟨Status.Corruption, v2, db, by simp [hg, Status.IsOK, hts0, hr]⟩
    | IOError =>
      exact ⟨Status.IOError, v2, db, by simp [hg, Status.IsOK, hts0, hr]⟩
    | NotSupported =>
      exact ⟨Status.NotSupported, v2, db, by simp [hg, Status.IsOK, hts0, hr]⟩

/-- C20: whenever `Get` returns a status other than OK, the handle it leaves is
the handle it started from, so the cache (its recency list, in order, and its
table) is exactly as before, and the output string is untouched; `Get` changes
the cache only when it returns OK.  This holds whether or not the caller passed
the key string as the output string.  On a well-formed cache of capacity at
least 1 and with `table_size >= 1`, `Get` always returns. -/
theorem Get_not_OK_keeps_cache (db : RyougiDB) (d : Disk) (key value : List Byte)
    (same : Bool) :
    (∀ st v db1, db.Get d key value same = some (st, v, db1) → st ≠ Status.OK →
      db1.cache = db.cache ∧ db1 = db ∧ v = (if same then key else value)) ∧
    (db.cache.WF → 1 ≤ db.cache.cache_size → 1 ≤ db.table_size →
      ∃ st v db1, db.Get d key value same = some (st, v, db1)) := by
  refine ⟨fun st v db1 h hst => ?_, RyougiDB.Get_isSome db d key value same⟩
  unfold RyougiDB.Get at h
  generalize (if same = true then key else value) = value0 at h ⊢
  cases hc : db.cache.Get key value0 with
  | none => simp [hc] at h
  | some p =>
    obtain ⟨s, v1, c1⟩ := p
    simp only [hc] at h
    by_cases hs : s.IsOK = true
    · simp only [hs, if_true, Option.some.injEq, Prod.mk.injEq] at h
      have : s = Status.OK := by
        cases s <;> simp [Status.IsOK] at hs ⊢
      exact absurd (h.1 ▸ this) hst
    · have hs' : s ≠ Status.OK := by
        intro e
        rw [e] at hs
        exact hs rfl
      obtain ⟨hc1, hv1⟩ := LRUCache.Get_not_OK hc hs'
      subst hc1 hv1
      simp only [hs, Bool.false_eq_true, if_false] at h
      by_cases hts : db.table_size = 0
      · simp [hts] at h
      · simp only [hts, if_false] at h
        cases hr : RyougiDB.Retrieve d key (getFileId db.table_size key) v1 with
        | none => simp [hr] at h
        | some q =>
          obtain ⟨s2, v2⟩ := q
          simp only [hr] at h
          by_cases hs2 : s2.IsOK = true
          · simp only [hs2, if_true] at h
            have e2 : s2 = Status.OK := by
              cases s2 <;> simp [Status.IsOK] at hs2 ⊢
            cases hp : db.cache.Put (if same = true then v2 else key) v2 with
            | none => simp [hp] at h
            | some pr =>
              simp only [hp, Option.some.injEq, Prod.mk.injEq] at h
              exact absurd (h.1 ▸ e2) hst
          · simp only [hs2, Bool.false_eq_true, if_false, Option.some.injEq,
              Prod.mk.injEq] at h
            obtain ⟨h1, h2, h3⟩ := h
            subst h1 h2 h3
            exact ⟨rfl, rfl, Retrieve_not_OK hr hst⟩

/-- C20, witness: a new handle with four buckets on the sample disk; the
bucket of `"q"` has no file, so `Get("q")` returns IOError. -/
theorem Get_not_OK_keeps_cache_witness :
    (({ RyougiDB.new with table_size := 4 } : RyougiDB).Get sampleDisk [113] [7] false).map
        (fun r => (r.1, r.2.1)) = some (Status.IOError, [7]) ∧
    ∃ st v db1, ({ RyougiDB.new with table_size := 4 } : RyougiDB).Get sampleDisk [113] [7]
        false = some (st, v, db1) ∧
      (st ≠ Status.OK → db1.cache = ({ RyougiDB.new with table_size := 4 } : RyougiDB).cache ∧
        db1 = { RyougiDB.new with table_size := 4 } ∧ v = [7]) := by
  refine ⟨by decide, ?_⟩
  obtain ⟨st, v, db1, h⟩ := (Get_not_OK_keeps_cache { RyougiDB.new with table_size := 4 }
    sampleDisk [113] [7] false).2 (LRUCache.init_WF _) (by simp [RyougiDB.new, LRUCache.new,
      LRUCache.init, kDefaultCacheSize]) (by decide)
  exact ⟨st, v, db1, h, (Get_not_OK_keeps_cache { RyougiDB.new with table_size := 4 }
    sampleDisk [113] [7] false).1 st v db1 h⟩

/-! ## Persist and Open -/

theorem length_encodeU32 (n : Nat) : (encodeU32 n).length = 4 := rfl

theorem Persist_OK {db : RyougiDB} {d d2 : Disk} (hp : db.Persist d = (Status.OK, d2)) :
    d2 = { d with root := true, tableDir := true,
                  table := some (encodeU32 db.table_size ++ encodeU32 db.buffer_size) } := by
  unfold RyougiDB.Persist ensureDir at hp
  cases hr : d.root <;> cases hm : d.mkdirFails <;> cases htd : d.tableDir <;>
    cases htf : d.tableFails <;>
    simp [hr, hm, htd, htf] at hp <;> rw [← hp]

theorem Open_encoded (h : RyougiDB) (d : Disk) (t b : Nat) (ht : t < u32) (hb : b < u32)
    (hd : d.table = some (encodeU32 t ++ encodeU32 b)) :
    h.Open d = (Status.OK, { h with table_size := t, buffer_size := b }) := by
  have e2 : readU32 (encodeU32 b) = some (b, []) := by
    have := readU32_encodeU32 b [] hb
    simpa using this
  simp only [RyougiDB.Open, hd, readU32_encodeU32 t _ ht, e2]

/-- C14: a handle holds `table_size = t` and `buffer_size = b` (both `uint32_t`
values).  When `Persist` returns OK, the control file holds exactly 8 bytes:
the four bytes of `t` and then the four bytes of `b`, in host order; the bucket
files are untouched; and `Open` on the resulting disk, by any handle, returns
OK and sets that handle's `table_size` to `t` and `buffer_size` to `b`.
`Persist` does return OK when the directories can be created and the control
file can be written. -/
theorem Persist_then_Open (db : RyougiDB) (d : Disk) (ht : db.table_size < u32)
    (hb : db.buffer_size < u32) :
    (∀ d2, db.Persist d = (Status.OK, d2) →
      d2.table = some (encodeU32 db.table_size ++ encodeU32 db.buffer_size) ∧
      (encodeU32 db.table_size ++ encodeU32 db.buffer_size).length = 8 ∧
      d2.data = d.data ∧
      ∀ h : RyougiDB, h.Open d2 =
        (Status.OK, { h with table_size := db.table_size, buffer_size := db.buffer_size })) ∧
    (d.mkdirFails = false → d.tableFails = false → ∃ d2, db.Persist d = (Status.OK, d2)) := by
  constructor
  · intro d2 hp
    have e := Persist_OK hp
    refine ⟨by rw [e], by simp [length_encodeU32], by rw [e], fun h => ?_⟩
    exact Open_encoded h d2 _ _ ht hb (by rw [e])
  · intro hm htf
    unfold RyougiDB.Persist ensureDir
    cases hr : d.root <;> cases htd : d.tableDir <;> simp [hm, htf]

/-- C14, witness: the default handle persists `1048576` and `4096` on an empty
base directory; a handle with other parameters opens the result. -/
theorem Persist_then_Open_witness :
    RyougiDB.new.Persist (Disk.empty false) =
      (Status.OK,
        { Disk.empty false with
          root := true
          tableDir := true
          table := some [0, 0, 16, 0, 0, 16, 0, 0] }) ∧
    ∀ d2, RyougiDB.new.Persist (Disk.empty false) = (Status.OK, d2) →
      d2.table = some (encodeU32 RyougiDB.new.table_size ++ encodeU32 RyougiDB.new.buffer_size) ∧
      (encodeU32 RyougiDB.new.table_size ++ encodeU32 RyougiDB.new.buffer_size).length = 8 ∧
      d2.data = (Disk.empty false).data ∧
      ∀ h : RyougiDB, h.Open d2 =
        (Status.OK, { h with table_size := RyougiDB.new.table_size,
                             buffer_size := RyougiDB.new.buffer_size }) :=
  ⟨by rfl, (Persist_then_Open RyougiDB.new (Disk.empty false)
    (by simp [RyougiDB.new, kDefaultTableSize, u32])
    (by simp [RyougiDB.new, kDefaultBufferSize, u32])).1⟩

/-! ## Bucket ids are in range -/

/-- C15: for every key and every `table_size >= 1`, the bucket id `Get`
computes and the bucket id `Create` computes are below `table_size`; and one
iteration of the streaming loop of `Create` reads and changes its two vectors
at that bucket id only, so every entry at an index of `table_size` or more is
left as it was (the final loop visits the ids below `table_size`). -/
theorem fileId_lt_table_size (ts : Nat) (key : List Byte) (hts : 1 ≤ ts) :
    getFileId ts key < ts ∧ createFileId ts key < ts ∧
    (∀ bs st key_size value_size value st1,
      createBody ts bs st key_size key value_size value = some st1 →
      ∀ n, n ≠ createFileId ts key → st1.table n = st.table n ∧ st1.space n = st.space n) ∧
    ∀ id ∈ List.range ts, id < ts := by
  refine ⟨Nat.mod_lt _ (by omega), Nat.mod_lt _ (by omega), ?_, fun id hid => List.mem_range.mp hid⟩
  intro bs st key_size value_size value st1 h n hn
  unfold createBody at h
  have hts0 : ts ≠ 0 := by omega
  simp only [hts0, if_false] at h
  by_cases hfit : (st.space (createFileId ts key) + (4 + 4 + key_size + value_size)) % u32 ≤ bs
  · simp only [hfit, if_true, Option.some.injEq] at h
    rw [← h]
    simp only [hn, if_false, and_self]
  · simp only [hfit, if_false, Option.some.injEq] at h
    rw [← h]
    simp only [hn, if_false, and_self]

/-- C15, witness: the key `"PingCAP"` and the default table size. -/
theorem fileId_lt_table_size_witness :
    getFileId kDefaultTableSize [80, 105, 110, 103, 67, 65, 80] < kDefaultTableSize ∧
    createFileId kDefaultTableSize [80, 105, 110, 103, 67, 65, 80] < kDefaultTableSize :=
  have h := fileId_lt_table_size kDefaultTableSize [80, 105, 110, 103, 67, 65, 80]
    (by simp [kDefaultTableSize])
  ⟨h.1, h.2.1⟩

/-! ## The LRU cache: the invariant of every reachable state -/

theorem LRUCache.step_isSome {c : LRUCache} (h : c.WF) (hpos : 0 < c.cache_size)
    (op : CacheOp) : ∃ c1, c.step op = some c1 := by
  cases op with
  | get key =>
    by_cases hk : key ∈ c.keys
    · obtain ⟨w, c2, hg, _⟩ := LRUCache.Get_keys h hk []
      exact ⟨c2, by simp only [LRUCache.step, hg, Option.map_some']⟩
    · have hg := LRUCache.Get_not_cached h ((h.cached_eq_none_iff key).mpr hk) []
      exact ⟨c, by simp only [LRUCache.step, hg, Option.map_some']⟩
  | put key value =>
    obtain ⟨c2, hp, _⟩ := LRUCache.Put_keys h hpos key value
    exact ⟨c2, by simp only [LRUCache.step, hp, Option.map_some']⟩

theorem LRUCache.run_isSome (ops : List CacheOp) {c : LRUCache} (h : c.WF)
    (hpos : 0 < c.cache_size) : ∃ c1, c.run ops = some c1 := by
  induction ops generalizing c with
  | nil => exact ⟨c, rfl⟩
  | cons op ops ih =>
    obtain ⟨c2, hs⟩ := LRUCache.step_isSome h hpos op
    obtain ⟨hwf2, hcs2⟩ := LRUCache.step_WF h hs
    obtain ⟨c1, h1⟩ := ih hwf2 (hcs2 ▸ hpos)
    exact ⟨c1, by simp only [LRUCache.run, hs, h1]⟩

/-- C16: every state the cache reaches from the empty cache of capacity `n` by
a sequence of `Put` and `Get` calls holds at most `cache_size = n` entries, has
no key twice in its recency list, has a table whose keys are exactly the keys
of the recency list, and every table entry refers to a node of the list that
holds that same key.  For `n >= 1` every sequence of calls reaches a state. -/
theorem cache_reachable_invariant (n : Nat) (ops : List CacheOp) :
    (∀ c, (LRUCache.init n).run ops = some c →
      c.cache_size = n ∧ c.lru.length ≤ c.cache_size ∧ c.keys.Nodup ∧
      (∀ k, c.table k ≠ none ↔ k ∈ c.keys) ∧
      ∀ k a, c.table k = some a →
        ∃ v, nodeAt c.lru a = some (CacheNode.mk k v) ∧ (a, CacheNode.mk k v) ∈ c.lru) ∧
    (1 ≤ n → ∃ c, (LRUCache.init n).run ops = some c) := by
  refine ⟨fun c hrun => ?_, fun hn => LRUCache.run_isSome ops (LRUCache.init_WF n) hn⟩
  obtain ⟨hwf, hcs⟩ := LRUCache.run_WF ops (LRUCache.init_WF n) hrun
  refine ⟨hcs, hwf.length_le, hwf.keys_nodup, fun k => ?_, fun k a hka => ?_⟩
  · rw [← not_iff_not, not_not]
    exact hwf.table_none_iff k
  · obtain ⟨v, l1, l2, e, hn, _⟩ := hwf.hit hka
    exact ⟨v, hn, by rw [e]; simp⟩

/-- C16, witness: the state reached by the calls of `sampleOps` with capacity
2 holds the keys `"c"` and `"a"`. -/
theorem cache_reachable_invariant_witness :
    ((LRUCache.init 2).run sampleOps).map (fun c => (c.keys, c.table [99], c.table [98])) =
      some ([[99], [97]], some 2, none) ∧
    ∃ c, (LRUCache.init 2).run sampleOps = some c ∧
      c.cache_size = 2 ∧ c.lru.length ≤ c.cache_size ∧ c.keys.Nodup ∧
      (∀ k, c.table k ≠ none ↔ k ∈ c.keys) ∧
      ∀ k a, c.table k = some a →
        ∃ v, nodeAt c.lru a = some (CacheNode.mk k v) ∧ (a, CacheNode.mk k v) ∈ c.lru := by
  refine ⟨by decide, ?_⟩
  obtain ⟨c, h⟩ := (cache_reachable_invariant 2 sampleOps).2 (by decide)
  exact ⟨c, h, (cache_reachable_invariant 2 sampleOps).1 c h⟩

/-! ## Retrieve: records that cannot be decoded -/

theorem retrieveLoop_encodeRecords_append (key value : List Byte) (rs : List Record)
    (tail : List Byte) (hrs : ∀ r ∈ rs, r.InRange) (f : Nat) :
    retrieveLoop key value (rs.length + f) (encodeRecords rs ++ tail) =
      match rs.find? (fun r => decide (cstr r.key = key)) with
      | some r => some (Status.OK, cstr r.value)
      | none => retrieveLoop key value f tail := by
  induction rs with
  | nil => simp [encodeRecords]
  | cons r rs ih =>
    have e : (r :: rs).length + f = (rs.length + f) + 1 := by
      simp only [List.length_cons]
      omega
    rw [e, encodeRecords, List.append_assoc,
      retrieveLoop_encodeRecord _ _ _ _ _ (hrs r (List.mem_cons_self _ _))]
    by_cases h : cstr r.key = key
    · simp [h, List.find?]
    · simp only [h, if_false, List.find?, decide_False]
      exact ih (fun x hx => hrs x (List.mem_cons_of_mem _ hx))

theorem find?_eq_none_of_no_match (rs : List Record) (key : List Byte)
    (hno : ∀ r ∈ rs, cstr r.key ≠ key) :
    rs.find? (fun r => decide (cstr r.key = key)) = none := by
  rw [List.find?_eq_none]
  intro r hr
  simpa using hno r hr

theorem Retrieve_after_records (d : Disk) (file_id : Nat) (rs : List Record) (tail : List Byte)
    (key value : List Byte) (hfile : d.data file_id = some (encodeRecords rs ++ tail))
    (hrs : ∀ r ∈ rs, r.InRange) (hno : ∀ r ∈ rs, cstr r.key ≠ key) :
    ∃ f, RyougiDB.Retrieve d key file_id value = retrieveLoop key value (f + 1) tail := by
  obtain ⟨f, hf⟩ := length_encodeRecords_append rs tail
  refine ⟨f, ?_⟩
  unfold RyougiDB.Retrieve
  rw [hfile]
  simp only
  rw [hf, retrieveLoop_encodeRecords_append key value rs tail hrs (f + 1),
    find?_eq_none_of_no_match rs key hno]

theorem retrieveLoop_oversize (key value : List Byte) (f : Nat) (tail : List Byte)
    (h : oversizeHead tail = true) :
    retrieveLoop key value (f + 1) tail = some (Status.Corruption, value) := by
  unfold oversizeHead at h
  unfold retrieveLoop
  cases h1 : readU32 tail with
  | none => simp [h1] at h
  | some p1 =>
    obtain ⟨key_size, s1⟩ := p1
    simp only [h1] at h ⊢
    by_cases hks : key_size ≥ kMaxKeySize
    · simp only [hks, if_true]
    · simp only [hks, if_false] at h ⊢
      cases h2 : readBytes key_size s1 with
      | none => simp [h2] at h
      | some p2 =>
        obtain ⟨k, s2⟩ := p2
        simp only [h2] at h ⊢
        cases h3 : readU32 s2 with
        | none => simp [h3] at h
        | some p3 =>
          obtain ⟨value_size, s3⟩ := p3
          simp only [h3, decide_eq_true_eq] at h ⊢
          simp only [h, if_true]

/-- C12: the bucket file is the encoding of records `rs` (keys shorter than 32
bytes, values shorter than 256), none of which has a key that matches the
query (as `Retrieve` compares keys, cut at their first zero byte), followed by
a record whose declared key length is 32 or more, or whose declared value
length is 256 or more.  Then `Retrieve` returns Corruption and leaves the
output string; and `Get` of that key by a handle whose cache does not hold the
key (`table_size >= 1`, the file being the key's bucket) returns Corruption,
with the handle and the output string unchanged, whether or not the caller
passed the key string as the output string. -/
theorem Retrieve_corruption (d : Disk) (file_id : Nat) (rs : List Record) (tail : List Byte)
    (key value : List Byte) (hfile : d.data file_id = some (encodeRecords rs ++ tail))
    (hrs : ∀ r ∈ rs, r.InRange) (hno : ∀ r ∈ rs, cstr r.key ≠ key)
    (hbad : oversizeHead tail = true) :
    RyougiDB.Retrieve d key file_id value = some (Status.Corruption, value) ∧
    ∀ db : RyougiDB, db.cache.table key = none → 1 ≤ db.table_size →
      getFileId db.table_size key = file_id →
      ∀ same, db.Get d key value same =
        some (Status.Corruption, if same then key else value, db) := by
  have hr : ∀ value0, RyougiDB.Retrieve d key file_id value0 =
      some (Status.Corruption, value0) := by
    intro value0
    obtain ⟨f, hf⟩ := Retrieve_after_records d file_id rs tail key value0 hfile hrs hno
    rw [hf, retrieveLoop_oversize key value0 f tail hbad]
  refine ⟨hr value, fun db hmiss hts hid same => ?_⟩
  have hts0 : db.table_size ≠ 0 := by omega
  unfold RyougiDB.Get
  generalize (if same = true then key else value) = value0
  simp [LRUCache.Get_miss db.cache key value0 hmiss, Status.IsOK, hts0, hid, hr value0]

/-- C12, witness: bucket 3 holds the records `"k"`, `"q"`, `"k"` and then a
record with a declared value length of 256; the query `"o"` (bucket 3 of 4)
matches none of them, and a new handle with four buckets returns Corruption. -/
theorem Retrieve_corruption_witness :
    (RyougiDB.Retrieve corruptDisk [111] 3 [] = some (Status.Corruption, []) ∧
      ∀ db : RyougiDB, db.cache.table [111] = none → 1 ≤ db.table_size →
        getFileId db.table_size [111] = 3 →
        ∀ same, db.Get corruptDisk [111] [] same =
          some (Status.Corruption, if same then [111] else [], db)) ∧
    ({ RyougiDB.new with table_size := 4 } : RyougiDB).Get corruptDisk [111] [] false =
      some (Status.Corruption, [], { RyougiDB.new with table_size := 4 }) :=
  have h := Retrieve_corruption corruptDisk 3 dupRecords oversizeValueDump [111] [] rfl
    (by
      intro r hr
      simp only [dupRecords, List.mem_cons, List.mem_singleton, List.not_mem_nil, or_false] at hr
      rcases hr with rfl | rfl | rfl <;> exact ⟨by decide, by decide⟩)
    (by
      intro r hr
      simp only [dupRecords, List.mem_cons, List.mem_singleton, List.not_mem_nil, or_false] at hr
      rcases hr with rfl | rfl | rfl <;> decide)
    (by decide)
  ⟨h, h.2 { RyougiDB.new with table_size := 4 } rfl (by decide) (by decide) false⟩

/-! ## Retrieve and Create: files that end inside a record -/

/-- A failing `Write` in the final loop ends `Create`'s final loop at once,
with that `Write`'s status and disk. -/
theorem flushAll_stops (id : Nat) (rest : List Nat) (st : CreateState)
    (hp : (st.table id).length > 0)
    (hs : (RyougiDB.Write st.disk id (st.table id)).1 ≠ Status.OK) :
    flushAll (id :: rest) st = RyougiDB.Write st.disk id (st.table id) := by
  have : (RyougiDB.Write st.disk id (st.table id)).1.IsOK = false := by
    cases h : (RyougiDB.Write st.disk id (st.table id)).1 <;> simp [Status.IsOK, h] at hs ⊢
  simp only [flushAll, hp, if_true, this, Bool.not_false]

/-- The streaming loop of `Create` does not look at the status of a flush:
(1) with `table_size = 2` and `buffer_size = 10`, the second record of
`threeRecordDump` overflows the batch of bucket 0, the flush of bucket 0 fails
(its file cannot be opened for append), and `Create` goes on, flushes bucket 1
in its final loop and returns OK, leaving no file for bucket 0.  (2) In the
final loop the same failure is returned at once: on `splitDump` with a budget
of 4096 bytes `Create` returns IOError and bucket 1 is never flushed. -/
theorem Create_ignores_failed_flush :
    (RyougiDB.Create RyougiDB.new lockedDisk (some threeRecordDump) 2 10).map
        (fun res => (res.1, res.2.2.data 0, res.2.2.data 1)) =
      some (Status.OK, none, some (encodeRecord { key := [97], value := [122] })) ∧
    (RyougiDB.Create RyougiDB.new lockedDisk (some splitDump) 2 4096).map
        (fun res => (res.1, res.2.2.data 0, res.2.2.data 1)) =
      some (Status.IOError, none, none) := by
  decide

/-! ## Create: the exact bytes of every bucket file -/

/-- C19, counterexample: (1) the dump holds the one record `("b\0", "x")`, in
range, and `table_size = 3`.  `Create` returns OK and writes the record to
`data2`, the bucket of `Hash("b") mod 3`; `Hash("b\0") mod 3` is 1, and there is
no file `data1`.  (2) The dump holds the one record `("c\0d", "v")` and there is
one bucket.  `Create` returns OK, and `data0` holds the key length 3 followed
by `"c"`, the terminator and the byte found after it (0 here), not the key of
the record: the file is not the encoding of the record. -/
theorem Create_files_exact_counterexample :
    (RyougiDB.Create RyougiDB.new (Disk.empty true)
        (some (encodeRecords [{ key := [98, 0], value := [120] }])) 3 4096).map
        (fun res => (res.1, res.2.2.data 1, res.2.2.data 2)) =
      some (Status.OK, none, some (encodeRecords [{ key := [98, 0], value := [120] }])) ∧
    getFileId 3 [98, 0] = 1 ∧
    (RyougiDB.Create RyougiDB.new (Disk.empty true)
        (some (encodeRecords [{ key := [99, 0, 100], value := [118] }])) 1 4096).map
        (fun res => (res.1, res.2.2.data 0)) =
      some (Status.OK, some (encodeU32 3 ++ [99, 0, 0] ++ encodeU32 1 ++ [118])) ∧
    encodeRecords [{ key := [99, 0, 100], value := [118] }] =
      encodeU32 3 ++ [99, 0, 100] ++ encodeU32 1 ++ [118] := by
  decide

/-- C19 (amended): the dump is the encoding of records `rs` with keys shorter
than 32 bytes and values shorter than 256, in which a zero byte can only be the
last byte of a key or value; `table_size >= 1`, and for every bucket the total
serialized size of the records sent to it is at most `buffer_size`.  Then
`Create` on an empty base directory (file operations succeeding) returns OK,
and for every bucket id `N` the file `data<N>` is exactly the concatenation,
in dump order, of the encodings of the records of `rs` whose key, cut at its
first zero byte, hashes to `N` when there is such a record, and does not exist
when there is none.  For a key without a zero byte that bucket is
`Hash(key) mod table_size`. -/
theorem Create_files_exact (db : RyougiDB) (root : Bool) (slack : List Byte → Nat → Byte)
    (rs : List Record) (ts bs : Nat)
    (hts : 1 ≤ ts) (hrs : ∀ r ∈ rs, r.InRange) (hib : ∀ r ∈ rs, r.InBounds)
    (hload : ∀ n, bucketLoad ts rs n ≤ bs) :
    (∃ d1, RyougiDB.Create db (Disk.emptyWith root slack) (some (encodeRecords rs)) ts bs =
        some (Status.OK, { db with table_size := ts, buffer_size := bs }, d1) ∧
      ∀ n, d1.data n =
        if rs.filter (fun r => decide (createFileId ts r.key = n)) = [] then none
        else some (encodeRecords (rs.filter (fun r => decide (createFileId ts r.key = n))))) ∧
    ∀ r ∈ rs, (0 : Byte) ∉ r.key → createFileId ts r.key = getFileId ts r.key := by
  refine ⟨?_, fun r _ h0 => by rw [createFileId, getFileId, cstr_of_not_mem _ h0]⟩
  obtain ⟨d1, hc, hd1, _⟩ := Create_build db root slack rs ts bs hts hrs hib
  refine ⟨d1, hc, fun n => ?_⟩
  rw [hd1 n, Buckets.build_written_fits ts bs rs n hload]
  by_cases hne : rs.filter (fun r => decide (createFileId ts r.key = n)) = []
  · simp [hne]
  · obtain ⟨r, hr⟩ := List.exists_mem_of_ne_nil _ hne
    have hrn : createFileId ts r.key = n := by
      simpa using (List.mem_filter.mp hr).2
    have hlt : n < ts := hrn ▸ Nat.mod_lt _ (by omega)
    simp [hne, hlt]

/-- C19, witness: the three records of `dupRecords` with four buckets and a
budget of 4096 bytes: `"k"` (twice) goes to bucket 3 and `"q"` to bucket 1. -/
theorem Create_files_exact_witness :
    ∃ d1, RyougiDB.Create RyougiDB.new (Disk.empty true) (some (encodeRecords dupRecords))
        4 4096 =
        some (Status.OK, { RyougiDB.new with table_size := 4, buffer_size := 4096 }, d1) ∧
      d1.data 0 = none ∧
      d1.data 1 = some (encodeRecord { key := [113], value := [50] }) ∧
      d1.data 3 = some (encodeRecord { key := [107], value := [49] } ++
        encodeRecord { key := [107], value := [51] }) := by
  have hin : ∀ r ∈ dupRecords, r.InRange := by
    intro r hr
    simp only [dupRecords, List.mem_cons, List.mem_singleton, List.not_mem_nil, or_false] at hr
    rcases hr with rfl | rfl | rfl <;> exact ⟨by decide, by decide⟩
  have hib : ∀ r ∈ dupRecords, r.InBounds := by
    intro r hr
    simp only [dupRecords, List.mem_cons, List.mem_singleton, List.not_mem_nil, or_false] at hr
    rcases hr with rfl | rfl | rfl <;> exact ⟨by decide, by decide⟩
  obtain ⟨d1, hc, hd⟩ := (Create_files_exact RyougiDB.new true (fun _ _ => 0) dupRecords 4 4096
    (by decide) hin hib
    (fun n => le_trans (bucketLoad_le_total 4 dupRecords n) (by decide))).1
  refine ⟨d1, hc, ?_, ?_, ?_⟩
  · rw [hd 0]
    decide
  · rw [hd 1]
    decide
  · rw [hd 3]
    decide

/-! ## Create: buffering or flushing one record -/

theorem createRecords_replicate (bs k : Nat) (r : Record) (st : CreateState) (hbs : bs < u32)
    (h : st.space 0 + k * recordSize r ≤ bs) :
    ∃ st1, createRecords 1 bs st (List.replicate k r) = some st1 ∧
      st1.space 0 = st.space 0 + k * recordSize r ∧ st1.disk = st.disk ∧
      st1.table 0 = st.table 0 ++ List.replicate k (itemOf r) := by
  induction k generalizing st with
  | zero => exact ⟨st, rfl, by omega, rfl, by simp⟩
  | succ k ih =>
    have hid : createFileId 1 r.key = 0 := by
      unfold createFileId
      exact Nat.mod_one _
    have hsz : (st.space 0 + (4 + 4 + r.key.length + r.value.length)) % u32 =
        st.space 0 + recordSize r := by
      unfold recordSize at h ⊢
      apply Nat.mod_eq_of_lt
      have : (k + 1) * (4 + 4 + r.key.length + r.value.length) =
          k * (4 + 4 + r.key.length + r.value.length) +
            (4 + 4 + r.key.length + r.value.length) := by ring
      omega
    have hfit : st.space 0 + recordSize r ≤ bs := by
      have : (k + 1) * recordSize r = k * recordSize r + recordSize r := by ring
      omega
    have hstep : createRecord 1 bs st r = some
        { st with
          table := fun n => if n = 0 then st.table 0 ++ [itemOf r] else st.table n
          space := fun n => if n = 0 then st.space 0 + recordSize r else st.space n } := by
      unfold createRecord createBody
      simp only [hid, hsz, hfit, if_true, Nat.one_ne_zero, if_false, itemOf]
    obtain ⟨st1, h1, hs1, hd1, ht1⟩ := ih
      { st with
        table := fun n => if n = 0 then st.table 0 ++ [itemOf r] else st.table n
        space := fun n => if n = 0 then st.space 0 + recordSize r else st.space n }
      (by
        have : (k + 1) * recordSize r = k * recordSize r + recordSize r := by ring
        simp only [if_true]
        omega)
    refine ⟨st1, ?_, ?_, hd1, ?_⟩
    · rw [List.replicate_succ]
      simp only [createRecords, hstep, h1]
    · rw [hs1]
      have : (k + 1) * recordSize r = k * recordSize r + recordSize r := by ring
      simp only [if_true]
      omega
    · rw [ht1]
      simp only [if_true, List.replicate_succ, List.append_assoc, List.singleton_append]

/-- C18, counterexample: one bucket and `buffer_size = 4294967295`.  After
429496729 copies of a ten-byte record the accumulated size of bucket 0 is
4294967290 and nothing has been written.  For one more copy the accumulated
size plus 10 is 4294967300, above `buffer_size`; the 32-bit sum is 4, so the
record is appended to the pending list and no flush takes place. -/
theorem Create_buffer_wrap_counterexample :
    ∃ st : CreateState,
      createRecords 1 4294967295 (createStart (Disk.empty true))
          (List.replicate 429496729 wrapRecord) = some st ∧
        st.space 0 = 4294967290 ∧
        ¬ (st.space 0 + recordSize wrapRecord ≤ 4294967295) ∧
        ∃ st1, createRecord 1 4294967295 st wrapRecord = some st1 ∧
          st1.table 0 = st.table 0 ++ [itemOf wrapRecord] ∧
          st1.space 0 = 4 ∧ st1.disk = st.disk ∧
          st1.disk.data 0 = none := by
  have hsize : recordSize wrapRecord = 10 := rfl
  obtain ⟨st, h, hs, hd, _⟩ := createRecords_replicate 4294967295 429496729 wrapRecord
    (createStart (Disk.empty true)) (by unfold u32; norm_num)
    (by rw [hsize]; show 0 + 429496729 * 10 ≤ 4294967295; norm_num)
  have hs0 : st.space 0 = 4294967290 := by
    rw [hs, hsize]
    show 0 + 429496729 * 10 = 4294967290
    norm_num
  refine ⟨st, h, hs0, by rw [hs0, hsize]; norm_num, ?_⟩
  have hid : createFileId 1 wrapRecord.key = 0 := Nat.mod_one _
  have hlen : 4 + 4 + wrapRecord.key.length + wrapRecord.value.length = 10 := rfl
  have hmod : (4294967290 + 10) % u32 = 4 := by unfold u32; norm_num
  refine ⟨{ st with
      table := fun n => if n = 0 then st.table 0 ++ [itemOf wrapRecord] else st.table n
      space := fun n => if n = 0 then 4 else st.space n }, ?_, by simp, by simp, rfl, ?_⟩
  · unfold createRecord createBody
    simp only [hid, hlen, hs0, hmod, Nat.one_ne_zero, if_false, itemOf]
    simp
  · show st.disk.data 0 = none
    rw [hd]
    rfl

/-- C18 (amended): one iteration of the streaming loop of `Create` on a record
`r` with bucket id `N` and serialized size `s = 4 + key_len + 4 + value_len`,
for `table_size >= 1`.  The test compares the sum of the bucket's accumulated
size and `s` taken modulo 2^32 with `buffer_size`.  If that is at most
`buffer_size`, the record is appended to the end of the pending list of `N`,
the accumulated size becomes that sum, and status, disk and the other buckets
are unchanged.  Otherwise, when the data directory exists and `data<N>` can be
opened and written, the bytes `Write` emits for the pending list of `N` are
appended to `data<N>`, the pending list and accumulated size of `N` become
empty and 0, the other buckets and files are unchanged and the record is in no
pending list.  When `buffer_size <= 2^32 - 295`, the record is in range and the
accumulated size is at most `buffer_size`, the test is the one on the plain
sum; and every step keeps each accumulated size at most `buffer_size`. -/
theorem createRecord_buffer_or_flush (ts bs : Nat) (st : CreateState) (r : Record)
    (hts : 1 ≤ ts) :
    ((st.space (createFileId ts r.key) + recordSize r) % u32 ≤ bs →
      ∃ st1, createRecord ts bs st r = some st1 ∧
        st1.table (createFileId ts r.key) = st.table (createFileId ts r.key) ++ [itemOf r] ∧
        st1.space (createFileId ts r.key) =
          (st.space (createFileId ts r.key) + recordSize r) % u32 ∧
        st1.disk = st.disk ∧ st1.status = st.status ∧
        ∀ n, n ≠ createFileId ts r.key → st1.table n = st.table n ∧ st1.space n = st.space n) ∧
    (¬ (st.space (createFileId ts r.key) + recordSize r) % u32 ≤ bs →
      st.disk.dataDir = true →
      st.disk.appendFails (createFileId ts r.key) = false →
      st.disk.writeFails (createFileId ts r.key) = false →
      ∃ st1, createRecord ts bs st r = some st1 ∧
        st1.status = Status.OK ∧
        st1.disk = st.disk.setData (createFileId ts r.key)
          ((st.disk.data (createFileId ts r.key)).getD [] ++
            writeItems st.disk.slack (st.table (createFileId ts r.key))) ∧
        st1.table (createFileId ts r.key) = [] ∧
        st1.space (createFileId ts r.key) = 0 ∧
        ∀ n, n ≠ createFileId ts r.key →
          st1.table n = st.table n ∧ st1.space n = st.space n) ∧
    (bs + 295 ≤ u32 → r.InRange → st.space (createFileId ts r.key) ≤ bs →
      ((st.space (createFileId ts r.key) + recordSize r) % u32 ≤ bs ↔
        st.space (createFileId ts r.key) + recordSize r ≤ bs)) ∧
    ((∀ n, st.space n ≤ bs) → ∀ st1, createRecord ts bs st r = some st1 →
      ∀ n, st1.space n ≤ bs) := by
  have hts0 : ts ≠ 0 := by omega
  refine ⟨?_, ?_, ?_, ?_⟩
  · intro hfit
    refine ⟨{ st with
        table := fun n =>
          if n = createFileId ts r.key then st.table (createFileId ts r.key) ++ [itemOf r]
          else st.table n
        space := fun n =>
          if n = createFileId ts r.key then
            (st.space (createFileId ts r.key) + recordSize r) % u32
          else st.space n }, ?_, by simp, by simp, rfl, rfl, ?_⟩
    · unfold recordSize at hfit
      unfold createRecord createBody
      simp only [hts0, if_false, hfit, if_true, itemOf, recordSize]
    · intro n hn
      simp [hn]
  · intro hfit hdir ha hw
    have hwr : RyougiDB.Write st.disk (createFileId ts r.key)
        (st.table (createFileId ts r.key)) =
        (Status.OK, st.disk.setData (createFileId ts r.key)
          ((st.disk.data (createFileId ts r.key)).getD [] ++
            writeItems st.disk.slack (st.table (createFileId ts r.key)))) := by
      unfold RyougiDB.Write
      simp only [hdir, ha, Bool.not_true, Bool.or_self, Bool.false_eq_true, if_false]
      cases htab : st.table (createFileId ts r.key) with
      | nil => simp [writeItems]
      | cons i is => simp only [hw, Bool.false_eq_true, if_false]
    refine ⟨{ status := Status.OK
              space := fun n => if n = createFileId ts r.key then 0 else st.space n
              table := fun n => if n = createFileId ts r.key then [] else st.table n
              disk := st.disk.setData (createFileId ts r.key)
                ((st.disk.data (createFileId ts r.key)).getD [] ++
                  writeItems st.disk.slack (st.table (createFileId ts r.key))) },
      ?_, rfl, rfl, by simp, by simp, ?_⟩
    · unfold recordSize at hfit
      unfold createRecord createBody
      simp only [hts0, if_false, hfit, hwr]
    · intro n hn
      simp [hn]
  · intro hbs hr hsp
    have hk := hr.1
    have hv := hr.2
    unfold kMaxKeySize at hk
    unfold kMaxValueSize at hv
    unfold recordSize
    rw [Nat.mod_eq_of_lt (by omega)]
  · intro hinv st1 h1 n
    unfold createRecord createBody at h1
    simp only [hts0, if_false] at h1
    by_cases hfit : (st.space (createFileId ts r.key) +
        (4 + 4 + r.key.length + r.value.length)) % u32 ≤ bs
    · simp only [hfit, if_true, Option.some.injEq] at h1
      rw [← h1]
      by_cases hn : n = createFileId ts r.key
      · simp only [hn, if_true]
        exact hfit
      · simp only [hn, if_false]
        exact hinv n
    · simp only [hfit, if_false, Option.some.injEq] at h1
      rw [← h1]
      by_cases hn : n = createFileId ts r.key
      · simp only [hn, if_true]
        exact Nat.zero_le _
      · simp only [hn, if_false]
        exact hinv n

/-- C18, witness: with two buckets and `buffer_size = 10`, the record
`("a", "b")` is buffered in the start state, and in the state that follows a
second copy of it flushes the first copy to `data1` and is itself dropped. -/
theorem createRecord_buffer_or_flush_witness :
    (∃ st1, createRecord 2 10 (createStart (Disk.empty true)) wrapRecord = some st1 ∧
      st1.table 1 = [itemOf wrapRecord] ∧ st1.space 1 = 10 ∧
      st1.disk = (createStart (Disk.empty true)).disk) ∧
    (∃ st1, createRecord 2 10
        { createStart (Disk.empty true) with
          table := fun n => if n = 1 then [itemOf wrapRecord] else []
          space := fun n => if n = 1 then 10 else 0 } wrapRecord = some st1 ∧
      st1.disk.data 1 = some (encodeRecord wrapRecord) ∧
      st1.table 1 = [] ∧ st1.space 1 = 0) ∧
    (((createStart (Disk.empty true)).space (createFileId 2 wrapRecord.key) +
        recordSize wrapRecord) % u32 ≤ 10 ↔
      (createStart (Disk.empty true)).space (createFileId 2 wrapRecord.key) +
        recordSize wrapRecord ≤ 10) ∧
    (∀ st1, createRecord 2 10 (createStart (Disk.empty true)) wrapRecord = some st1 →
      ∀ n, st1.space n ≤ 10) := by
  have hid : createFileId 2 wrapRecord.key = 1 := by decide
  refine ⟨?_, ?_,
    (createRecord_buffer_or_flush 2 10 (createStart (Disk.empty true)) wrapRecord
      (by decide)).2.2.1 (by decide) ⟨by decide, by decide⟩ (by decide),
    (createRecord_buffer_or_flush 2 10 (createStart (Disk.empty true)) wrapRecord
      (by decide)).2.2.2 (fun _ => Nat.zero_le _)⟩
  · obtain ⟨st1, h, ht, hs, hd, _⟩ :=
      (createRecord_buffer_or_flush 2 10 (createStart (Disk.empty true)) wrapRecord
        (by decide)).1 (by decide)
    rw [hid] at ht hs
    exact ⟨st1, h, ht, hs, hd⟩
  · obtain ⟨st1, h, _, hd, ht, hs, _⟩ :=
      (createRecord_buffer_or_flush 2 10
        { createStart (Disk.empty true) with
          table := fun n => if n = 1 then [itemOf wrapRecord] else []
          space := fun n => if n = 1 then 10 else 0 } wrapRecord
        (by decide)).2.1 (by decide) rfl rfl rfl
    rw [hid] at ht hs hd
    exact ⟨st1, h, by rw [hd]; decide, ht, hs⟩

/-! ## Create: every bucket file is a subsequence of the dump -/

theorem createRecord_holds (ts bs : Nat) (hts : ts ≠ 0) (st : CreateState)
    (W P : Nat → List Record) (done : List Record) (r : Record) (hH : st.Holds W P)
    (hsub : ∀ n, (W n ++ P n).Sublist
      (done.filter (fun x => decide (createFileId ts x.key = n))))
    (hr : r.InBounds) :
    ∃ st1 W1 P1, createRecord ts bs st r = some st1 ∧ st1.Holds W1 P1 ∧
      ∀ n, (W1 n ++ P1 n).Sublist
        ((done ++ [r]).filter (fun x => decide (createFileId ts x.key = n))) := by
  obtain ⟨hdir, ha, hw, hdata, htab, hpib⟩ := hH
  unfold createRecord createBody
  simp only [hts, if_false]
  by_cases hfit : (st.space (createFileId ts r.key) +
      (4 + 4 + r.key.length + r.value.length)) % u32 ≤ bs
  · simp only [hfit, if_true]
    refine ⟨_, W, fun n => if n = createFileId ts r.key then P (createFileId ts r.key) ++ [r]
      else P n, rfl, ⟨hdir, ha, hw, hdata, ?_, ?_⟩, ?_⟩
    · intro n
      by_cases hn : n = createFileId ts r.key
      · simp only [hn, if_true, htab, List.map_append, List.map_cons, List.map_nil, itemOf]
      · simp only [hn, if_false, htab]
    · intro n x hx
      by_cases hn : n = createFileId ts r.key
      · simp only [hn, if_true, List.mem_append, List.mem_singleton] at hx
        rcases hx with h1 | h1
        · exact hpib _ x h1
        · exact h1 ▸ hr
      · simp only [hn, if_false] at hx
        exact hpib n x hx
    · intro n
      rw [List.filter_append]
      by_cases hn : n = createFileId ts r.key
      · subst hn
        simp only [if_true, ← List.append_assoc]
        refine List.Sublist.append (hsub _) ?_
        simp [List.filter_cons]
      · simp only [hn, if_false]
        exact (hsub n).trans (List.sublist_append_left _ _)
  · simp only [hfit, if_false]
    have hwr := Write_ok st.disk (createFileId ts r.key) (P (createFileId ts r.key)) hdir
      (ha _) (hw _) (hpib _)
    rw [← htab] at hwr
    refine ⟨_, fun n => if n = createFileId ts r.key then
        W (createFileId ts r.key) ++ P (createFileId ts r.key) else W n,
      fun n => if n = createFileId ts r.key then [] else P n, rfl,
      ⟨?_, ?_, ?_, ?_, ?_, ?_⟩, ?_⟩
    · simp only [hwr]; exact hdir
    · simp only [hwr]; exact ha
    · simp only [hwr]; exact hw
    · intro n
      simp only [hwr]
      by_cases hn : n = createFileId ts r.key
      · subst hn
        simp only [Disk.setData, if_true, Option.getD_some, hdata, encodeRecords_append]
      · simp only [Disk.setData, hn, if_false, hdata]
    · intro n
      by_cases hn : n = createFileId ts r.key
      · simp only [hn, if_true, List.map_nil]
      · simp only [hn, if_false, htab]
    · intro n x hx
      by_cases hn : n = createFileId ts r.key
      · simp only [hn, if_true, List.not_mem_nil] at hx
      · simp only [hn, if_false] at hx
        exact hpib n x hx
    · intro n
      rw [List.filter_append]
      by_cases hn : n = createFileId ts r.key
      · subst hn
        simp only [if_true, List.append_nil]
        exact (hsub _).trans (List.sublist_append_left _ _)
      · simp only [hn, if_false]
        exact (hsub n).trans (List.sublist_append_left _ _)

theorem createLoop_holds (ts bs : Nat) (hts : ts ≠ 0) (fuel : Nat) (s : List Byte)
    (st : CreateState) (W P : Nat → List Record) (done : List Record)
    (hfuel : s.length < fuel) (hH : st.Holds W P)
    (hsub : ∀ n, (W n ++ P n).Sublist
      (done.filter (fun x => decide (createFileId ts x.key = n))))
    (hib : ∀ r ∈ decodeRecords fuel s, r.InBounds) :
    ∃ exit st1 W1 P1, createLoop ts bs fuel s st = some exit ∧ st1.Holds W1 P1 ∧
      (∀ n, (W1 n ++ P1 n).Sublist
        ((done ++ decodeRecords fuel s).filter
          (fun x => decide (createFileId ts x.key = n)))) ∧
      (exit = CreateExit.finished st1 ∨ ∃ status, exit = CreateExit.returned status st1.disk) := by
  induction fuel generalizing s st W P done with
  | zero => omega
  | succ fuel ih =>
    have stop : ∀ exit, decodeRecords (fuel + 1) s = [] →
        (exit = CreateExit.finished st ∨
          ∃ status, exit = CreateExit.returned status st.disk) →
        ∃ st1 W1 P1, st1.Holds W1 P1 ∧
          (∀ n, (W1 n ++ P1 n).Sublist
            ((done ++ decodeRecords (fuel + 1) s).filter
              (fun x => decide (createFileId ts x.key = n)))) ∧
          (exit = CreateExit.finished st1 ∨
            ∃ status, exit = CreateExit.returned status st1.disk) := by
      intro exit e hex
      refine ⟨st, W, P, hH, ?_, hex⟩
      rw [e, List.append_nil]
      exact hsub
    unfold createLoop
    cases h1 : readU32 s with
    | none =>
      exact ⟨_, (stop _ (by simp only [decodeRecords, h1]) (Or.inl rfl)).imp
        (fun st1 h => h.imp (fun W1 h => h.imp (fun P1 h => ⟨rfl, h⟩)))⟩
    | some p1 =>
      obtain ⟨key_size, s1⟩ := p1
      simp only []
      by_cases hks : key_size ≥ kMaxKeySize
      · simp only [hks, if_true]
        exact ⟨_, (stop _ (by simp only [decodeRecords, h1, hks, if_true])
          (Or.inr ⟨_, rfl⟩)).imp
          (fun st1 h => h.imp (fun W1 h => h.imp (fun P1 h => ⟨rfl, h⟩)))⟩
      · simp only [hks, if_false]
        cases h2 : readBytes key_size s1 with
        | none =>
          exact ⟨_, (stop _ (by simp only [decodeRecords, h1, hks, if_false, h2])
            (Or.inr ⟨_, rfl⟩)).imp
            (fun st1 h => h.imp (fun W1 h => h.imp (fun P1 h => ⟨rfl, h⟩)))⟩
        | some p2 =>
          obtain ⟨key, s2⟩ := p2
          simp only []
          cases h3 : readU32 s2 with
          | none =>
            exact ⟨_, (stop _ (by simp only [decodeRecords, h1, hks, if_false, h2, h3])
              (Or.inr ⟨_, rfl⟩)).imp
              (fun st1 h => h.imp (fun W1 h => h.imp (fun P1 h => ⟨rfl, h⟩)))⟩
          | some p3 =>
            obtain ⟨value_size, s3⟩ := p3
            simp only []
            by_cases hvs : value_size ≥ kMaxValueSize
            · simp only [hvs, if_true]
              exact ⟨_, (stop _
                (by simp only [decodeRecords, h1, hks, if_false, h2, h3, hvs, if_true])
                (Or.inr ⟨_, rfl⟩)).imp
                (fun st1 h => h.imp (fun W1 h => h.imp (fun P1 h => ⟨rfl, h⟩)))⟩
            · simp only [hvs, if_false]
              cases h4 : readBytes value_size s3 with
              | none =>
                exact ⟨_, (stop _
                  (by simp only [decodeRecords, h1, hks, if_false, h2, h3, hvs, h4])
                  (Or.inr ⟨_, rfl⟩)).imp
                  (fun st1 h => h.imp (fun W1 h => h.imp (fun P1 h => ⟨rfl, h⟩)))⟩
              | some p4 =>
                obtain ⟨value, s4⟩ := p4
                simp only []
                have hk := readBytes_some h2
                have hv := readBytes_some h4
                have hl1 := (readU32_some h1).1
                have hl3 := (readU32_some h3).1
                have hlen : s4.length < fuel := by
                  have e2 := congrArg List.length hk.1
                  have e4 := congrArg List.length hv.1
                  simp only [List.length_append] at e2 e4
                  omega
                have e : decodeRecords (fuel + 1) s =
                    { key := key, value := value } :: decodeRecords fuel s4 := by
                  simp only [decodeRecords, h1, hks, if_false, h2, h3, hvs, h4]
                rw [e] at hib
                obtain ⟨st0, W0, P0, hrec, hH0, hsub0⟩ := createRecord_holds ts bs hts st W P
                  done { key := key, value := value } hH hsub
                  (hib _ (List.mem_cons_self _ _))
                have h5 : createBody ts bs st key_size key value_size value = some st0 := by
                  unfold createRecord at hrec
                  simpa only [hk.2, hv.2] using hrec
                rw [h5]
                obtain ⟨exit, st1, W1, P1, hloop, hH1, hsub1, hex⟩ := ih s4 st0 W0 P0
                  (done ++ [{ key := key, value := value }]) hlen hH0 hsub0
                  (fun r hr => hib r (List.mem_cons_of_mem _ hr))
                refine ⟨exit, st1, W1, P1, hloop, hH1, ?_, hex⟩
                rw [e]
                simpa only [List.append_assoc, List.singleton_append] using hsub1

theorem flushAll_holds (ids : List Nat) (st : CreateState) (W P : Nat → List Record)
    (hH : st.Holds W P) :
    ∀ n, ∃ L, ((flushAll ids st).2.data n).getD [] = encodeRecords L ∧
      L.Sublist (W n ++ P n) := by
  induction ids generalizing st W P with
  | nil =>
    intro n
    exact ⟨W n, hH.2.2.2.1 n, List.sublist_append_left _ _⟩
  | cons id ids ih =>
    obtain ⟨hdir, ha, hw, hdata, htab, hpib⟩ := hH
    simp only [flushAll]
    by_cases hp : (st.table id).length > 0
    · simp only [hp, if_true]
      have hwr := Write_ok st.disk id (P id) hdir (ha id) (hw id) (hpib id)
      rw [← htab] at hwr
      simp only [hwr, Status.IsOK, Bool.not_true, Bool.false_eq_true, if_false]
      have hnext := ih
        { status := Status.OK
          space := fun n => if n = id then 0 else st.space n
          table := fun n => if n = id then [] else st.table n
          disk := st.disk.setData id ((st.disk.data id).getD [] ++ encodeRecords (P id)) }
        (fun n => if n = id then W id ++ P id else W n)
        (fun n => if n = id then [] else P n)
        ⟨hdir, ha, hw,
          by
            intro n
            by_cases hn : n = id
            · subst hn
              simp only [Disk.setData, if_true, Option.getD_some, hdata, encodeRecords_append]
            · simp only [Disk.setData, hn, if_false, hdata],
          by
            intro n
            by_cases hn : n = id
            · simp only [hn, if_true, List.map_nil]
            · simp only [hn, if_false, htab],
          by
            intro n x hx
            by_cases hn : n = id
            · simp only [hn, if_true, List.not_mem_nil] at hx
            · simp only [hn, if_false] at hx
              exact hpib n x hx⟩
      intro n
      obtain ⟨L, hL, hsub⟩ := hnext n
      refine ⟨L, hL, ?_⟩
      by_cases hn : n = id
      · subst hn
        simpa only [if_true, List.append_nil] using hsub
      · simpa only [hn, if_false] using hsub
    · simp only [hp, if_false]
      exact ih st W P ⟨hdir, ha, hw, hdata, htab, hpib⟩

theorem decodeRecords_inRange (fuel : Nat) (s : List Byte) :
    ∀ r ∈ decodeRecords fuel s, r.InRange := by
  induction fuel generalizing s with
  | zero => simp [decodeRecords]
  | succ fuel ih =>
    intro r hr
    unfold decodeRecords at hr
    cases h1 : readU32 s with
    | none => simp [h1] at hr
    | some p1 =>
      obtain ⟨key_size, s1⟩ := p1
      simp only [h1] at hr
      by_cases hks : key_size ≥ kMaxKeySize
      · simp [hks] at hr
      · simp only [hks, if_false] at hr
        cases h2 : readBytes key_size s1 with
        | none => simp [h2] at hr
        | some p2 =>
          obtain ⟨key, s2⟩ := p2
          simp only [h2] at hr
          cases h3 : readU32 s2 with
          | none => simp [h3] at hr
          | some p3 =>
            obtain ⟨value_size, s3⟩ := p3
            simp only [h3] at hr
            by_cases hvs : value_size ≥ kMaxValueSize
            · simp [hvs] at hr
            · simp only [hvs, if_false] at hr
              cases h4 : readBytes value_size s3 with
              | none => simp [h4] at hr
              | some p4 =>
                obtain ⟨value, s4⟩ := p4
                simp only [h4, List.mem_cons] at hr
                rcases hr with rfl | hr
                · have hk := (readBytes_some h2).2
                  have hv := (readBytes_some h4).2
                  exact ⟨by show key.length < kMaxKeySize; omega,
                    by show value.length < kMaxValueSize; omega⟩
                · exact ih s4 r hr

theorem decodeRecords_encodeRecords (rs : List Record) (tail : List Byte)
    (hrs : ∀ r ∈ rs, r.InRange) (f : Nat) :
    decodeRecords (rs.length + f) (encodeRecords rs ++ tail) = rs ++ decodeRecords f tail := by
  induction rs with
  | nil => simp [encodeRecords]
  | cons r rs ih =>
    obtain ⟨hk, hv⟩ := hrs r (List.mem_cons_self _ _)
    have hk32 : r.key.length < u32 := by unfold kMaxKeySize at hk; unfold u32; omega
    have hv32 : r.value.length < u32 := by unfold kMaxValueSize at hv; unfold u32; omega
    have e : (r :: rs).length + f = (rs.length + f) + 1 := by
      simp only [List.length_cons]
      omega
    have e2 : encodeRecords (r :: rs) ++ tail =
        encodeU32 r.key.length ++ (r.key ++ (encodeU32 r.value.length ++
          (r.value ++ (encodeRecords rs ++ tail)))) := by
      simp [encodeRecords, encodeRecord, List.append_assoc]
    rw [e, e2, decodeRecords, readU32_encodeU32 _ _ hk32]
    simp only [ge_iff_le, Nat.not_le.mpr hk, if_false, readBytes_append,
      readU32_encodeU32 _ _ hv32, Nat.not_le.mpr hv]
    rw [ih (fun x hx => hrs x (List.mem_cons_of_mem _ hx))]
    rfl

/-- C21, counterexample: (1) the dump holds the one record with key `"a\0"` and
value `"b"`, and `table_size = 3`.  `Create` returns OK and writes the record,
zero byte included, to `data1`, the bucket of `Hash("a") mod 3`; the hash of
the key of the record is 12707, and `12707 mod 3 = 2`.  (2) The dump holds the
one record with key `"a\0b"` and value `"v"`, and there is one bucket.
`Create` returns OK and `data0` decodes to the one record with key `"a\0\0"`
(the byte after the terminator is 0 here), which is not a record of the dump. -/
theorem Create_bucket_counterexample :
    (RyougiDB.Create RyougiDB.new (Disk.empty true)
        (some (encodeRecords [{ key := [97, 0], value := [98] }])) 3 4096).map
        (fun res => (res.1, res.2.2.data 1, res.2.2.data 2)) =
      some (Status.OK, some (encodeRecords [{ key := [97, 0], value := [98] }]), none) ∧
    RyougiDB.Hash [97, 0] % 3 = 2 ∧
    RyougiDB.Hash (cstr [97, 0]) % 3 = 1 ∧
    (RyougiDB.Create RyougiDB.new (Disk.empty true)
        (some (encodeRecords [{ key := [97, 0, 98], value := [118] }])) 1 4096).map
        (fun res => (res.1, (res.2.2.data 0).map (decodeRecords 2))) =
      some (Status.OK, some [{ key := [97, 0, 0], value := [118] }]) ∧
    decodeRecords 2 (encodeRecords [{ key := [97, 0, 98], value := [118] }]) =
      [{ key := [97, 0, 98], value := [118] }] := by
  decide

/-- C21 (amended): for every source dump in whose records a zero byte can only
be the last byte of a key or value, every `table_size >= 1` and every
`buffer_size`, `Create` into an empty base directory (file operations
succeeding) returns, with whatever status, and every bucket file `data<N>` it
leaves is the concatenation of the encodings of a list of records that is an
order-preserving subsequence of the records the loop decoded from the dump
whose key, cut at its first zero byte, hashes to `N`.  The decoded records are
within the size limits, and for a key without a zero byte that bucket is
`Hash(key) mod table_size`. -/
theorem Create_files_sublist (db : RyougiDB) (root : Bool) (slack : List Byte → Nat → Byte)
    (dump : List Byte) (ts bs : Nat) (hts : 1 ≤ ts)
    (hib : ∀ r ∈ decodeRecords (dump.length + 1) dump, r.InBounds) :
    (∃ res, RyougiDB.Create db (Disk.emptyWith root slack) (some dump) ts bs = some res ∧
      ∀ n bytes, res.2.2.data n = some bytes →
        ∃ L : List Record, bytes = encodeRecords L ∧
          L.Sublist ((decodeRecords (dump.length + 1) dump).filter
            (fun r => decide (createFileId ts r.key = n)))) ∧
    (∀ r ∈ decodeRecords (dump.length + 1) dump,
      r.InRange ∧ ((0 : Byte) ∉ r.key → createFileId ts r.key = getFileId ts r.key)) := by
  have hts0 : ts ≠ 0 := by omega
  have hc := Create_eq db (Disk.emptyWith root slack) dump ts bs rfl
  refine ⟨?_, ?_⟩
  · obtain ⟨exit, st1, W1, P1, hloop, hH1, hsub1, hex⟩ := createLoop_holds ts bs hts0
      (dump.length + 1) dump (createStart (Disk.emptyWith root slack)) (fun _ => [])
      (fun _ => []) [] (Nat.lt_succ_self _)
      ⟨rfl, fun _ => rfl, fun _ => rfl, fun _ => rfl, fun _ => rfl,
        fun _ _ h => absurd h (List.not_mem_nil _)⟩
      (fun _ => by simp) hib
    simp only [List.nil_append] at hsub1
    rw [hloop] at hc
    rcases hex with rfl | ⟨status, rfl⟩
    · refine ⟨_, hc, fun n bytes hb => ?_⟩
      simp only at hb
      obtain ⟨L, hL, hsubL⟩ := flushAll_holds (List.range ts) st1 W1 P1 hH1 n
      rw [hb, Option.getD_some] at hL
      exact ⟨L, hL, hsubL.trans (hsub1 n)⟩
    · refine ⟨_, hc, fun n bytes hb => ?_⟩
      simp only at hb
      have hL := hH1.2.2.2.1 n
      rw [hb, Option.getD_some] at hL
      exact ⟨W1 n, hL, (List.sublist_append_left _ _).trans (hsub1 n)⟩
  · intro r hr
    refine ⟨decodeRecords_inRange _ _ r hr, fun h0 => ?_⟩
    unfold createFileId getFileId
    rw [cstr_of_not_mem _ h0]

/-- C21, witness: a dump of four ten-byte records followed by half a length
field, with two buckets and `buffer_size = 10`.  The second record of bucket 1
overflows the batch and is dropped, the first is flushed and the third is
written by the final loop: `data1` holds the first and the third, in order. -/
theorem Create_files_sublist_witness :
    decodeRecords 44
        (encodeRecords [{ key := [97], value := [49] }, { key := [99], value := [50] },
          { key := [98], value := [51] }, { key := [101], value := [52] }] ++ [7, 0]) =
      [{ key := [97], value := [49] }, { key := [99], value := [50] },
        { key := [98], value := [51] }, { key := [101], value := [52] }] ∧
    (RyougiDB.Create RyougiDB.new (Disk.empty true)
        (some (encodeRecords [{ key := [97], value := [49] }, { key := [99], value := [50] },
          { key := [98], value := [51] }, { key := [101], value := [52] }] ++ [7, 0]))
        2 10).map (fun res => (res.1, res.2.2.data 0, res.2.2.data 1)) =
      some (Status.OK, some (encodeRecords [{ key := [98], value := [51] }]),
        some (encodeRecords [{ key := [97], value := [49] },
          { key := [101], value := [52] }])) ∧
    ∃ res, RyougiDB.Create RyougiDB.new (Disk.empty true)
        (some (encodeRecords [{ key := [97], value := [49] }, { key := [99], value := [50] },
          { key := [98], value := [51] }, { key := [101], value := [52] }] ++ [7, 0]))
        2 10 = some res ∧
      ∀ n bytes, res.2.2.data n = some bytes →
        ∃ L : List Record, bytes = encodeRecords L ∧
          L.Sublist ((decodeRecords
            ((encodeRecords [{ key := [97], value := [49] }, { key := [99], value := [50] },
              { key := [98], value := [51] }, { key := [101], value := [52] }] ++
                [7, 0]).length + 1)
            (encodeRecords [{ key := [97], value := [49] }, { key := [99], value := [50] },
              { key := [98], value := [51] }, { key := [101], value := [52] }] ++
                [7, 0])).filter
            (fun r => decide (createFileId 2 r.key = n))) :=
  ⟨by decide, by decide,
    (Create_files_sublist RyougiDB.new true (fun _ _ => 0)
      (encodeRecords [{ key := [97], value := [49] }, { key := [99], value := [50] },
        { key := [98], value := [51] }, { key := [101], value := [52] }] ++ [7, 0])
      2 10 (by decide)
      (by
        have e : decodeRecords
            ((encodeRecords [{ key := [97], value := [49] }, { key := [99], value := [50] },
              { key := [98], value := [51] }, { key := [101], value := [52] }] ++
                [7, 0]).length + 1)
            (encodeRecords [{ key := [97], value := [49] }, { key := [99], value := [50] },
              { key := [98], value := [51] }, { key := [101], value := [52] }] ++ [7, 0]) =
            [{ key := [97], value := [49] }, { key := [99], value := [50] },
              { key := [98], value := [51] }, { key := [101], value := [52] }] := by decide
        rw [e]
        intro r hr
        simp only [List.mem_cons, List.mem_singleton, List.not_mem_nil, or_false] at hr
        rcases hr with rfl | rfl | rfl | rfl <;> exact ⟨by decide, by decide⟩)).1⟩

end ryougidb
